import Mathlib

/-!
Verification of the task-hierarchy and archival engine of a single-file
task-list manager (Go package `task`).

Strings are modelled as `List Char`; the content of a file is one such list, and
lines are obtained by splitting on the newline character, mirroring
`strings.Split(content, "\n")`.  Go's `time.Time` values are modelled as
instants measured in nanoseconds (`ℤ`); a calendar date parsed from a
`@done(YYYY-MM-DD)` tag denotes the instant at midnight UTC of that day,
obtained through the standard civil-from-days serial-day formula, which is
order- and arithmetic-faithful to the Go internal absolute-time representation.
`time.Now()` is an ambient input of the Go code; here it is threaded as an
explicit parameter (`now : ℤ`, nanoseconds; `today` strings are likewise
explicit parameters), so every operation becomes a pure function.
-/

set_option linter.unusedVariables false

namespace TaskSpec

/-- Newline character used by `strings.Split(content, "\n")` / `strings.Join`. -/
def nlChar : Char := '\n'

/-- The Go regexp `\s` character class: `[\t\n\f\r ]`. -/
def isSpaceGo (c : Char) : Bool :=
  c = ' ' || c = '\t' || c = '\n' || Char.ofNat 12 = c || c = '\r'

/-- Decimal digit test, Go regexp `\d` = `[0-9]`. -/
def isDigitGo (c : Char) : Bool := '0' ≤ c && c ≤ '9'

/-- Whether `p` is a literal prefix of `s`. -/
def strStarts : List Char → List Char → Bool
  | _, [] => true
  | [], _ :: _ => false
  | c :: s, p :: ps => c = p && strStarts s ps

/-- `strings.Replace(s, old, new, 1)`: replace the leftmost occurrence of
`old` in `s` by `new` (no change when `old` does not occur). -/
def replaceFirst (s old new : List Char) : List Char :=
  match s with
  | [] => []
  | c :: rest =>
    if strStarts (c :: rest) old then new ++ (c :: rest).drop old.length
    else c :: replaceFirst rest old new

/-- Match of the completed-task regexp `^\s*-\s*\[[xX]\]` (`completedPattern`).
The regexp is anchored and every literal after a `\s*` is a non-space
character, so greedy maximal munch is the unique match strategy. -/
def IsCompleted (line : List Char) : Bool :=
  match line.dropWhile isSpaceGo with
  | '-' :: rest =>
    match rest.dropWhile isSpaceGo with
    | '[' :: c :: ']' :: _ => c = 'x' || c = 'X'
    | _ => false
  | _ => false

/-- Match of the task regexp `^\s*-\s*\[[xX ]\]` (`taskPattern`). -/
def IsTask (line : List Char) : Bool :=
  match line.dropWhile isSpaceGo with
  | '-' :: rest =>
    match rest.dropWhile isSpaceGo with
    | '[' :: c :: ']' :: _ => c = 'x' || c = 'X' || c = ' '
    | _ => false
  | _ => false

/-- Shape of the capture group `\d{4}-\d{2}-\d{2}`. -/
def dateShapedB (cap : List Char) : Bool :=
  match cap with
  | [y1, y2, y3, y4, h1, m1, m2, h2, d1, d2] =>
    isDigitGo y1 && isDigitGo y2 && isDigitGo y3 && isDigitGo y4 &&
    h1 = '-' && isDigitGo m1 && isDigitGo m2 && h2 = '-' &&
    isDigitGo d1 && isDigitGo d2
  | _ => false

/-- Attempted match of `doneTagPattern` = `@done\((\d{4}-\d{2}-\d{2})\)` at the
head of `s` (the pattern has fixed length: 6 literal characters, a
10-character shaped capture, and a closing parenthesis); returns the captured
date string on success. -/
def matchDoneAt (s : List Char) : Option (List Char) :=
  if strStarts s ("@done(".toList) && dateShapedB ((s.drop 6).take 10) &&
      strStarts (s.drop 16) (")".toList) then some ((s.drop 6).take 10)
  else none

/-- Leftmost match of `doneTagPattern` in `line`
(`doneTagPattern.FindStringSubmatch`, capture group 1). -/
def findDoneTag : List Char → Option (List Char)
  | [] => none
  | c :: rest =>
    match matchDoneAt (c :: rest) with
    | some cap => some cap
    | none => findDoneTag rest

/-- `HasDoneTag`: `doneTagPattern.MatchString(line)` — a purely syntactic
digit-pattern test, with no calendar validation. -/
def HasDoneTag (line : List Char) : Bool := (findDoneTag line).isSome

/-- A calendar date as carried by a parsed `@done` tag. -/
structure DoneDate where
  year : ℕ
  month : ℕ
  day : ℕ
deriving DecidableEq, Repr

instance : Inhabited DoneDate := ⟨⟨1, 1, 1⟩⟩

/-- Gregorian leap-year rule, as enforced by Go `time.Parse`. -/
def isLeapYear (y : ℕ) : Bool :=
  y % 4 = 0 && (y % 100 ≠ 0 || y % 400 = 0)

/-- Number of days in month `m` of year `y`. -/
def daysInMonth (y m : ℕ) : ℕ :=
  if m = 2 then (if isLeapYear y then 29 else 28)
  else if m = 4 || m = 6 || m = 9 || m = 11 then 30
  else 31

/-- Calendar validity as checked by Go `time.Parse` with layout `2006-01-02`:
month in 1..12 and day in 1..days-of-that-month. -/
def validDate (y m d : ℕ) : Bool :=
  1 ≤ m && m ≤ 12 && 1 ≤ d && d ≤ daysInMonth y m

/-- Serial day number of a civil date (days since 1970-01-01, the standard
days-from-civil formula); a strictly monotone image of Go absolute time
for midnight instants. -/
def daysFromCivil (y m d : ℤ) : ℤ :=
  let y2 : ℤ := if m ≤ 2 then y - 1 else y
  let era : ℤ := Int.fdiv y2 400
  let yoe : ℤ := y2 - era * 400
  let mp : ℤ := Int.emod (m + 9) 12
  let doy : ℤ := Int.fdiv (153 * mp + 2) 5 + d - 1
  let doe : ℤ := yoe * 365 + Int.fdiv yoe 4 - Int.fdiv yoe 100 + doy
  era * 146097 + doe - 719468

/-- Serial day number of a `DoneDate`. -/
def DoneDate.serial (dt : DoneDate) : ℤ :=
  daysFromCivil dt.year dt.month dt.day

/-- Nanoseconds in a day; Go `time.Duration` of 24h. -/
def nsPerDay : ℤ := 86400000000000

/-- The instant (nanoseconds) of midnight UTC on the given date, as produced
by Go `time.Parse` with layout `2006-01-02`. -/
def DoneDate.instant (dt : DoneDate) : ℤ := dt.serial * nsPerDay

/-- Numeric value of a decimal digit character. -/
def digitVal (c : Char) : ℕ := c.toNat - '0'.toNat

/-- Calendar validation of a captured `YYYY-MM-DD` string: the digit-valued
year/month/day must form a real calendar date (Go `time.Parse` behaviour). -/
def parseCap (cap : List Char) : Option DoneDate :=
  match cap with
  | [y1, y2, y3, y4, _, m1, m2, _, d1, d2] =>
    if validDate (1000 * digitVal y1 + 100 * digitVal y2 + 10 * digitVal y3 + digitVal y4)
        (10 * digitVal m1 + digitVal m2) (10 * digitVal d1 + digitVal d2) = true then
      some ⟨1000 * digitVal y1 + 100 * digitVal y2 + 10 * digitVal y3 + digitVal y4,
        10 * digitVal m1 + digitVal m2, 10 * digitVal d1 + digitVal d2⟩
    else none
  | _ => none

/-- `ParseDoneDate`: extract the first `@done(YYYY-MM-DD)` capture and run it
through the calendar validation of Go `time.Parse`; `none` when there is no
digit-pattern match or the captured string is not a real calendar date. -/
def ParseDoneDate (line : List Char) : Option DoneDate :=
  match findDoneTag line with
  | none => none
  | some cap => parseCap cap

/-- The literal text ` @done(` ++ today ++ `)` appended by the tagger. -/
def doneTagText (today : List Char) : List Char :=
  (" @done(".toList) ++ today ++ (")".toList)

/-- `AddDoneTag`: append ` @done(today)` to a completed task lacking a tag;
`today` (in Go, `time.Now().Format("2006-01-02")`) is an explicit parameter. -/
def AddDoneTag (today line : List Char) : List Char × Bool :=
  if !IsCompleted line then (line, false)
  else if HasDoneTag line then (line, false)
  else (line ++ doneTagText today, true)

/-- `GetIndentLevel`: leading whitespace width, a space counting 1 and a tab
counting `TabWidth = 2`, stopping at the first other character. -/
def GetIndentLevel : List Char → ℕ
  | [] => 0
  | c :: rest =>
    if c = ' ' then 1 + GetIndentLevel rest
    else if c = '\t' then 2 + GetIndentLevel rest
    else 0

/-- The `ParsedLine` struct: a physical line annotated with its position,
indent and classifier flags. -/
structure ParsedLine where
  lineNumber : ℕ
  content : List Char
  indent : ℕ
  isTask : Bool
  isCompleted : Bool
  hasDoneTag : Bool
deriving DecidableEq, Repr

instance : Inhabited ParsedLine := ⟨⟨0, [], 0, false, false, false⟩⟩

/-- Classify one raw line at position `i` (loop body of `ParseLines`). -/
def mkParsedLine (i : ℕ) (s : List Char) : ParsedLine :=
  ⟨i, s, GetIndentLevel s, IsTask s, IsCompleted s, HasDoneTag s⟩

/-- `strings.Split(content, "\n")`. -/
def splitLines (content : List Char) : List (List Char) :=
  content.splitOn nlChar

/-- `ParseLines`: split on newline and classify each line. -/
def ParseLines (content : List Char) : List ParsedLine :=
  (splitLines content).enum.map (fun p => mkParsedLine p.1 p.2)

/-- `ReconstructContent`: join the `content` fields with newline
(`strings.Join(contents, "\n")`). -/
def ReconstructContent (lines : List ParsedLine) : List Char :=
  [nlChar].intercalate (lines.map (·.content))

/-- The `TaskTree` struct: a task node holding the position of its line and
its child subtrees.  (The Go struct holds a pointer into the parsed-line
slice; here a node holds the position of the line and the walks below read the
current line store at that position, which is exactly what reading through
the pointer does.) -/
inductive TaskTree where
  | node (idx : ℕ) (children : List TaskTree)
deriving Repr

/-- Position of the root line of a tree. -/
def TaskTree.topIdx : TaskTree → ℕ
  | .node i _ => i

/-- Child subtrees of a tree. -/
def TaskTree.childrenOf : TaskTree → List TaskTree
  | .node _ cs => cs

/-- An open stack entry of `BuildTaskTrees`: a task whose children are still
being collected.  In Go a child is appended to the `Children` slice of its parent
through a pointer the moment it arrives; in this purely functional rendering
the finished child subtree is appended when the child is popped, which
produces the same `Children` lists in the same order. -/
structure Frame where
  idx : ℕ
  indent : ℕ
  children : List TaskTree

/-- Close an open frame into a finished subtree. -/
def closeFrame (f : Frame) : TaskTree := .node f.idx f.children

/-- Inner state of the pop loop: `pending` is the subtree just closed, still
to be attached to the next surviving stack entry below (or to the forest when
the stack runs out). -/
def popGo (d : ℕ) (pending : TaskTree) : List Frame → List TaskTree →
    List Frame × List TaskTree
  | [], forest => ([], forest ++ [pending])
  | g :: rest, forest =>
    if d ≤ g.indent then
      popGo d (closeFrame { g with children := g.children ++ [pending] }) rest forest
    else ({ g with children := g.children ++ [pending] } :: rest, forest)

/-- The `for ... { pop }` loop of `BuildTaskTrees`: pop stack entries whose
indent is ≥ `d`, attaching each finished subtree to the entry below it, or to
the forest when the stack empties.  The head of the stack is its top. -/
def popFrames (d : ℕ) : List Frame → List TaskTree → List Frame × List TaskTree
  | [], forest => ([], forest)
  | f :: rest, forest =>
    if d ≤ f.indent then popGo d (closeFrame f) rest forest
    else (f :: rest, forest)

/-- One iteration of the `BuildTaskTrees` loop: non-task lines are skipped;
a task line pops the deeper stack entries and is pushed as a fresh frame. -/
def buildStep (st : List Frame × List TaskTree) (pl : ParsedLine) :
    List Frame × List TaskTree :=
  if pl.isTask then
    (⟨pl.lineNumber, pl.indent, []⟩ :: (popFrames pl.indent st.1 st.2).1,
      (popFrames pl.indent st.1 st.2).2)
  else st

/-- `BuildTaskTrees`: run the stack loop over all lines, then flush the
remaining open frames (indent ≥ 0 always holds, so popping at depth 0 closes
everything). -/
def BuildTaskTrees (lines : List ParsedLine) : List TaskTree :=
  (popFrames 0 (lines.foldl buildStep ([], [])).1 (lines.foldl buildStep ([], [])).2).2

/-- Read the line at position `idx` of the current line store (the Go code
reads `lines[idx]` through the node pointer). -/
def lineAt (st : List ParsedLine) (idx : ℕ) : ParsedLine :=
  st.getD idx default

/-- `markTreeCompleted` (single node): check `[ ]` to `[x]`, append the tag,
and set the flags, exactly when the line is not already completed. -/
def markLineCompleted (today : List Char) (st : List ParsedLine) (idx : ℕ) :
    List ParsedLine × ℕ :=
  let line := lineAt st idx
  if !line.isCompleted then
    let newContent := replaceFirst line.content ("[ ]".toList) ("[x]".toList)
        ++ doneTagText today
    (st.set idx { line with
        content := newContent, isCompleted := true, hasDoneTag := true }, 1)
  else (st, 0)

mutual

/-- `markTreeCompleted`: mark a task and all of its descendants completed. -/
def markTreeCompleted (today : List Char) : TaskTree → List ParsedLine →
    List ParsedLine × ℕ
  | .node idx children, st =>
    let p1 := markLineCompleted today st idx
    let p2 := markListCompleted today children p1.1
    (p2.1, p1.2 + p2.2)
termination_by structural t => t

/-- `markTreeCompleted` over a `Children` list, threading the line store. -/
def markListCompleted (today : List Char) : List TaskTree → List ParsedLine →
    List ParsedLine × ℕ
  | [], st => (st, 0)
  | t :: ts, st =>
    let p1 := markTreeCompleted today t st
    let p2 := markListCompleted today ts p1.1
    (p2.1, p1.2 + p2.2)
termination_by structural ts => ts

end

mutual

/-- `cascadeCompletionRecursive`: when the line of the node is (currently)
completed, mark all child subtrees completed; then recurse into the children
so independently completed nodes also trigger. -/
def cascadeRec (today : List Char) : TaskTree → List ParsedLine →
    List ParsedLine × ℕ
  | .node idx children, st =>
    let p1 :=
      if (lineAt st idx).isCompleted then markListCompleted today children st
      else (st, 0)
    let p2 := cascadeList today children p1.1
    (p2.1, p1.2 + p2.2)
termination_by structural t => t

/-- `cascadeCompletionRecursive` over a list of sibling subtrees. -/
def cascadeList (today : List Char) : List TaskTree → List ParsedLine →
    List ParsedLine × ℕ
  | [], st => (st, 0)
  | t :: ts, st =>
    let p1 := cascadeRec today t st
    let p2 := cascadeList today ts p1.1
    (p2.1, p1.2 + p2.2)
termination_by structural ts => ts

end

/-- `CascadeCompletion`: build the forest and run the cascade over each root. -/
def CascadeCompletion (lines : List ParsedLine) (today : List Char) :
    List ParsedLine × ℕ :=
  let trees := BuildTaskTrees lines
  trees.foldl (fun (acc : List ParsedLine × ℕ) t =>
    ((cascadeRec today t acc.1).1, acc.2 + (cascadeRec today t acc.1).2)) (lines, 0)

/-- Sweep body of `ProcessContent`: tag a completed line whose flag says it
still lacks a tag. -/
def sweepLine (today : List Char) (pl : ParsedLine) : ParsedLine × ℕ :=
  if pl.isCompleted && !pl.hasDoneTag then
    ({ pl with content := pl.content ++ doneTagText today, hasDoneTag := true }, 1)
  else (pl, 0)

/-- The tag sweep over all lines, in order. -/
def sweepLines (today : List Char) : List ParsedLine → List ParsedLine × ℕ
  | [] => ([], 0)
  | pl :: rest =>
    ((sweepLine today pl).1 :: (sweepLines today rest).1,
      (sweepLine today pl).2 + (sweepLines today rest).2)

/-- `ProcessContent`: parse, cascade completion from parents to children,
then add `@done(today)` tags to completed lines still lacking one; returns
the reconstructed content and the total number of modified lines.  In Go
`today` is `time.Now().Format("2006-01-02")`; here it is a parameter. -/
def ProcessContent (content today : List Char) : List Char × ℕ :=
  let lines := ParseLines content
  let p1 := CascadeCompletion lines today
  let p2 := sweepLines today p1.1
  (ReconstructContent p2.1, p1.2 + p2.2)

/-- The `ArchiveTask` struct: an archived line with its grouping date. -/
structure ArchiveTask where
  content : List Char
  groupDate : DoneDate
deriving DecidableEq, Repr

/-- The pair of maps built by `FilterArchivable`: `archiveSet` (membership)
and `groupDates` (defaulting to the Go zero `time.Time`, never observed on a
marked line). -/
structure ArchSt where
  mem : ℕ → Bool
  gd : ℕ → DoneDate

/-- The empty maps. -/
def ArchSt.empty : ArchSt := ⟨fun _ => false, fun _ => default⟩

/-- Map assignment `archiveSet[i] = true; groupDates[i] = d`. -/
def ArchSt.add (st : ArchSt) (i : ℕ) (d : DoneDate) : ArchSt :=
  ⟨fun j => j = i || st.mem j, fun j => if j = i then d else st.gd j⟩

mutual

/-- `markArchivableRecursive`: only a forest root can qualify on its own
(completed, tagged, own tag date before the cutoff); descendants inherit
`shouldArchive` and `groupDate` and never qualify independently. -/
def markArchivableRecursive (lines : List ParsedLine) (cutoff : ℤ) :
    TaskTree → ArchSt → Bool → DoneDate → Bool → ArchSt
  | .node idx children, st, parentArchivable, parentDate, isRoot =>
    let line := lineAt lines idx
    let sa : Bool × DoneDate :=
      if isRoot && !parentArchivable && line.isCompleted && line.hasDoneTag then
        match ParseDoneDate line.content with
        | some doneDate =>
          if doneDate.instant < cutoff then (true, doneDate)
          else (parentArchivable, parentDate)
        | none => (parentArchivable, parentDate)
      else (parentArchivable, parentDate)
    let st1 := if sa.1 then st.add idx sa.2 else st
    markArchivableList lines cutoff children st1 sa.1 sa.2
termination_by structural t => t

/-- `markArchivableRecursive` over a `Children` list (`isRoot = false`). -/
def markArchivableList (lines : List ParsedLine) (cutoff : ℤ) :
    List TaskTree → ArchSt → Bool → DoneDate → ArchSt
  | [], st, _, _ => st
  | t :: ts, st, sa, gdate =>
    let st1 := markArchivableRecursive lines cutoff t st sa gdate false
    markArchivableList lines cutoff ts st1 sa gdate
termination_by structural ts => ts

end

/-- Inner loop of `includeNonTaskChildren`: scan forward from an archived
task while the indent stays greater than the task's, marking every not yet
marked non-task line with the task's group date; the scan breaks at the
first line (task or not) of indent ≤ the task's. -/
def sweepSpan (pIndent : ℕ) (g : DoneDate) : List ParsedLine → ArchSt → ArchSt
  | [], st => st
  | pl :: rest, st =>
    if pl.indent ≤ pIndent then st
    else
      let st1 :=
        if !pl.isTask && !st.mem pl.lineNumber then st.add pl.lineNumber g
        else st
      sweepSpan pIndent g rest st1

/-- Outer loop of `includeNonTaskChildren`: every archived task line, in
position order, sweeps the non-task lines of its indent span. -/
def includeNonTaskChildren : List ParsedLine → ArchSt → ArchSt
  | [], st => st
  | pl :: rest, st =>
    let st1 :=
      if st.mem pl.lineNumber && pl.isTask then
        sweepSpan pl.indent (st.gd pl.lineNumber) rest st
      else st
    includeNonTaskChildren rest st1

/-- The fully populated `archiveSet`/`groupDates` maps of
`FilterArchivable content delayDays now`: the root-gated recursive marking
over the forest followed by the non-task sweep.  `now` is the instant
`time.Now()` (nanoseconds); the cutoff is `now.AddDate(0, 0, -delayDays)`,
i.e. `now - delayDays` days, which retains the time of day of `now`. -/
def archiveMarks (content : List Char) (delayDays : ℤ) (now : ℤ) : ArchSt :=
  let lines := ParseLines content
  let trees := BuildTaskTrees lines
  let cutoff := now - delayDays * nsPerDay
  let st1 := trees.foldl
    (fun st t => markArchivableRecursive lines cutoff t st false default true)
    ArchSt.empty
  includeNonTaskChildren lines st1

/-- `FilterArchivable`: partition the lines by the populated `archiveSet`,
pairing each archived line with its group date and joining the rest back
into a content string. -/
def FilterArchivable (content : List Char) (delayDays : ℤ) (now : ℤ) :
    List ArchiveTask × List Char :=
  let lines := ParseLines content
  let st := archiveMarks content delayDays now
  let archivable := lines.filterMap (fun pl =>
    if st.mem pl.lineNumber then some ⟨pl.content, st.gd pl.lineNumber⟩ else none)
  let remaining := (lines.filter (fun pl => !st.mem pl.lineNumber)).map (·.content)
  (archivable, [nlChar].intercalate remaining)

/-- Zero-padded decimal digit characters of `n` over `width` positions. -/
def padNat : ℕ → ℕ → List Char
  | 0, _ => []
  | w + 1, n => padNat w (n / 10) ++ [Char.ofNat (48 + n % 10)]

/-- `GroupDate.Format("2006-01-02")`. -/
def formatDate (dt : DoneDate) : List Char :=
  padNat 4 dt.year ++ ['-'] ++ padNat 2 dt.month ++ ['-'] ++ padNat 2 dt.day

/-- Lexicographic (byte-order) comparison of strings, as used by Go's
`sort.StringSlice`. -/
def strLtB : List Char → List Char → Bool
  | [], [] => false
  | [], _ :: _ => true
  | _ :: _, [] => false
  | a :: as, b :: bs => if a < b then true else if b < a then false else strLtB as bs

/-- Insert a key into a descending-sorted key list. -/
def insertDesc (x : List Char) : List (List Char) → List (List Char)
  | [] => [x]
  | y :: ys => if strLtB x y then y :: insertDesc x ys else x :: y :: ys

/-- Sort keys descending (`sort.Sort(sort.Reverse(sort.StringSlice(dates)))`;
the keys are distinct map keys, so the unstable Go sort and the random Go map
iteration order still determine this unique descending list). -/
def sortKeysDesc : List (List Char) → List (List Char)
  | [] => []
  | x :: xs => insertDesc x (sortKeysDesc xs)

/-- The distinct formatted group dates in first-appearance order (the key set
of the Go `byDate` map). -/
def gatherKeys : List ArchiveTask → List (List Char)
  | [] => []
  | t :: ts =>
    let rest := gatherKeys ts
    if formatDate t.groupDate ∈ rest then rest else formatDate t.groupDate :: rest

/-- `byDate[dateStr]`: the contents of the tasks whose formatted group date
is `key`, in original order (Go appends while ranging over `tasks`). -/
def tasksFor (key : List Char) (tasks : List ArchiveTask) : List (List Char) :=
  (tasks.filter (fun t => formatDate t.groupDate = key)).map (·.content)

/-- One `## date` section of the archive entry. -/
def sectionFor (tasks : List ArchiveTask) (key : List Char) : List Char :=
  ("## ".toList) ++ key ++ [nlChar, nlChar] ++
    ((tasksFor key tasks).map (fun t => t ++ [nlChar])).flatten ++ [nlChar]

/-- `FormatArchiveEntry`: group by formatted `GroupDate`, emit sections in
descending date order, each section listing its tasks in original order. -/
def FormatArchiveEntry (tasks : List ArchiveTask) : List Char :=
  if tasks = [] then []
  else ((sortKeysDesc (gatherKeys tasks)).map (sectionFor tasks)).flatten

/-- State of one file, including an access-failure mode so that the fallible
`os` calls can be modelled: `unreadable` stands for a file whose read fails
with a non-`NotExist` error. -/
inductive FileState where
  | absent
  | present (content : List Char)
  | unreadable
deriving DecidableEq, Repr

/-- The error values surfaced by the modelled I/O boundary. -/
inductive IOErr where
  | notFound
  | readErr
deriving DecidableEq, Repr

/-- The pair of files `Archive` works on. -/
structure FS where
  tasks : FileState
  archive : FileState
deriving DecidableEq, Repr

/-- `LoadFile` (`os.ReadFile`): error when the file is absent or unreadable. -/
def LoadFileM : FileState → Except IOErr (List Char)
  | .absent => .error .notFound
  | .unreadable => .error .readErr
  | .present c => .ok c

/-- `WriteFile` (`os.WriteFile`): create or overwrite. -/
def WriteFileM (content : List Char) : FileState := .present content

/-- `PrependToFile`: load the existing content, treating `NotExist` as empty,
propagating any other error; then write `content ++ existing`. -/
def PrependToFileM (file : FileState) (content : List Char) :
    Except IOErr FileState :=
  match LoadFileM file with
  | .ok existing => .ok (WriteFileM (content ++ existing))
  | .error .notFound => .ok (WriteFileM (content ++ []))
  | .error .readErr => .error .readErr

/-- `Archive`: load the tasks file, partition, and when nothing is archivable
return 0 touching neither file; otherwise format the entries, prepend them to
the archive file and only then overwrite the tasks file with the remaining
content.  The returned pair is (result, file system after the call). -/
def ArchiveM (fs : FS) (delayDays : ℤ) (now : ℤ) : Except IOErr ℕ × FS :=
  match LoadFileM fs.tasks with
  | .error e => (.error e, fs)
  | .ok content =>
    let archivableTasks := (FilterArchivable content delayDays now).1
    let remaining := (FilterArchivable content delayDays now).2
    if archivableTasks.length = 0 then (.ok 0, fs)
    else
      let archiveEntry := FormatArchiveEntry archivableTasks
      match PrependToFileM fs.archive archiveEntry with
      | .error e => (.error e, fs)
      | .ok newArchive =>
        (.ok archivableTasks.length,
          { tasks := WriteFileM remaining, archive := newArchive })

/-! ### Analysis-layer definitions

The predicates below spell out, over the parsed-line list, the declarative
side of the specified properties: forest roots, the root owning a task, the
geometric indent span that attaches a non-task line to a task, and the
qualification test of the archival cutoff.  They are used to state the
specified behaviour independently of the stack/recursion implementation. -/

mutual

/-- Preorder list of the line positions in a tree. -/
def treeNodes : TaskTree → List ℕ
  | .node i cs => i :: forestNodes cs
termination_by structural t => t

/-- Line positions of a forest, in order. -/
def forestNodes : List TaskTree → List ℕ
  | [] => []
  | t :: ts => treeNodes t ++ forestNodes ts
termination_by structural ts => ts

end

mutual

/-- Every subtree of a tree (the tree itself included). -/
def allSubtrees : TaskTree → List TaskTree
  | .node i cs => .node i cs :: allSubtreesF cs
termination_by structural t => t

/-- Every subtree of every tree of a forest. -/
def allSubtreesF : List TaskTree → List TaskTree
  | [] => []
  | t :: ts => allSubtrees t ++ allSubtreesF ts
termination_by structural ts => ts

end

/-- Whether position `i` holds a task line. -/
def taskB (L : List ParsedLine) (i : ℕ) : Bool := (lineAt L i).isTask

/-- Indent of the line at position `i`. -/
def indB (L : List ParsedLine) (i : ℕ) : ℕ := (lineAt L i).indent

/-- The task positions of `L`, ascending. -/
def taskIdxs (L : List ParsedLine) : List ℕ :=
  (List.range L.length).filter (taskB L)

/-- The task positions paired with their indents, ascending. -/
def taskPairs (L : List ParsedLine) : List (ℕ × ℕ) :=
  (taskIdxs L).map (fun i => (i, indB L i))

/-- A forest root: a task line no earlier task line of which has a strictly
smaller indent. -/
def isRootB (L : List ParsedLine) (r : ℕ) : Bool :=
  decide (r < L.length) && taskB L r &&
    decide (∀ t, t < r → taskB L t = true → indB L r ≤ indB L t)

/-- The root owning position `i`: the greatest forest root at or before `i`. -/
def rootIdxOf (L : List ParsedLine) (i : ℕ) : ℕ :=
  Nat.findGreatest (fun r => isRootB L r = true) i

/-- Independent archival qualification of a root: completed, tagged, and its
own tag date parses and lies strictly before the cutoff instant. -/
def taskQualifiesB (L : List ParsedLine) (cutoff : ℤ) (r : ℕ) : Bool :=
  (lineAt L r).isCompleted && (lineAt L r).hasDoneTag &&
    (match ParseDoneDate (lineAt L r).content with
     | some dt => decide (dt.instant < cutoff)
     | none => false)

/-- Declarative archivability of a task line: it belongs to a tree whose
root qualifies. -/
def specTaskArchivable (L : List ParsedLine) (cutoff : ℤ) (i : ℕ) : Bool :=
  decide (i < L.length) && taskB L i && taskQualifiesB L cutoff (rootIdxOf L i)

/-- Geometric coverage: task line `i` covers line `j` when every line after
`i` up to and including `j` is indented strictly deeper than `i` (the indent
span of `i` reaches `j`). -/
def coversB (L : List ParsedLine) (i j : ℕ) : Bool :=
  decide (i < j) && decide (j < L.length) && taskB L i &&
    decide (∀ k, k ≤ j → i < k → indB L i < indB L k)

/-- The archivable task lines covering `j`, ascending. -/
def coverersOf (L : List ParsedLine) (cutoff : ℤ) (j : ℕ) : List ℕ :=
  (List.range j).filter (fun i => coversB L i j && specTaskArchivable L cutoff i)

/-- Declarative archivability of any line: a task line must sit under a
qualified root; a non-task line must be covered by an archivable task. -/
def specArchivable (L : List ParsedLine) (cutoff : ℤ) (j : ℕ) : Bool :=
  if taskB L j then specTaskArchivable L cutoff j
  else !(coverersOf L cutoff j).isEmpty

/-- The task line whose root determines the group date of line `j`: `j`
itself for a task, else the nearest covering archivable task (any covering
task yields the same root). -/
def anchorIdx (L : List ParsedLine) (cutoff : ℤ) (j : ℕ) : ℕ :=
  if taskB L j then j else (coverersOf L cutoff j).headD 0

/-- The own tag date of the root, the date every archived line of its
subtree is grouped under. -/
def rootDate (L : List ParsedLine) (r : ℕ) : DoneDate :=
  (ParseDoneDate (lineAt L r).content).getD default

/-- Group date dictated by the specification for line `j`. -/
def specGroupDate (L : List ParsedLine) (cutoff : ℤ) (j : ℕ) : DoneDate :=
  rootDate L (rootIdxOf L (anchorIdx L cutoff j))

/-- The calendar day (serial number) containing the instant `now` — "today"
for a clock reading `now`. -/
def todayOf (now : ℤ) : ℤ := Int.fdiv now nsPerDay

/-- A well-shaped `YYYY-MM-DD` today string, as always produced by
`time.Now().Format("2006-01-02")`. -/
def ValidTodayStr (today : List Char) : Prop := dateShapedB today = true

/-- One machine step of the tree builder on a task (position, indent) pair. -/
def stepP (st : List Frame × List TaskTree) (p : ℕ × ℕ) :
    List Frame × List TaskTree :=
  (⟨p.1, p.2, []⟩ :: (popFrames p.2 st.1 st.2).1, (popFrames p.2 st.1 st.2).2)

/-- Close all open frames of a machine state into its forest. -/
def flushF (st : List Frame × List TaskTree) : List TaskTree :=
  (popFrames 0 st.1 st.2).2

/-- The forest built by running the stack machine over task pairs. -/
def BG (τ : List (ℕ × ℕ)) : List TaskTree := flushF (τ.foldl stepP ([], []))

/-- Recursive span description of the built forest: the head task takes as
subtree the following tasks of strictly greater indent, and the rest of the
forest starts at the next task of indent at most its own. -/
def spanForest : List (ℕ × ℕ) → List TaskTree
  | [] => []
  | (i, d) :: rest =>
    TaskTree.node i (spanForest (rest.takeWhile (fun p => d < p.2))) ::
      spanForest (rest.dropWhile (fun p => d < p.2))
termination_by l => l.length
decreasing_by
  · simp only [List.length_cons]
    exact Nat.lt_succ_of_le (List.takeWhile_sublist _).length_le
  · simp only [List.length_cons]
    exact Nat.lt_succ_of_le (List.dropWhile_sublist _).length_le

/-- Mark every position of `is` with group date `d`. -/
def addAll (st : ArchSt) (d : DoneDate) (is : List ℕ) : ArchSt :=
  is.foldl (fun s i => s.add i d) st

/-- Whether the sweep of a task of indent `p` over the following lines
reaches and marks position `j`: a non-task line numbered `j` occurs before
the first line of indent at most `p`. -/
def sweepHit (p j : ℕ) : List ParsedLine → Bool
  | [] => false
  | pl :: rest =>
    if pl.indent ≤ p then false
    else (!pl.isTask && pl.lineNumber == j) || sweepHit p j rest

/-- Whether any marked task of the line list sweeps position `j`, reading
task marks from the fixed map `st0`. -/
def outerHit (st0 : ArchSt) (j : ℕ) : List ParsedLine → Bool
  | [] => false
  | pl :: rest =>
    (st0.mem pl.lineNumber && pl.isTask && sweepHit pl.indent j rest) ||
      outerHit st0 j rest

/-- The first marked task of the line list whose sweep reaches `j`. -/
def firstSweeper (st0 : ArchSt) (j : ℕ) : List ParsedLine → Option ℕ
  | [] => none
  | pl :: rest =>
    if st0.mem pl.lineNumber && pl.isTask && sweepHit pl.indent j rest
    then some pl.lineNumber else firstSweeper st0 j rest

/-- The sweep of the marked task at position `i` reaches the non-task line
`j`: every line strictly between them, and `j` itself, is indented deeper
than `i`. -/
def sweepsB (L : List ParsedLine) (st : ArchSt) (j i : ℕ) : Prop :=
  i < L.length ∧ st.mem i = true ∧ taskB L i = true ∧ i < j ∧ j < L.length ∧
    taskB L j = false ∧ ∀ k, k ≤ j → i < k → indB L i < indB L k

/-- Consistency of a parsed line: its flags agree with the classifiers of its
content, and the content holds no newline (so that reconstruction splits back
into the same lines). -/
def LineOK (pl : ParsedLine) : Prop :=
  pl.isTask = IsTask pl.content ∧ pl.isCompleted = IsCompleted pl.content ∧
  pl.hasDoneTag = HasDoneTag pl.content ∧
  pl.indent = GetIndentLevel pl.content ∧ nlChar ∉ pl.content

/-- The projection of a line that the tree builder reads. -/
def lineSig (pl : ParsedLine) : ℕ × ℕ × Bool :=
  (pl.lineNumber, pl.indent, pl.isTask)

/-! ### Basic facts about the string matchers -/

theorem strStarts_iff (p s : List Char) : strStarts s p = true ↔ ∃ t, s = p ++ t := by
  induction p generalizing s with
  | nil =>
    simp [strStarts]
  | cons a ps ih =>
    cases s with
    | nil => simp [strStarts]
    | cons c cs =>
      simp only [strStarts, Bool.and_eq_true, decide_eq_true_eq, ih, List.cons_append]
      constructor
      · rintro ⟨rfl, t, rfl⟩
        exact ⟨t, rfl⟩
      · rintro ⟨t, ht⟩
        obtain ⟨rfl, rfl⟩ := List.cons_eq_cons.1 ht
        exact ⟨rfl, t, rfl⟩

theorem dateShapedB_length {cap : List Char} (h : dateShapedB cap = true) :
    cap.length = 10 := by
  unfold dateShapedB at h
  split at h
  · simp_all
  · exact absurd h (by simp)

theorem dateShapedB_iff {cap : List Char} :
    dateShapedB cap = true ↔
      ∃ y1 y2 y3 y4 m1 m2 d1 d2,
        cap = [y1, y2, y3, y4, '-', m1, m2, '-', d1, d2] ∧
        isDigitGo y1 = true ∧ isDigitGo y2 = true ∧ isDigitGo y3 = true ∧
        isDigitGo y4 = true ∧ isDigitGo m1 = true ∧ isDigitGo m2 = true ∧
        isDigitGo d1 = true ∧ isDigitGo d2 = true := by
  constructor
  · intro h
    unfold dateShapedB at h
    split at h
    · rename_i y1 y2 y3 y4 h1 m1 m2 h2 d1 d2
      simp only [Bool.and_eq_true, decide_eq_true_eq] at h
      obtain ⟨⟨⟨⟨⟨⟨⟨⟨⟨hy1, hy2⟩, hy3⟩, hy4⟩, hh1⟩, hm1⟩, hm2⟩, hh2⟩, hd1⟩, hd2⟩ := h
      subst hh1; subst hh2
      exact ⟨y1, y2, y3, y4, m1, m2, d1, d2, rfl, hy1, hy2, hy3, hy4, hm1, hm2, hd1, hd2⟩
    · exact absurd h (by simp)
  · rintro ⟨y1, y2, y3, y4, m1, m2, d1, d2, rfl, h⟩
    simp [dateShapedB, h]

theorem matchDoneAt_eq_some {s cap : List Char} :
    matchDoneAt s = some cap ↔
      ∃ rest, s = ("@done(".toList) ++ cap ++ ')' :: rest ∧ dateShapedB cap = true := by
  constructor
  · intro h
    unfold matchDoneAt at h
    split_ifs at h with hc
    · simp only [Bool.and_eq_true] at hc
      obtain ⟨⟨hA, hB⟩, hC⟩ := hc
      injection h with hcap
      obtain ⟨t, rfl⟩ := (strStarts_iff _ _).1 hA
      have h6 : (("@done(".toList) ++ t).drop 6 = t := List.drop_left' (by decide)
      rw [h6] at hcap hB
      obtain ⟨r, hr⟩ := (strStarts_iff _ _).1 hC
      have h16 : (("@done(".toList) ++ t).drop 16 = t.drop 10 := by
        rw [show (16 : ℕ) = 6 + 10 from rfl, ← List.drop_drop, h6]
      have hdrop : t.drop 10 = ')' :: r := by
        rw [← h16]
        exact hr
      have hts : ("@done(".toList) ++ t = ("@done(".toList) ++ cap ++ ')' :: r := by
        rw [List.append_assoc, ← hcap, ← hdrop, List.take_append_drop]
      exact ⟨r, hts, by rw [← hcap]; exact hB⟩
  · rintro ⟨rest, rfl, hshape⟩
    have hlen : cap.length = 10 := dateShapedB_length hshape
    rw [List.append_assoc]
    have h6 : ((("@done(".toList) ++ (cap ++ ')' :: rest)).drop 6) = cap ++ ')' :: rest :=
      List.drop_left' (by decide)
    have h16 : ((("@done(".toList) ++ (cap ++ ')' :: rest)).drop 16) = ')' :: rest := by
      rw [← List.append_assoc]
      exact List.drop_left' (by simp [hlen])
    unfold matchDoneAt
    rw [if_pos]
    · rw [h6, List.take_left' hlen]
    · rw [h6, h16, List.take_left' hlen]
      simp only [Bool.and_eq_true]
      refine ⟨⟨(strStarts_iff _ _).2 ⟨_, rfl⟩, hshape⟩, (strStarts_iff _ _).2 ⟨rest, rfl⟩⟩

theorem matchDoneAt_isSome_iff {s : List Char} :
    (matchDoneAt s).isSome = true ↔
      ∃ cap rest, s = ("@done(".toList) ++ cap ++ ')' :: rest ∧ dateShapedB cap = true := by
  rw [Option.isSome_iff_exists]
  constructor
  · rintro ⟨cap, h⟩
    obtain ⟨rest, hr, hs⟩ := matchDoneAt_eq_some.1 h
    exact ⟨cap, rest, hr, hs⟩
  · rintro ⟨cap, rest, hr, hs⟩
    exact ⟨cap, matchDoneAt_eq_some.2 ⟨rest, hr, hs⟩⟩

theorem findDoneTag_isSome_iff {line : List Char} :
    (findDoneTag line).isSome = true ↔
      ∃ pre rest, line = pre ++ rest ∧ (matchDoneAt rest).isSome = true := by
  induction line with
  | nil =>
    constructor
    · intro h
      simp [findDoneTag] at h
    · rintro ⟨pre, rest, hsplit, hm⟩
      have : rest = [] := (List.append_eq_nil.1 hsplit.symm).2
      rw [this] at hm
      simp [show matchDoneAt [] = none from by decide] at hm
  | cons c cs ih =>
    unfold findDoneTag
    cases hm : matchDoneAt (c :: cs) with
    | some cap =>
      simp only [Option.isSome_some, true_iff]
      exact ⟨[], c :: cs, rfl, by simp [hm]⟩
    | none =>
      rw [ih]
      constructor
      · rintro ⟨pre, rest, rfl, h⟩
        exact ⟨c :: pre, rest, rfl, h⟩
      · rintro ⟨pre, rest, hsplit, h⟩
        cases pre with
        | nil =>
          simp only [List.nil_append] at hsplit
          rw [← hsplit] at h
          rw [hm] at h
          simp at h
        | cons c2 pre2 =>
          obtain ⟨rfl, rfl⟩ := List.cons_eq_cons.1 hsplit
          exact ⟨pre2, rest, rfl, h⟩

theorem hasDoneTag_iff {line : List Char} :
    HasDoneTag line = true ↔
      ∃ pre cap rest, line = pre ++ ("@done(".toList) ++ cap ++ ')' :: rest ∧
        dateShapedB cap = true := by
  unfold HasDoneTag
  rw [findDoneTag_isSome_iff]
  constructor
  · rintro ⟨pre, rest, rfl, hm⟩
    obtain ⟨cap, rest2, rfl, hs⟩ := matchDoneAt_isSome_iff.1 hm
    exact ⟨pre, cap, rest2, by simp [List.append_assoc], hs⟩
  · rintro ⟨pre, cap, rest, rfl, hs⟩
    exact ⟨pre, ("@done(".toList) ++ cap ++ ')' :: rest, by simp [List.append_assoc],
      matchDoneAt_isSome_iff.2 ⟨cap, rest, rfl, hs⟩⟩

theorem hasDoneTag_append_right {a b : List Char} (h : HasDoneTag b = true) :
    HasDoneTag (a ++ b) = true := by
  obtain ⟨pre, cap, rest, rfl, hs⟩ := hasDoneTag_iff.1 h
  exact hasDoneTag_iff.2 ⟨a ++ pre, cap, rest, by simp, hs⟩

theorem hasDoneTag_doneTagText {today c : List Char} (h : dateShapedB today = true) :
    HasDoneTag (c ++ doneTagText today) = true := by
  refine hasDoneTag_iff.2 ⟨c ++ [' '], today, [], ?_, h⟩
  unfold doneTagText
  simp [show (" @done(".toList) = ' ' :: ("@done(".toList) from rfl]

theorem parseCap_validDate {cap : List Char} {dt : DoneDate}
    (h : parseCap cap = some dt) :
    validDate dt.year dt.month dt.day = true := by
  unfold parseCap at h
  split at h
  · split_ifs at h with hv
    · injection h with h2
      rw [← h2]
      exact hv
  · exact absurd h (by simp)

theorem parseDoneDate_hasDoneTag {line : List Char} {dt : DoneDate}
    (h : ParseDoneDate line = some dt) : HasDoneTag line = true := by
  unfold ParseDoneDate at h
  unfold HasDoneTag
  cases hf : findDoneTag line with
  | none => rw [hf] at h; simp at h
  | some cap => rfl

theorem parseDoneDate_validDate {line : List Char} {dt : DoneDate}
    (h : ParseDoneDate line = some dt) :
    validDate dt.year dt.month dt.day = true := by
  unfold ParseDoneDate at h
  cases hf : findDoneTag line with
  | none => rw [hf] at h; simp at h
  | some cap =>
    rw [hf] at h
    exact parseCap_validDate h

theorem validTodayStr_no_newline {today : List Char} (h : ValidTodayStr today) :
    nlChar ∉ today := by
  obtain ⟨y1, y2, y3, y4, m1, m2, d1, d2, rfl, hd⟩ := dateShapedB_iff.1 h
  intro hm
  have hdig : ∀ x : Char, isDigitGo x = true → x ≠ nlChar := by
    intro x hx
    unfold isDigitGo at hx
    simp only [Bool.and_eq_true, decide_eq_true_eq] at hx
    intro hxe
    rw [hxe] at hx
    exact absurd hx (by decide)
  obtain ⟨h1, h2, h3, h4, h5, h6, h7, h8⟩ := hd
  simp only [List.mem_cons, List.not_mem_nil, or_false] at hm
  rcases hm with h | h | h | h | h | h | h | h | h | h
  · exact hdig _ h1 h.symm
  · exact hdig _ h2 h.symm
  · exact hdig _ h3 h.symm
  · exact hdig _ h4 h.symm
  · exact absurd h (by decide)
  · exact hdig _ h5 h.symm
  · exact hdig _ h6 h.symm
  · exact absurd h (by decide)
  · exact hdig _ h7 h.symm
  · exact hdig _ h8 h.symm

/-- C7: parse/join round-trip — for every content string, with or without a
trailing newline, joining the `content` fields of `ParseLines content` with
newline (`ReconstructContent`) reproduces `content` exactly. -/
theorem parse_join_roundtrip (c : List Char) :
    ReconstructContent (ParseLines c) = c := by
  unfold ReconstructContent ParseLines splitLines
  rw [List.map_map]
  have h1 : ((c.splitOn nlChar).enum.map fun p => (mkParsedLine p.1 p.2).content) =
      (c.splitOn nlChar).enum.map Prod.snd := rfl
  show [nlChar].intercalate ((c.splitOn nlChar).enum.map
    ((fun pl : ParsedLine => pl.content) ∘ fun p => mkParsedLine p.1 p.2)) = c
  rw [show ((fun pl : ParsedLine => pl.content) ∘ fun p : ℕ × List Char =>
      mkParsedLine p.1 p.2) = Prod.snd from rfl]
  rw [List.enum_map_snd]
  exact List.intercalate_splitOn c nlChar

/-- C8: concrete cascade scenario — on `- [x] Parent\n  - [ ] Child` with
today = 2026-01-19, `ProcessContent` produces the fully tagged pair of lines
with changed count 2; the cascade pass contributes exactly 1 (the child) and
the tagger sweep exactly 1 (the parent), with no double counting. -/
theorem processContent_cascade_scenario :
    ProcessContent ("- [x] Parent\n  - [ ] Child".toList) ("2026-01-19".toList) =
      (("- [x] Parent @done(2026-01-19)\n  - [x] Child @done(2026-01-19)".toList), 2) ∧
    (CascadeCompletion (ParseLines ("- [x] Parent\n  - [ ] Child".toList))
        ("2026-01-19".toList)).2 = 1 ∧
    (sweepLines ("2026-01-19".toList)
        (CascadeCompletion (ParseLines ("- [x] Parent\n  - [ ] Child".toList))
          ("2026-01-19".toList)).1).2 = 1 := by
  refine ⟨?_, ?_, ?_⟩ <;> decide

/-- C3 counterexample: the line `- [x] T @done(9999-99-99)` carries a
digit-shaped but calendar-invalid tag; the claim says `HasDoneTag` returns
false on it, but the code's `HasDoneTag` checks only the digit pattern and
returns true (while `ParseDoneDate` rejects the date). -/
theorem hasDoneTag_calendar_invalid_counterexample :
    HasDoneTag ("- [x] T @done(9999-99-99)".toList) = true ∧
    ParseDoneDate ("- [x] T @done(9999-99-99)".toList) = none := by
  decide

/-- C3 amended: `HasDoneTag` returns true exactly when the line contains
`@done(` followed by a digit-shaped `YYYY-MM-DD` string and `)`, with no
calendar validation; the calendar check lives in `ParseDoneDate`, which only
succeeds on real calendar dates (and in particular rejects `9999-99-99`). -/
theorem hasDoneTag_pattern_only (line : List Char) :
    (HasDoneTag line = true ↔
      ∃ pre y1 y2 y3 y4 m1 m2 d1 d2 rest,
        line = pre ++ ("@done(".toList) ++
          [y1, y2, y3, y4, '-', m1, m2, '-', d1, d2] ++ ')' :: rest ∧
        isDigitGo y1 = true ∧ isDigitGo y2 = true ∧ isDigitGo y3 = true ∧
        isDigitGo y4 = true ∧ isDigitGo m1 = true ∧ isDigitGo m2 = true ∧
        isDigitGo d1 = true ∧ isDigitGo d2 = true) ∧
    (∀ dt : DoneDate, ParseDoneDate line = some dt →
      validDate dt.year dt.month dt.day = true) := by
  constructor
  · rw [hasDoneTag_iff]
    constructor
    · rintro ⟨pre, cap, rest, rfl, hs⟩
      obtain ⟨y1, y2, y3, y4, m1, m2, d1, d2, rfl, h1, h2, h3, h4, h5, h6, h7, h8⟩ :=
        dateShapedB_iff.1 hs
      exact ⟨pre, y1, y2, y3, y4, m1, m2, d1, d2, rest, rfl, h1, h2, h3, h4, h5, h6, h7, h8⟩
    · rintro ⟨pre, y1, y2, y3, y4, m1, m2, d1, d2, rest, rfl,
        h1, h2, h3, h4, h5, h6, h7, h8⟩
      exact ⟨pre, [y1, y2, y3, y4, '-', m1, m2, '-', d1, d2], rest, rfl,
        dateShapedB_iff.2 ⟨y1, y2, y3, y4, m1, m2, d1, d2, rfl,
          h1, h2, h3, h4, h5, h6, h7, h8⟩⟩
  · intro dt h
    exact parseDoneDate_validDate h

/-! ### The `Archive` orchestration (C9, C10) -/

instance : DecidableEq (Except IOErr ℕ) := fun a b =>
  match a, b with
  | .error e1, .error e2 =>
    if h : e1 = e2 then .isTrue (by rw [h]) else .isFalse (by simp [h])
  | .ok n1, .ok n2 =>
    if h : n1 = n2 then .isTrue (by rw [h]) else .isFalse (by simp [h])
  | .error _, .ok _ => .isFalse (by simp)
  | .ok _, .error _ => .isFalse (by simp)

theorem ArchiveM_eq_of_present (fs : FS) (delayDays now : ℤ) (content : List Char)
    (h : fs.tasks = .present content) :
    ArchiveM fs delayDays now =
      if (FilterArchivable content delayDays now).1.length = 0 then (.ok 0, fs)
      else
        match PrependToFileM fs.archive
            (FormatArchiveEntry (FilterArchivable content delayDays now).1) with
        | .error e => (.error e, fs)
        | .ok newArchive =>
          (.ok (FilterArchivable content delayDays now).1.length,
            { tasks := WriteFileM (FilterArchivable content delayDays now).2,
              archive := newArchive }) := by
  unfold ArchiveM
  rw [h]
  rfl

/-- C9 counterexample: the tasks file holds a freshly completed, untagged
task `- [x] T`.  The claim says `Archive` first runs the tagger sweep and
persists the tagged content before the cutoff check; the code's `Archive`
performs no sweep: it returns 0 and leaves the tasks file byte-identical and
still untagged (the partitioner sees no `@done` tag, so nothing archives). -/
theorem archive_does_not_tag_counterexample :
    ArchiveM ⟨.present ("- [x] T".toList), .absent⟩ 2 0 =
      (.ok 0, ⟨.present ("- [x] T".toList), .absent⟩) ∧
    IsCompleted ("- [x] T".toList) = true ∧
    HasDoneTag ("- [x] T".toList) = false := by
  refine ⟨?_, by decide, by decide⟩
  rw [ArchiveM_eq_of_present _ 2 0 ("- [x] T".toList) rfl]
  rw [if_pos (by decide)]

/-- C9 amended: `Archive` runs no tagger sweep at all (the TUI caller invokes
`ProcessFileWithDoneTags` separately before `Archive`): when the partitioner
returns zero entries it returns 0 leaving both files untouched, and the only
other content it can ever write to the tasks file is the partitioner
remaining content — never a tagged version of the loaded content. -/
theorem archive_no_tagger_sweep (fs : FS) (delayDays now : ℤ) (content : List Char)
    (hload : fs.tasks = .present content) :
    ((FilterArchivable content delayDays now).1 = [] →
      ArchiveM fs delayDays now = (.ok 0, fs)) ∧
    (∀ r fs2, ArchiveM fs delayDays now = (r, fs2) →
      fs2.tasks = fs.tasks ∨
        fs2.tasks = WriteFileM (FilterArchivable content delayDays now).2) := by
  constructor
  · intro hnil
    rw [ArchiveM_eq_of_present fs delayDays now content hload]
    rw [if_pos (by rw [hnil]; rfl)]
  · intro r fs2 harch
    rw [ArchiveM_eq_of_present fs delayDays now content hload] at harch
    by_cases hlen : (FilterArchivable content delayDays now).1.length = 0
    · rw [if_pos hlen] at harch
      injection harch with h1 h2
      exact Or.inl (by rw [← h2])
    · rw [if_neg hlen] at harch
      cases hp : PrependToFileM fs.archive
          (FormatArchiveEntry (FilterArchivable content delayDays now).1) with
      | error e =>
        rw [hp] at harch
        injection harch with h1 h2
        exact Or.inl (by rw [← h2])
      | ok newArchive =>
        rw [hp] at harch
        injection harch with h1 h2
        exact Or.inr (by rw [← h2])

/-- C9 amended, witness at a concrete input: a tasks file whose only
completed task is too recent yields zero entries, and `Archive` returns 0
with both files untouched. -/
theorem archive_no_tagger_sweep_witness :
    (FilterArchivable ("- [x] R @done(2026-01-19)".toList) 2
        (daysFromCivil 2026 1 19 * nsPerDay)).1 = [] ∧
    ArchiveM ⟨.present ("- [x] R @done(2026-01-19)".toList), .absent⟩ 2
        (daysFromCivil 2026 1 19 * nsPerDay) =
      (.ok 0, ⟨.present ("- [x] R @done(2026-01-19)".toList), .absent⟩) := by
  refine ⟨by decide, ?_⟩
  exact (archive_no_tagger_sweep ⟨.present ("- [x] R @done(2026-01-19)".toList), .absent⟩
    2 (daysFromCivil 2026 1 19 * nsPerDay) ("- [x] R @done(2026-01-19)".toList) rfl).1
    (by decide)

/-- C10: atomicity of `Archive` on error — when loading the tasks file fails,
or the prepend to the archive file fails (modelled by an unreadable archive
file), `Archive` returns that error (Go: count 0 with the error) and the file
system is left unchanged; and whenever the tasks file does change, the
archive-file prepend has already succeeded on the formatted entries, so no
archivable line is dropped without having been written to the archive. -/
theorem archive_atomic_on_error (fs : FS) (delayDays now : ℤ) :
    (∀ e, LoadFileM fs.tasks = .error e → ArchiveM fs delayDays now = (.error e, fs)) ∧
    (∀ content, fs.tasks = .present content → fs.archive = .unreadable →
      (FilterArchivable content delayDays now).1 ≠ [] →
      ArchiveM fs delayDays now = (.error .readErr, fs)) ∧
    (∀ r fs2, ArchiveM fs delayDays now = (r, fs2) → fs2.tasks ≠ fs.tasks →
      ∃ content, fs.tasks = .present content ∧
        r = .ok (FilterArchivable content delayDays now).1.length ∧
        (FilterArchivable content delayDays now).1 ≠ [] ∧
        PrependToFileM fs.archive
          (FormatArchiveEntry (FilterArchivable content delayDays now).1) =
          .ok fs2.archive) := by
  refine ⟨?_, ?_, ?_⟩
  · intro e he
    unfold ArchiveM
    rw [he]
  · intro content hc harch hne
    rw [ArchiveM_eq_of_present fs delayDays now content hc]
    rw [if_neg (by simpa using hne)]
    rw [show PrependToFileM fs.archive
        (FormatArchiveEntry (FilterArchivable content delayDays now).1) =
        .error .readErr from by rw [harch]; rfl]
  · intro r fs2 harch hne
    cases hfs : fs.tasks with
    | absent =>
      rw [show ArchiveM fs delayDays now = (.error .notFound, fs) from by
        unfold ArchiveM; rw [hfs]; rfl] at harch
      injection harch with h1 h2
      exact absurd (by rw [← h2]) hne
    | unreadable =>
      rw [show ArchiveM fs delayDays now = (.error .readErr, fs) from by
        unfold ArchiveM; rw [hfs]; rfl] at harch
      injection harch with h1 h2
      exact absurd (by rw [← h2]) hne
    | present content =>
      rw [ArchiveM_eq_of_present fs delayDays now content hfs] at harch
      refine ⟨content, rfl, ?_⟩
      by_cases hlen : (FilterArchivable content delayDays now).1.length = 0
      · rw [if_pos hlen] at harch
        injection harch with h1 h2
        exact absurd (by rw [← h2]) hne
      · rw [if_neg hlen] at harch
        cases hp : PrependToFileM fs.archive
            (FormatArchiveEntry (FilterArchivable content delayDays now).1) with
        | error e =>
          rw [hp] at harch
          injection harch with h1 h2
          exact absurd (by rw [← h2]) hne
        | ok newArchive =>
          rw [hp] at harch
          injection harch with h1 h2
          refine ⟨h1.symm, fun hnil => hlen (by rw [hnil]; rfl), ?_⟩
          rw [← h2]

/-- C10 witness: with an unreadable archive file and an archivable old task,
`Archive` surfaces the read error and leaves both files untouched. -/
theorem archive_atomic_on_error_witness :
    ArchiveM ⟨.present ("- [x] Old @done(2020-01-01)".toList), .unreadable⟩ 2
        (daysFromCivil 2026 1 19 * nsPerDay) =
      (.error .readErr, ⟨.present ("- [x] Old @done(2020-01-01)".toList), .unreadable⟩) := by
  exact (archive_atomic_on_error
      ⟨.present ("- [x] Old @done(2020-01-01)".toList), .unreadable⟩ 2
      (daysFromCivil 2026 1 19 * nsPerDay)).2.1
    ("- [x] Old @done(2020-01-01)".toList) rfl rfl (by decide)

/-! ### Structure of the built forest: the stack machine equals the span
description -/

theorem popGo_cons_of_le (e : ℕ) (pend : TaskTree) (g : Frame) (rest : List Frame)
    (F : List TaskTree) (h : e ≤ g.indent) :
    popGo e pend (g :: rest) F =
      popGo e (closeFrame { g with children := g.children ++ [pend] }) rest F := by
  simp only [popGo]
  rw [if_pos h]

theorem popGo_cons_of_not (e : ℕ) (pend : TaskTree) (g : Frame) (rest : List Frame)
    (F : List TaskTree) (h : ¬ e ≤ g.indent) :
    popGo e pend (g :: rest) F =
      ({ g with children := g.children ++ [pend] } :: rest, F) := by
  simp only [popGo]
  rw [if_neg h]

theorem popFrames_cons_of_le (e : ℕ) (f : Frame) (rest : List Frame)
    (F : List TaskTree) (h : e ≤ f.indent) :
    popFrames e (f :: rest) F = popGo e (closeFrame f) rest F := by
  simp only [popFrames]
  rw [if_pos h]

theorem popFrames_cons_of_not (e : ℕ) (f : Frame) (rest : List Frame)
    (F : List TaskTree) (h : ¬ e ≤ f.indent) :
    popFrames e (f :: rest) F = (f :: rest, F) := by
  simp only [popFrames]
  rw [if_neg h]

theorem popGo_forest (d : ℕ) (pend : TaskTree) (σ : List Frame) (F : List TaskTree) :
    popGo d pend σ F = ((popGo d pend σ []).1, F ++ (popGo d pend σ []).2) := by
  induction σ generalizing pend F with
  | nil => simp [popGo]
  | cons g rest ih =>
    simp only [popGo]
    split_ifs with h
    · exact ih _ _
    · simp

theorem popFrames_forest (d : ℕ) (σ : List Frame) (F : List TaskTree) :
    popFrames d σ F = ((popFrames d σ []).1, F ++ (popFrames d σ []).2) := by
  cases σ with
  | nil => simp [popFrames]
  | cons f rest =>
    simp only [popFrames]
    split_ifs with h
    · exact popGo_forest d _ rest F
    · simp

theorem stepP_forest (σ : List Frame) (F : List TaskTree) (p : ℕ × ℕ) :
    stepP (σ, F) p = ((stepP (σ, []) p).1, F ++ (stepP (σ, []) p).2) := by
  unfold stepP
  rw [popFrames_forest p.2 σ F]

theorem run_forest (τ : List (ℕ × ℕ)) (σ : List Frame) (F : List TaskTree) :
    τ.foldl stepP (σ, F) =
      ((τ.foldl stepP (σ, [])).1, F ++ (τ.foldl stepP (σ, [])).2) := by
  induction τ generalizing σ F with
  | nil => simp
  | cons p τ ih =>
    rw [List.foldl_cons, List.foldl_cons, stepP_forest]
    rw [ih (stepP (σ, []) p).1 (F ++ (stepP (σ, []) p).2)]
    have h2 : τ.foldl stepP (stepP (σ, []) p) =
        τ.foldl stepP ((stepP (σ, []) p).1, (stepP (σ, []) p).2) := by
      rw [Prod.mk.eta]
    rw [h2, ih (stepP (σ, []) p).1 (stepP (σ, []) p).2]
    simp [List.append_assoc]

theorem popGo_protected (e : ℕ) (pend : TaskTree) (σ : List Frame) (i d : ℕ)
    (c : List TaskTree) (he : ¬ e ≤ d) :
    popGo e pend (σ ++ [⟨i, d, c⟩]) [] =
      ((popGo e pend σ []).1 ++ [⟨i, d, c ++ (popGo e pend σ []).2⟩], []) := by
  induction σ generalizing pend with
  | nil =>
    rw [List.nil_append, popGo_cons_of_not e pend _ [] [] he]
    simp [popGo]
  | cons g rest ih =>
    rw [List.cons_append]
    by_cases h : e ≤ g.indent
    · rw [popGo_cons_of_le e pend g _ [] h, popGo_cons_of_le e pend g rest [] h]
      exact ih _
    · rw [popGo_cons_of_not e pend g _ [] h, popGo_cons_of_not e pend g rest [] h]
      simp

theorem popFrames_protected (e : ℕ) (σ : List Frame) (i d : ℕ) (c : List TaskTree)
    (he : ¬ e ≤ d) :
    popFrames e (σ ++ [⟨i, d, c⟩]) [] =
      ((popFrames e σ []).1 ++ [⟨i, d, c ++ (popFrames e σ []).2⟩], []) := by
  cases σ with
  | nil =>
    rw [List.nil_append, popFrames_cons_of_not e _ [] [] he]
    simp [popFrames]
  | cons f rest =>
    rw [List.cons_append]
    by_cases h : e ≤ f.indent
    · rw [popFrames_cons_of_le e f _ [] h, popFrames_cons_of_le e f rest [] h]
      exact popGo_protected e _ rest i d c he
    · rw [popFrames_cons_of_not e f _ [] h, popFrames_cons_of_not e f rest [] h]
      simp

theorem popGo_collapse (e : ℕ) (pend : TaskTree) (σ : List Frame) (i d : ℕ)
    (c : List TaskTree) (hσ : ∀ f ∈ σ, e ≤ f.indent) (hd : e ≤ d) :
    popGo e pend (σ ++ [⟨i, d, c⟩]) [] =
      ([], [TaskTree.node i (c ++ (popGo e pend σ []).2)]) := by
  induction σ generalizing pend with
  | nil =>
    rw [List.nil_append, popGo_cons_of_le e pend _ [] [] hd]
    simp [popGo, closeFrame]
  | cons g rest ih =>
    rw [List.cons_append]
    rw [popGo_cons_of_le e pend g _ [] (hσ g (by simp))]
    rw [popGo_cons_of_le e pend g rest [] (hσ g (by simp))]
    exact ih _ (fun f hf => hσ f (by simp [hf]))

theorem popFrames_collapse (e : ℕ) (σ : List Frame) (i d : ℕ) (c : List TaskTree)
    (hσ : ∀ f ∈ σ, e ≤ f.indent) (hd : e ≤ d) :
    popFrames e (σ ++ [⟨i, d, c⟩]) [] =
      ([], [TaskTree.node i (c ++ (popFrames e σ []).2)]) := by
  cases σ with
  | nil =>
    rw [List.nil_append, popFrames_cons_of_le e _ [] [] hd]
    simp [popGo, popFrames, closeFrame]
  | cons f rest =>
    rw [List.cons_append]
    rw [popFrames_cons_of_le e f _ [] (hσ f (by simp))]
    rw [popFrames_cons_of_le e f rest [] (hσ f (by simp))]
    exact popGo_collapse e _ rest i d c (fun g hg => hσ g (by simp [hg])) hd

theorem popGo_agree (e : ℕ) (pend : TaskTree) (σ : List Frame) (F : List TaskTree)
    (hσ : ∀ f ∈ σ, e ≤ f.indent) :
    popGo e pend σ F = popGo 0 pend σ F := by
  induction σ generalizing pend F with
  | nil => rfl
  | cons g rest ih =>
    rw [popGo_cons_of_le e pend g rest F (hσ g (by simp))]
    rw [popGo_cons_of_le 0 pend g rest F (Nat.zero_le _)]
    exact ih _ _ (fun f hf => hσ f (by simp [hf]))

theorem popFrames_agree (e : ℕ) (σ : List Frame) (F : List TaskTree)
    (hσ : ∀ f ∈ σ, e ≤ f.indent) :
    popFrames e σ F = popFrames 0 σ F := by
  cases σ with
  | nil => rfl
  | cons f rest =>
    rw [popFrames_cons_of_le e f rest F (hσ f (by simp))]
    rw [popFrames_cons_of_le 0 f rest F (Nat.zero_le _)]
    exact popGo_agree e _ rest F (fun g hg => hσ g (by simp [hg]))

theorem popGo_stack_src (e : ℕ) (pend : TaskTree) (σ : List Frame) (F : List TaskTree) :
    ∀ f ∈ (popGo e pend σ F).1, ∃ g ∈ σ, f.idx = g.idx ∧ f.indent = g.indent := by
  induction σ generalizing pend F with
  | nil => simp [popGo]
  | cons g rest ih =>
    by_cases h : e ≤ g.indent
    · rw [popGo_cons_of_le e pend g rest F h]
      intro f hf
      obtain ⟨g2, hg2, he1, he2⟩ := ih _ _ f hf
      exact ⟨g2, by simp [hg2], he1, he2⟩
    · rw [popGo_cons_of_not e pend g rest F h]
      intro f hf
      rcases List.mem_cons.1 hf with rfl | hf2
      · exact ⟨g, by simp, rfl, rfl⟩
      · exact ⟨f, by simp [hf2], rfl, rfl⟩

theorem popFrames_stack_src (e : ℕ) (σ : List Frame) (F : List TaskTree) :
    ∀ f ∈ (popFrames e σ F).1, ∃ g ∈ σ, f.idx = g.idx ∧ f.indent = g.indent := by
  cases σ with
  | nil => simp [popFrames]
  | cons g rest =>
    by_cases h : e ≤ g.indent
    · rw [popFrames_cons_of_le e g rest F h]
      intro f hf
      obtain ⟨g2, hg2, he1, he2⟩ := popGo_stack_src e _ rest F f hf
      exact ⟨g2, by simp [hg2], he1, he2⟩
    · rw [popFrames_cons_of_not e g rest F h]
      intro f hf
      exact ⟨f, hf, rfl, rfl⟩

theorem run_stack_src (τ : List (ℕ × ℕ)) (σ : List Frame) (F : List TaskTree) :
    ∀ f ∈ (τ.foldl stepP (σ, F)).1,
      (∃ g ∈ σ, f.idx = g.idx ∧ f.indent = g.indent) ∨
      (∃ p ∈ τ, f.idx = p.1 ∧ f.indent = p.2) := by
  induction τ generalizing σ F with
  | nil =>
    intro f hf
    exact Or.inl ⟨f, hf, rfl, rfl⟩
  | cons p τ ih =>
    intro f hf
    rw [List.foldl_cons] at hf
    rw [show stepP (σ, F) p = ((stepP (σ, F) p).1, (stepP (σ, F) p).2) from
      (Prod.mk.eta).symm] at hf
    rcases ih (stepP (σ, F) p).1 (stepP (σ, F) p).2 f hf with ⟨g, hg, he1, he2⟩ | ⟨q, hq, he1, he2⟩
    · rcases List.mem_cons.1 hg with rfl | hg2
      · exact Or.inr ⟨p, by simp, he1, he2⟩
      · obtain ⟨g0, hg0, hi0, hd0⟩ := popFrames_stack_src p.2 σ F g hg2
        exact Or.inl ⟨g0, hg0, he1.trans hi0, he2.trans hd0⟩
    · exact Or.inr ⟨q, by simp [hq], he1, he2⟩

theorem run_protected (τ : List (ℕ × ℕ)) (σ : List Frame) (i d : ℕ)
    (c : List TaskTree) (h : ∀ p ∈ τ, d < p.2) :
    τ.foldl stepP (σ ++ [⟨i, d, c⟩], []) =
      ((τ.foldl stepP (σ, [])).1 ++ [⟨i, d, c ++ (τ.foldl stepP (σ, [])).2⟩], []) := by
  induction τ generalizing σ c with
  | nil => simp
  | cons p τ ih =>
    have hp : ¬ p.2 ≤ d := by
      have := h p (by simp)
      omega
    rw [List.foldl_cons, List.foldl_cons]
    have hstep : stepP (σ ++ [⟨i, d, c⟩], []) p =
        ((⟨p.1, p.2, []⟩ :: (popFrames p.2 σ []).1) ++
          [⟨i, d, c ++ (popFrames p.2 σ []).2⟩], []) := by
      unfold stepP
      rw [show ((σ ++ [⟨i, d, c⟩] : List Frame), ([] : List TaskTree)).1 =
        σ ++ [⟨i, d, c⟩] from rfl]
      rw [show ((σ ++ [⟨i, d, c⟩] : List Frame), ([] : List TaskTree)).2 =
        ([] : List TaskTree) from rfl]
      rw [popFrames_protected p.2 σ i d c hp]
      simp
    rw [hstep]
    rw [ih ((⟨p.1, p.2, []⟩ : Frame) :: (popFrames p.2 σ []).1)
      (c ++ (popFrames p.2 σ []).2) (fun q hq => h q (by simp [hq]))]
    have hstep2 : stepP (σ, []) p =
        ((⟨p.1, p.2, []⟩ : Frame) :: (popFrames p.2 σ []).1, (popFrames p.2 σ []).2) := by
      unfold stepP
      rfl
    rw [hstep2, run_forest τ ((⟨p.1, p.2, []⟩ : Frame) :: (popFrames p.2 σ []).1)
      (popFrames p.2 σ []).2]
    simp [List.append_assoc]

theorem flushF_forest (σ : List Frame) (F : List TaskTree) :
    flushF (σ, F) = F ++ flushF (σ, []) := by
  unfold flushF
  rw [show ((σ, F).1) = σ from rfl, show ((σ, F).2) = F from rfl,
    popFrames_forest 0 σ F]

theorem BG_cons (i d : ℕ) (τ : List (ℕ × ℕ)) :
    BG ((i, d) :: τ) =
      TaskTree.node i (BG (τ.takeWhile (fun p => d < p.2))) ::
        BG (τ.dropWhile (fun p => d < p.2)) := by
  conv_lhs => unfold BG
  have hsplit : τ = τ.takeWhile (fun p => d < p.2) ++ τ.dropWhile (fun p => d < p.2) :=
    (List.takeWhile_append_dropWhile _ _).symm
  have hstep0 : stepP (([], []) : List Frame × List TaskTree) (i, d) =
      ([⟨i, d, []⟩], []) := rfl
  rw [List.foldl_cons, hstep0]
  conv_lhs => rw [hsplit]
  rw [List.foldl_append]
  have hins : ∀ p ∈ τ.takeWhile (fun p => d < p.2), d < p.2 := by
    intro p hp
    have := List.mem_takeWhile_imp hp
    simpa using this
  have hrun := run_protected (τ.takeWhile (fun p => d < p.2)) [] i d [] hins
  simp only [List.nil_append] at hrun
  rw [hrun]
  have hindalt : ∀ f ∈ (List.foldl stepP ([], [])
      (τ.takeWhile (fun p => d < p.2))).1, d < f.indent := by
    intro f hf
    rcases run_stack_src _ [] [] f hf with ⟨g, hg, _, _⟩ | ⟨p, hp, _, he2⟩
    · simp at hg
    · rw [he2]
      exact hins p hp
  have hBGins : BG (τ.takeWhile (fun p => d < p.2)) =
      (List.foldl stepP ([], []) (τ.takeWhile (fun p => d < p.2))).2 ++
        (popFrames 0 (List.foldl stepP ([], [])
          (τ.takeWhile (fun p => d < p.2))).1 []).2 := by
    unfold BG flushF
    rw [popFrames_forest]
  cases haft : τ.dropWhile (fun p => d < p.2) with
  | nil =>
    simp only [List.foldl_nil]
    unfold flushF
    show (popFrames 0 ((List.foldl stepP ([], [])
      (τ.takeWhile (fun p => d < p.2))).1 ++
        [⟨i, d, [] ++ (List.foldl stepP ([], [])
          (τ.takeWhile (fun p => d < p.2))).2⟩]) []).2 = _
    rw [popFrames_collapse 0 _ i d _ (fun f hf => Nat.zero_le _) (Nat.zero_le _)]
    rw [hBGins]
    simp [BG, flushF, popFrames]
  | cons q aft =>
    have hq : ¬ d < q.2 := by
      have hne : τ.dropWhile (fun p => d < p.2) ≠ [] := by simp [haft]
      have h2 := List.head_dropWhile_not (fun p => d < p.2) τ hne
      rw [show (τ.dropWhile (fun p => d < p.2)).head hne = q from by simp [haft]] at h2
      simpa using h2
    have hq2 : q.2 ≤ d := by omega
    rw [List.foldl_cons]
    have hσe : ∀ f ∈ (List.foldl stepP ([], [])
        (τ.takeWhile (fun p => d < p.2))).1, q.2 ≤ f.indent := by
      intro f hf
      have := hindalt f hf
      omega
    have hstepq : stepP ((List.foldl stepP ([], [])
        (τ.takeWhile (fun p => d < p.2))).1 ++
          [⟨i, d, (List.foldl stepP ([], [])
            (τ.takeWhile (fun p => d < p.2))).2⟩], []) q =
        ([⟨q.1, q.2, []⟩],
          [TaskTree.node i (BG (τ.takeWhile (fun p => d < p.2)))]) := by
      unfold stepP
      show (⟨q.1, q.2, []⟩ :: (popFrames q.2 ((List.foldl stepP ([], [])
          (τ.takeWhile (fun p => d < p.2))).1 ++
            [⟨i, d, (List.foldl stepP ([], [])
              (τ.takeWhile (fun p => d < p.2))).2⟩]) []).1,
        (popFrames q.2 ((List.foldl stepP ([], [])
          (τ.takeWhile (fun p => d < p.2))).1 ++
            [⟨i, d, (List.foldl stepP ([], [])
              (τ.takeWhile (fun p => d < p.2))).2⟩]) []).2) = _
      rw [popFrames_collapse q.2 _ i d _ hσe hq2]
      rw [popFrames_agree q.2 _ [] hσe]
      rw [hBGins]
    rw [hstepq]
    rw [run_forest aft [⟨q.1, q.2, []⟩]
      [TaskTree.node i (BG (τ.takeWhile (fun p => d < p.2)))]]
    rw [flushF_forest]
    have hbgaft : BG (q :: aft) =
        (List.foldl stepP ([⟨q.1, q.2, []⟩], []) aft).2 ++
          flushF ((List.foldl stepP ([⟨q.1, q.2, []⟩], []) aft).1, []) := by
      unfold BG
      rw [List.foldl_cons]
      rw [show stepP (([], []) : List Frame × List TaskTree) q =
        ([⟨q.1, q.2, []⟩], []) from rfl]
      conv_lhs => rw [← Prod.mk.eta
        (p := List.foldl stepP ([⟨q.1, q.2, []⟩], []) aft)]
      rw [flushF_forest]
    rw [hbgaft]
    simp

theorem BG_eq_spanForest : ∀ τ : List (ℕ × ℕ), BG τ = spanForest τ
  | [] => by
    rw [show spanForest [] = [] from by rw [spanForest]]
    rfl
  | (i, d) :: τ => by
    rw [BG_cons, spanForest]
    rw [BG_eq_spanForest (τ.takeWhile (fun p => d < p.2))]
    rw [BG_eq_spanForest (τ.dropWhile (fun p => d < p.2))]
termination_by τ => τ.length
decreasing_by
  · simp only [List.length_cons]
    exact Nat.lt_succ_of_le (List.takeWhile_sublist _).length_le
  · simp only [List.length_cons]
    exact Nat.lt_succ_of_le (List.dropWhile_sublist _).length_le

/-! ### From `BuildTaskTrees` to the span description -/

theorem filter_map_comm {α β : Type} (f : α → β) (p : β → Bool) (l : List α) :
    (l.map f).filter p = (l.filter (fun a => p (f a))).map f := by
  induction l with
  | nil => rfl
  | cons a l ih =>
    simp only [List.map_cons, List.filter_cons]
    by_cases h : p (f a) = true
    · rw [if_pos h, if_pos h, List.map_cons, ih]
    · rw [if_neg h, if_neg h, ih]

theorem mem_enum_spec {α : Type} [Inhabited α] (L : List α) (q : ℕ × α)
    (hq : q ∈ L.enum) : q.1 < L.length ∧ q.2 = L.getD q.1 default := by
  obtain ⟨i, h, heq⟩ := List.getElem_of_mem hq
  rw [List.getElem_enum] at heq
  rcases heq with rfl
  have hlen : i < L.length := by simpa [List.enum_length] using h
  exact ⟨hlen, (List.getD_eq_getElem L default hlen).symm⟩

theorem pairs_eq_taskPairs (L : List ParsedLine)
    (hL : ∀ q ∈ L.enum, q.2.lineNumber = q.1) :
    (L.filter (fun pl => pl.isTask)).map (fun pl => (pl.lineNumber, pl.indent)) =
      taskPairs L := by
  have h1 : L.filter (fun pl => pl.isTask) =
      (L.enum.filter (fun q => q.2.isTask)).map Prod.snd := by
    conv_lhs => rw [← List.enum_map_snd L]
    rw [filter_map_comm]
  have h2 : (List.range L.length).filter (taskB L) =
      (L.enum.filter (fun q => q.2.isTask)).map Prod.fst := by
    rw [← List.enum_map_fst L, filter_map_comm]
    congr 1
    apply List.filter_congr
    intro q hq
    have hs := mem_enum_spec L q hq
    have he : q.2 = L[q.1] := hs.2.trans (List.getD_eq_getElem L default hs.1)
    unfold taskB lineAt
    rw [List.getD_eq_getElem L default hs.1]
    exact congrArg ParsedLine.isTask he.symm
  rw [h1, taskPairs, taskIdxs, h2]
  rw [List.map_map, List.map_map]
  apply List.map_congr_left
  intro q hq
  have hmem : q ∈ L.enum := List.mem_of_mem_filter hq
  have hs := mem_enum_spec L q hmem
  have hln := hL q hmem
  have he : q.2 = L[q.1] := hs.2.trans (List.getD_eq_getElem L default hs.1)
  show (q.2.lineNumber, q.2.indent) = (q.1, indB L q.1)
  unfold indB lineAt
  rw [hln, List.getD_eq_getElem L default hs.1, ← he]

theorem foldl_buildStep_eq (L : List ParsedLine) (s : List Frame × List TaskTree) :
    L.foldl buildStep s =
      ((L.filter (fun pl => pl.isTask)).map
        (fun pl => (pl.lineNumber, pl.indent))).foldl stepP s := by
  induction L generalizing s with
  | nil => rfl
  | cons pl L ih =>
    rw [List.foldl_cons, List.filter_cons]
    by_cases h : pl.isTask = true
    · rw [if_pos h, List.map_cons, List.foldl_cons, ih]
      congr 1
      unfold buildStep stepP
      rw [if_pos h]
    · rw [if_neg h, ih]
      congr 1
      unfold buildStep
      rw [if_neg h]

theorem buildTaskTrees_eq_spanForest (L : List ParsedLine)
    (hL : ∀ q ∈ L.enum, q.2.lineNumber = q.1) :
    BuildTaskTrees L = spanForest (taskPairs L) := by
  rw [← BG_eq_spanForest]
  unfold BuildTaskTrees BG flushF
  rw [foldl_buildStep_eq, pairs_eq_taskPairs L hL]

theorem parseLines_lineNumber (c : List Char) :
    ∀ q ∈ (ParseLines c).enum, q.2.lineNumber = q.1 := by
  intro q hq
  obtain ⟨i, h, heq⟩ := List.getElem_of_mem hq
  rw [List.getElem_enum] at heq
  rcases heq with rfl
  simp [ParseLines, mkParsedLine]

/-! ### Structure of the built forest: nodes, roots, spans -/

theorem forestNodes_append (ts us : List TaskTree) :
    forestNodes (ts ++ us) = forestNodes ts ++ forestNodes us := by
  induction ts with
  | nil => rfl
  | cons t ts ih => simp [forestNodes, ih]

theorem forestNodes_spanForest : ∀ τ : List (ℕ × ℕ),
    forestNodes (spanForest τ) = τ.map Prod.fst
  | [] => by rw [spanForest]; rfl
  | (i, d) :: τ => by
    rw [spanForest]
    simp only [forestNodes, treeNodes]
    rw [forestNodes_spanForest (τ.takeWhile (fun p => d < p.2)),
      forestNodes_spanForest (τ.dropWhile (fun p => d < p.2))]
    rw [List.cons_append, ← List.map_append, List.takeWhile_append_dropWhile]
    rfl
termination_by τ => τ.length
decreasing_by
  · simp only [List.length_cons]
    exact Nat.lt_succ_of_le (List.takeWhile_sublist _).length_le
  · simp only [List.length_cons]
    exact Nat.lt_succ_of_le (List.dropWhile_sublist _).length_le

theorem spanForest_root_min : ∀ (n : ℕ) (τ : List (ℕ × ℕ)), τ.length ≤ n →
    τ.Pairwise (fun p q => p.1 < q.1) →
    ∀ T ∈ spanForest τ, ∃ p ∈ τ, p.1 = T.topIdx ∧
      ∀ q ∈ τ, q.1 < p.1 → p.2 ≤ q.2 := by
  intro n
  induction n with
  | zero =>
    intro τ hlen _ T hT
    have h0 : τ = [] := List.length_eq_zero.1 (Nat.le_zero.1 hlen)
    subst h0
    rw [spanForest] at hT
    exact absurd hT (List.not_mem_nil T)
  | succ n ih =>
    intro τ hlen hsort T hT
    cases τ with
    | nil =>
      rw [spanForest] at hT
      exact absurd hT (List.not_mem_nil T)
    | cons hd rest =>
      obtain ⟨i, d⟩ := hd
      rw [spanForest] at hT
      have hlenr : rest.length ≤ n := by
        simp only [List.length_cons] at hlen
        omega
      rcases List.mem_cons.1 hT with rfl | hT2
      · refine ⟨(i, d), List.mem_cons_self _ _, rfl, ?_⟩
        intro q hq hlt
        rcases List.mem_cons.1 hq with rfl | hq2
        · exact absurd hlt (lt_irrefl _)
        · have h1 : (i, d).1 < q.1 := List.rel_of_pairwise_cons hsort hq2
          have h2 : q.1 < i := hlt
          have h3 : i < q.1 := h1
          omega
      · have hsr : rest.Pairwise (fun p q => p.1 < q.1) := hsort.of_cons
        have hsd : (rest.dropWhile (fun p => d < p.2)).Pairwise
            (fun p q => p.1 < q.1) := hsr.sublist (List.dropWhile_sublist _)
        have hlend : (rest.dropWhile (fun p => d < p.2)).length ≤ n := by
          have h1 : (rest.dropWhile (fun p => d < p.2)).length ≤ rest.length :=
            (List.dropWhile_sublist _).length_le
          omega
        obtain ⟨p, hp, hpi, hmin⟩ :=
          ih (rest.dropWhile (fun p => d < p.2)) hlend hsd T hT2
        refine ⟨p, List.mem_cons_of_mem _ ((List.dropWhile_sublist _).subset hp),
          hpi, ?_⟩
        have hpd : p.2 ≤ d := by
          cases hdw : rest.dropWhile (fun p => d < p.2) with
          | nil =>
            rw [hdw] at hp
            exact absurd hp (List.not_mem_nil p)
          | cons q0 tail =>
            have hq0 : ¬ d < q0.2 := by
              have hne : rest.dropWhile (fun p => d < p.2) ≠ [] := by simp [hdw]
              have h2 := List.head_dropWhile_not (fun p => d < p.2) rest hne
              rw [show (rest.dropWhile (fun p => d < p.2)).head hne = q0 from by
                simp [hdw]] at h2
              simpa using h2
            rw [hdw] at hp
            rcases List.mem_cons.1 hp with rfl | hp2
            · omega
            · have hlt0 : q0.1 < p.1 := by
                rw [hdw] at hsd
                exact List.rel_of_pairwise_cons hsd hp2
              have h4 := hmin q0 (by rw [hdw]; exact List.mem_cons_self _ _) hlt0
              omega
        intro q hq hlt
        rcases List.mem_cons.1 hq with rfl | hq2
        · exact hpd
        · rw [← List.takeWhile_append_dropWhile (fun p => d < p.2) rest] at hq2
          rcases List.mem_append.1 hq2 with hin | hdrop
          · have h5 : d < q.2 := by simpa using List.mem_takeWhile_imp hin
            omega
          · exact hmin q hdrop hlt

theorem spanForest_span (L : List ParsedLine) : ∀ (n : ℕ) (σ : List (ℕ × ℕ)),
    σ.length ≤ n →
    σ.Pairwise (fun p q => p.1 < q.1) →
    (∀ p ∈ σ, taskB L p.1 = true ∧ p.2 = indB L p.1) →
    (∀ t q, q ∈ σ → (∃ p ∈ σ, p.1 ≤ t) → t ≤ q.1 → taskB L t = true →
      (t, indB L t) ∈ σ) →
    ∀ T ∈ spanForest σ, (T.topIdx, indB L T.topIdx) ∈ σ ∧
      ∀ j ∈ treeNodes T, T.topIdx ≤ j ∧
        ∀ t, t ≤ j → T.topIdx < t → taskB L t = true →
          indB L T.topIdx < indB L t := by
  intro n
  induction n with
  | zero =>
    intro σ hlen _ _ _ T hT
    have h0 : σ = [] := List.length_eq_zero.1 (Nat.le_zero.1 hlen)
    subst h0
    rw [spanForest] at hT
    exact absurd hT (List.not_mem_nil T)
  | succ n ih =>
    intro σ hlen hsort hm hc T hT
    cases σ with
    | nil =>
      rw [spanForest] at hT
      exact absurd hT (List.not_mem_nil T)
    | cons hd rest =>
      obtain ⟨r, dr⟩ := hd
      rw [spanForest] at hT
      have hlenr : rest.length ≤ n := by
        simp only [List.length_cons] at hlen
        omega
      have hsr : rest.Pairwise (fun p q => p.1 < q.1) := hsort.of_cons
      have hcross : ∀ x ∈ rest.takeWhile (fun p => dr < p.2),
          ∀ y ∈ rest.dropWhile (fun p => dr < p.2), x.1 < y.1 := by
        have h1 : (rest.takeWhile (fun p => dr < p.2) ++
            rest.dropWhile (fun p => dr < p.2)).Pairwise
              (fun p q => p.1 < q.1) := by
          rw [List.takeWhile_append_dropWhile]
          exact hsr
        exact fun x hx y hy => (List.pairwise_append.1 h1).2.2 x hx y hy
      rcases List.mem_cons.1 hT with rfl | hT2
      · simp only [TaskTree.topIdx, treeNodes]
        constructor
        · have h3 : dr = indB L r := (hm (r, dr) (List.mem_cons_self _ _)).2
          rw [← h3]
          exact List.mem_cons_self _ _
        · intro j hj
          rw [show forestNodes (spanForest (rest.takeWhile (fun p => dr < p.2))) =
            (rest.takeWhile (fun p => dr < p.2)).map Prod.fst from
            forestNodes_spanForest _] at hj
          rcases List.mem_cons.1 hj with rfl | hjin
          · exact ⟨le_refl _,
              fun t ht1 ht2 _ => absurd (lt_of_lt_of_le ht2 ht1) (lt_irrefl _)⟩
          · obtain ⟨q, hqin, hq1⟩ := List.mem_map.1 hjin
            have hqrest : q ∈ rest := (List.takeWhile_sublist _).subset hqin
            have hrq : r < q.1 := List.rel_of_pairwise_cons hsort hqrest
            refine ⟨by omega, ?_⟩
            intro t ht1 ht2 ht3
            have h4 := hm q (List.mem_cons_of_mem _ hqrest)
            have h5 : q = (j, indB L j) := by
              rw [← hq1, ← h4.2]
            have hqmem : (j, indB L j) ∈ rest := h5 ▸ hqrest
            have htpair : (t, indB L t) ∈ (r, dr) :: rest :=
              hc t (j, indB L j) (List.mem_cons_of_mem _ hqmem)
                ⟨(r, dr), List.mem_cons_self _ _, le_of_lt ht2⟩ ht1 ht3
            rcases List.mem_cons.1 htpair with heq | htr
            · have hteq : t = r := congrArg Prod.fst heq
              omega
            · rw [← List.takeWhile_append_dropWhile (fun p => dr < p.2) rest] at htr
              rcases List.mem_append.1 htr with hin2 | hdr2
              · have h6 : dr < indB L t := by
                  simpa using List.mem_takeWhile_imp hin2
                have h3 : dr = indB L r := (hm (r, dr) (List.mem_cons_self _ _)).2
                omega
              · have h7 : q.1 < t := hcross q hqin _ hdr2
                omega
      · have hsd : (rest.dropWhile (fun p => dr < p.2)).Pairwise
            (fun p q => p.1 < q.1) := hsr.sublist (List.dropWhile_sublist _)
        have hlend : (rest.dropWhile (fun p => dr < p.2)).length ≤ n := by
          have h1 : (rest.dropWhile (fun p => dr < p.2)).length ≤ rest.length :=
            (List.dropWhile_sublist _).length_le
          omega
        have hmd : ∀ p ∈ rest.dropWhile (fun p => dr < p.2),
            taskB L p.1 = true ∧ p.2 = indB L p.1 := fun p hp =>
          hm p (List.mem_cons_of_mem _ ((List.dropWhile_sublist _).subset hp))
        have hcd : ∀ t q, q ∈ rest.dropWhile (fun p => dr < p.2) →
            (∃ p ∈ rest.dropWhile (fun p => dr < p.2), p.1 ≤ t) →
            t ≤ q.1 → taskB L t = true →
            (t, indB L t) ∈ rest.dropWhile (fun p => dr < p.2) := by
          intro t q hq hex htq ht
          obtain ⟨p, hp, hpt⟩ := hex
          have hσ : (t, indB L t) ∈ (r, dr) :: rest :=
            hc t q (List.mem_cons_of_mem _ ((List.dropWhile_sublist _).subset hq))
              ⟨p, List.mem_cons_of_mem _ ((List.dropWhile_sublist _).subset hp), hpt⟩
              htq ht
          rcases List.mem_cons.1 hσ with heq | hrest
          · have h8 : r < p.1 :=
              List.rel_of_pairwise_cons hsort ((List.dropWhile_sublist _).subset hp)
            have h9 : t = r := congrArg Prod.fst heq
            omega
          · rw [← List.takeWhile_append_dropWhile (fun p => dr < p.2) rest] at hrest
            rcases List.mem_append.1 hrest with hin2 | hdr2
            · have h10 : t < p.1 := hcross _ hin2 p hp
              omega
            · exact hdr2
        obtain ⟨h1, h2⟩ := ih (rest.dropWhile (fun p => dr < p.2)) hlend hsd hmd hcd T hT2
        exact ⟨List.mem_cons_of_mem _ ((List.dropWhile_sublist _).subset h1), h2⟩

theorem taskB_lt {L : List ParsedLine} {t : ℕ} (h : taskB L t = true) :
    t < L.length := by
  by_contra hge
  push_neg at hge
  unfold taskB lineAt at h
  rw [List.getD_eq_default _ _ hge] at h
  exact Bool.noConfusion h

theorem taskPairs_mem {L : List ParsedLine} {p : ℕ × ℕ} :
    p ∈ taskPairs L ↔ taskB L p.1 = true ∧ p.2 = indB L p.1 := by
  unfold taskPairs taskIdxs
  constructor
  · intro hp
    obtain ⟨i, hi, hip⟩ := List.mem_map.1 hp
    have h1 := List.of_mem_filter hi
    rw [← hip]
    exact ⟨h1, rfl⟩
  · intro hp
    refine List.mem_map.2 ⟨p.1, ?_, ?_⟩
    · exact List.mem_filter.2 ⟨List.mem_range.2 (taskB_lt hp.1), hp.1⟩
    · rw [← hp.2]

theorem taskPairs_sorted (L : List ParsedLine) :
    (taskPairs L).Pairwise (fun p q => p.1 < q.1) := by
  unfold taskPairs taskIdxs
  exact List.Pairwise.map _ (fun a b h => h)
    ((List.pairwise_lt_range L.length).filter (taskB L))

theorem isRootB_topIdx (L : List ParsedLine) (T : TaskTree)
    (hT : T ∈ spanForest (taskPairs L)) : isRootB L T.topIdx = true := by
  obtain ⟨p, hp, hpi, hmin⟩ :=
    spanForest_root_min (taskPairs L).length (taskPairs L) (le_refl _)
      (taskPairs_sorted L) T hT
  have hm1 := taskPairs_mem.1 hp
  unfold isRootB
  simp only [Bool.and_eq_true]
  refine ⟨⟨decide_eq_true (taskB_lt (hpi ▸ hm1.1)), hpi ▸ hm1.1⟩, ?_⟩
  refine decide_eq_true ?_
  intro t ht htask
  have hq : (t, indB L t) ∈ taskPairs L := taskPairs_mem.2 ⟨htask, rfl⟩
  have h2 : p.2 ≤ (t, indB L t).2 :=
    hmin _ hq (show (t, indB L t).1 < p.1 from by rw [hpi]; exact ht)
  rw [← hpi, ← hm1.2]
  exact h2

theorem rootIdxOf_treeNodes (L : List ParsedLine) (T : TaskTree)
    (hT : T ∈ spanForest (taskPairs L)) (j : ℕ) (hj : j ∈ treeNodes T) :
    rootIdxOf L j = T.topIdx := by
  have hroot := isRootB_topIdx L T hT
  have hseg := spanForest_span L (taskPairs L).length (taskPairs L) (le_refl _)
    (taskPairs_sorted L)
    (fun p hp => ⟨(taskPairs_mem.1 hp).1, (taskPairs_mem.1 hp).2⟩)
    (fun t q hq hex htq ht => taskPairs_mem.2 ⟨ht, rfl⟩) T hT
  obtain ⟨hmem, hnodes⟩ := hseg
  obtain ⟨hle, hspan⟩ := hnodes j hj
  unfold rootIdxOf
  rw [Nat.findGreatest_eq_iff]
  refine ⟨hle, fun _ => hroot, ?_⟩
  intro t hlt hle2 hP
  have htask : taskB L t = true := by
    unfold isRootB at hP
    simp only [Bool.and_eq_true] at hP
    exact hP.1.2
  have hind := hspan t hle2 hlt htask
  unfold isRootB at hP
  simp only [Bool.and_eq_true, decide_eq_true_eq] at hP
  have h3 := hP.2 T.topIdx hlt (taskPairs_mem.1 hmem).1
  omega

/-! ### Pointwise description of the recursive marking -/

theorem add_mem (st : ArchSt) (i : ℕ) (d : DoneDate) (j : ℕ) :
    (st.add i d).mem j = (decide (j = i) || st.mem j) := rfl

theorem add_gd (st : ArchSt) (i : ℕ) (d : DoneDate) (j : ℕ) :
    (st.add i d).gd j = if j = i then d else st.gd j := rfl

theorem addAll_append (st : ArchSt) (d : DoneDate) (xs ys : List ℕ) :
    addAll st d (xs ++ ys) = addAll (addAll st d xs) d ys := by
  unfold addAll
  rw [List.foldl_append]

theorem addAll_mem (st : ArchSt) (d : DoneDate) (is : List ℕ) (j : ℕ) :
    (addAll st d is).mem j = (decide (j ∈ is) || st.mem j) := by
  induction is generalizing st with
  | nil => simp [addAll]
  | cons a is ih =>
    show (addAll (st.add a d) d is).mem j = _
    rw [ih]
    rw [add_mem]
    simp [List.mem_cons, Bool.or_comm, Bool.or_assoc, Bool.or_left_comm]

theorem addAll_gd (st : ArchSt) (d : DoneDate) (is : List ℕ) (j : ℕ) :
    (addAll st d is).gd j = if j ∈ is then d else st.gd j := by
  induction is generalizing st with
  | nil => simp [addAll]
  | cons a is ih =>
    show (addAll (st.add a d) d is).gd j = _
    rw [ih, add_gd]
    by_cases h : j ∈ is
    · rw [if_pos h, if_pos (List.mem_cons.2 (Or.inr h))]
    · rw [if_neg h]
      by_cases h2 : j = a
      · rw [if_pos h2, if_pos (List.mem_cons.2 (Or.inl h2))]
      · rw [if_neg h2, if_neg (by simp [List.mem_cons, h, h2])]

mutual

theorem markRec_off (lines : List ParsedLine) (cutoff : ℤ) :
    ∀ (T : TaskTree) (st : ArchSt) (d : DoneDate),
      markArchivableRecursive lines cutoff T st false d false = st
  | .node idx children, st, d => markList_off lines cutoff children st d
termination_by structural T st d => T

theorem markList_off (lines : List ParsedLine) (cutoff : ℤ) :
    ∀ (ts : List TaskTree) (st : ArchSt) (d : DoneDate),
      markArchivableList lines cutoff ts st false d = st
  | [], _, _ => rfl
  | t :: ts, st, d => by
    rw [markArchivableList]
    rw [markRec_off lines cutoff t st d]
    exact markList_off lines cutoff ts st d
termination_by structural ts st d => ts

end

mutual

theorem markRec_on (lines : List ParsedLine) (cutoff : ℤ) :
    ∀ (T : TaskTree) (st : ArchSt) (d : DoneDate),
      markArchivableRecursive lines cutoff T st true d false =
        addAll st d (treeNodes T)
  | .node idx children, st, d => by
    show markArchivableList lines cutoff children (st.add idx d) true d =
      addAll st d (idx :: forestNodes children)
    rw [markList_on lines cutoff children (st.add idx d) d]
    rfl
termination_by structural T st d => T

theorem markList_on (lines : List ParsedLine) (cutoff : ℤ) :
    ∀ (ts : List TaskTree) (st : ArchSt) (d : DoneDate),
      markArchivableList lines cutoff ts st true d =
        addAll st d (forestNodes ts)
  | [], _, _ => rfl
  | t :: ts, st, d => by
    rw [markArchivableList]
    rw [markRec_on lines cutoff t st d]
    rw [markList_on lines cutoff ts (addAll st d (treeNodes t)) d]
    show addAll (addAll st d (treeNodes t)) d (forestNodes ts) = _
    rw [← addAll_append]
    rfl
termination_by structural ts st d => ts

end

theorem markRec_root (lines : List ParsedLine) (cutoff : ℤ) (idx : ℕ)
    (children : List TaskTree) (st : ArchSt) :
    markArchivableRecursive lines cutoff (.node idx children) st false default true =
      if taskQualifiesB lines cutoff idx = true
      then addAll st (rootDate lines idx) (treeNodes (.node idx children))
      else st := by
  rw [markArchivableRecursive]
  simp only [Bool.not_false, Bool.true_and]
  by_cases hC : ((lineAt lines idx).isCompleted && (lineAt lines idx).hasDoneTag) = true
  · cases hp : ParseDoneDate (lineAt lines idx).content with
    | none =>
      simp only [hC, hp, if_true]
      rw [markList_off]
      unfold taskQualifiesB
      rw [hp, hC]
      simp
    | some dt =>
      by_cases hi : dt.instant < cutoff
      · simp only [hC, hp, if_pos hi, if_true]
        rw [markList_on]
        unfold taskQualifiesB rootDate
        rw [hp, hC]
        simp [hi, treeNodes]
        rfl
      · simp only [hC, hp, if_neg hi, if_true]
        rw [markList_off]
        unfold taskQualifiesB
        rw [hp, hC]
        simp [hi]
  · simp only [if_neg hC]
    rw [markList_off]
    unfold taskQualifiesB
    rw [show ((lineAt lines idx).isCompleted && (lineAt lines idx).hasDoneTag) = false
      from Bool.not_eq_true _ ▸ Bool.of_not_eq_true hC]
    simp

/-! ### Pointwise description of the non-task sweep -/

theorem sweepSpan_mem (p : ℕ) (g : DoneDate) :
    ∀ (ls : List ParsedLine) (st : ArchSt) (j : ℕ),
      (sweepSpan p g ls st).mem j = (st.mem j || sweepHit p j ls) := by
  intro ls
  induction ls with
  | nil =>
    intro st j
    simp [sweepSpan, sweepHit]
  | cons pl rest ih =>
    intro st j
    rw [sweepSpan, sweepHit]
    by_cases h : pl.indent ≤ p
    · rw [if_pos h, if_pos h]
      simp
    · rw [if_neg h, if_neg h, ih]
      by_cases h2 : (!pl.isTask && !st.mem pl.lineNumber) = true
      · rw [if_pos h2, add_mem]
        rw [Bool.eq_iff_iff]
        simp only [Bool.or_eq_true, Bool.and_eq_true, decide_eq_true_eq,
          beq_iff_eq, Bool.not_eq_true] at h2 ⊢
        constructor
        · rintro ((rfl | hm) | hhit)
          · exact Or.inr (Or.inl ⟨h2.1, rfl⟩)
          · exact Or.inl hm
          · exact Or.inr (Or.inr hhit)
        · rintro (hm | (⟨ht, rfl⟩ | hhit))
          · exact Or.inl (Or.inr hm)
          · exact Or.inl (Or.inl rfl)
          · exact Or.inr hhit
      · rw [if_neg h2]
        rw [Bool.eq_iff_iff]
        have h2a : (!pl.isTask) = true → st.mem pl.lineNumber = true := by
          intro hT
          cases hMB : st.mem pl.lineNumber with
          | true => rfl
          | false => exact absurd (by rw [hT, hMB]; rfl) h2
        simp only [Bool.or_eq_true, Bool.and_eq_true, decide_eq_true_eq,
          beq_iff_eq, Bool.not_eq_true]
        constructor
        · rintro (hm | hhit)
          · exact Or.inl hm
          · exact Or.inr (Or.inr hhit)
        · rintro (hm | (⟨ht, rfl⟩ | hhit))
          · exact Or.inl hm
          · exact Or.inl (h2a ht)
          · exact Or.inr hhit

theorem sweepSpan_gd_mem (p : ℕ) (g : DoneDate) :
    ∀ (ls : List ParsedLine) (st : ArchSt) (j : ℕ), st.mem j = true →
      (sweepSpan p g ls st).gd j = st.gd j := by
  intro ls
  induction ls with
  | nil =>
    intro st j _
    rfl
  | cons pl rest ih =>
    intro st j hm
    rw [sweepSpan]
    by_cases h : pl.indent ≤ p
    · rw [if_pos h]
    · rw [if_neg h]
      by_cases h2 : (!pl.isTask && !st.mem pl.lineNumber) = true
      · rw [if_pos h2]
        have hne : pl.lineNumber ≠ j := by
          intro he
          rw [he] at h2
          simp [hm] at h2
        rw [ih (st.add pl.lineNumber g) j (by rw [add_mem]; simp [hm])]
        rw [add_gd, if_neg (fun he => hne he.symm)]
      · rw [if_neg h2]
        exact ih st j hm

theorem sweepSpan_gd_new (p : ℕ) (g : DoneDate) :
    ∀ (ls : List ParsedLine) (st : ArchSt) (j : ℕ), st.mem j = false →
      (sweepSpan p g ls st).gd j =
        (if sweepHit p j ls = true then g else st.gd j) := by
  intro ls
  induction ls with
  | nil =>
    intro st j _
    rw [show sweepHit p j [] = false from rfl]
    simp [sweepSpan]
  | cons pl rest ih =>
    intro st j hm
    rw [sweepSpan, sweepHit]
    by_cases h : pl.indent ≤ p
    · rw [if_pos h, if_pos h]
      simp
    · rw [if_neg h, if_neg h]
      by_cases hj : (!pl.isTask && (pl.lineNumber == j)) = true
      · have hadd : (!pl.isTask && !st.mem pl.lineNumber) = true := by
          simp only [Bool.and_eq_true, beq_iff_eq] at hj
          rw [hj.2]
          simp [Bool.and_eq_true, hj.1, hm]
        rw [if_pos hadd]
        have hjln : pl.lineNumber = j := by
          simp only [Bool.and_eq_true, beq_iff_eq] at hj
          exact hj.2
        have hmem2 : (st.add pl.lineNumber g).mem j = true := by
          rw [add_mem, hjln]
          simp
        rw [sweepSpan_gd_mem p g rest _ j hmem2]
        rw [add_gd, hjln, if_pos rfl]
        have hcond : (!pl.isTask && (j == j) || sweepHit p j rest) = true := by
          simp only [Bool.and_eq_true, beq_iff_eq] at hj
          simp [hj.1]
        rw [hcond, if_pos rfl]
      · have hj2 : (!pl.isTask && (pl.lineNumber == j)) = false := by
          rw [← Bool.not_eq_true]
          exact hj
        rw [hj2, Bool.false_or]
        by_cases h2 : (!pl.isTask && !st.mem pl.lineNumber) = true
        · have hne : pl.lineNumber ≠ j := by
            intro he
            apply hj
            simp only [Bool.and_eq_true, beq_iff_eq] at h2 ⊢
            exact ⟨h2.1, he⟩
          have hne2 : j ≠ pl.lineNumber := fun he => hne he.symm
          rw [if_pos h2]
          rw [ih (st.add pl.lineNumber g) j (by rw [add_mem]; simp [hm, hne2])]
          rw [add_gd, if_neg hne2]
        · rw [if_neg h2]
          exact ih st j hm

theorem sweepHit_none (p n : ℕ) :
    ∀ ls : List ParsedLine,
      (∀ pl ∈ ls, pl.lineNumber = n → pl.isTask = true) →
      sweepHit p n ls = false := by
  intro ls
  induction ls with
  | nil => intro _; rfl
  | cons pl rest ih =>
    intro h
    rw [sweepHit]
    by_cases hp : pl.indent ≤ p
    · rw [if_pos hp]
    · rw [if_neg hp]
      rw [ih (fun q hq => h q (List.mem_cons_of_mem _ hq))]
      by_cases he : pl.lineNumber = n
      · rw [h pl (List.mem_cons_self _ _) he]
        rfl
      · have : (pl.lineNumber == n) = false := by
          simp [he]
        rw [this]
        simp

theorem outerHit_congr :
    ∀ (ls : List ParsedLine) (st1 st2 : ArchSt) (j : ℕ),
      (∀ pl ∈ ls, pl.isTask = true →
        st1.mem pl.lineNumber = st2.mem pl.lineNumber) →
      outerHit st1 j ls = outerHit st2 j ls := by
  intro ls
  induction ls with
  | nil => intro _ _ _ _; rfl
  | cons pl rest ih =>
    intro st1 st2 j h
    rw [outerHit, outerHit]
    rw [ih st1 st2 j (fun q hq => h q (List.mem_cons_of_mem _ hq))]
    by_cases ht : pl.isTask = true
    · rw [h pl (List.mem_cons_self _ _) ht]
    · have ht2 : pl.isTask = false := by
        rw [← Bool.not_eq_true]
        exact ht
      rw [ht2]
      simp

theorem firstSweeper_congr :
    ∀ (ls : List ParsedLine) (st1 st2 : ArchSt) (j : ℕ),
      (∀ pl ∈ ls, pl.isTask = true →
        st1.mem pl.lineNumber = st2.mem pl.lineNumber) →
      firstSweeper st1 j ls = firstSweeper st2 j ls := by
  intro ls
  induction ls with
  | nil => intro _ _ _ _; rfl
  | cons pl rest ih =>
    intro st1 st2 j h
    rw [firstSweeper, firstSweeper]
    rw [ih st1 st2 j (fun q hq => h q (List.mem_cons_of_mem _ hq))]
    by_cases ht : pl.isTask = true
    · rw [h pl (List.mem_cons_self _ _) ht]
    · have ht2 : pl.isTask = false := by
        rw [← Bool.not_eq_true]
        exact ht
      rw [ht2]
      simp

theorem firstSweeper_some_facts :
    ∀ (ls : List ParsedLine) (st : ArchSt) (j i : ℕ),
      firstSweeper st j ls = some i →
      st.mem i = true ∧ ∃ pl ∈ ls, pl.lineNumber = i ∧ pl.isTask = true := by
  intro ls
  induction ls with
  | nil =>
    intro st j i h
    exact absurd h (by rw [firstSweeper]; simp)
  | cons pl rest ih =>
    intro st j i h
    rw [firstSweeper] at h
    by_cases hc : (st.mem pl.lineNumber && pl.isTask &&
        sweepHit pl.indent j rest) = true
    · rw [if_pos hc] at h
      simp only [Bool.and_eq_true] at hc
      obtain rfl : pl.lineNumber = i := Option.some.inj h
      exact ⟨hc.1.1, pl, List.mem_cons_self _ _, rfl, hc.1.2⟩
    · rw [if_neg hc] at h
      obtain ⟨hm, q, hq, h1, h2⟩ := ih st j i h
      exact ⟨hm, q, List.mem_cons_of_mem _ hq, h1, h2⟩

/-! ### Pointwise description of the outer sweep loop and the marking fold -/

theorem include_mem :
    ∀ (ls : List ParsedLine) (st : ArchSt) (j : ℕ),
      (ls.map (fun pl => pl.lineNumber)).Nodup →
      (includeNonTaskChildren ls st).mem j = (st.mem j || outerHit st j ls) := by
  intro ls
  induction ls with
  | nil =>
    intro st j _
    simp [includeNonTaskChildren, outerHit]
  | cons pl rest ih =>
    intro st j hN
    have hNr : (rest.map (fun pl => pl.lineNumber)).Nodup := by
      rw [List.map_cons] at hN
      exact (List.nodup_cons.1 hN).2
    rw [includeNonTaskChildren, outerHit]
    by_cases hf : (st.mem pl.lineNumber && pl.isTask) = true
    · rw [if_pos hf]
      have htaskmem : ∀ q ∈ rest, q.isTask = true →
          (sweepSpan pl.indent (st.gd pl.lineNumber) rest st).mem q.lineNumber =
            st.mem q.lineNumber := by
        intro q hq hqt
        rw [sweepSpan_mem, sweepHit_none]
        · simp
        · intro q2 hq2 he
          rw [List.inj_on_of_nodup_map hNr hq2 hq he]
          exact hqt
      rw [ih _ j hNr, outerHit_congr rest _ st j htaskmem]
      rw [sweepSpan_mem, hf, Bool.true_and, Bool.or_assoc]
    · rw [if_neg hf]
      rw [ih st j hNr]
      have hf2 : (st.mem pl.lineNumber && pl.isTask) = false := by
        rw [← Bool.not_eq_true]
        exact hf
      rw [hf2, Bool.false_and, Bool.false_or]

theorem include_gd_mem :
    ∀ (ls : List ParsedLine) (st : ArchSt) (j : ℕ), st.mem j = true →
      (includeNonTaskChildren ls st).gd j = st.gd j := by
  intro ls
  induction ls with
  | nil =>
    intro st j _
    rfl
  | cons pl rest ih =>
    intro st j hm
    rw [includeNonTaskChildren]
    by_cases hf : (st.mem pl.lineNumber && pl.isTask) = true
    · rw [if_pos hf]
      rw [ih _ j (by rw [sweepSpan_mem, hm]; rfl)]
      exact sweepSpan_gd_mem _ _ _ _ _ hm
    · rw [if_neg hf]
      exact ih st j hm

theorem include_gd_new :
    ∀ (ls : List ParsedLine) (st : ArchSt) (j : ℕ),
      (ls.map (fun pl => pl.lineNumber)).Nodup → st.mem j = false →
      (includeNonTaskChildren ls st).gd j =
        (match firstSweeper st j ls with
         | some i => st.gd i
         | none => st.gd j) := by
  intro ls
  induction ls with
  | nil =>
    intro st j _ _
    rfl
  | cons pl rest ih =>
    intro st j hN hm
    have hNr : (rest.map (fun pl => pl.lineNumber)).Nodup := by
      rw [List.map_cons] at hN
      exact (List.nodup_cons.1 hN).2
    rw [includeNonTaskChildren, firstSweeper]
    by_cases hc : (st.mem pl.lineNumber && pl.isTask &&
        sweepHit pl.indent j rest) = true
    · rw [if_pos hc]
      have hsplit : ((st.mem pl.lineNumber && pl.isTask) = true) ∧
          sweepHit pl.indent j rest = true := by
        simp only [Bool.and_eq_true] at hc ⊢
        exact hc
      have hf := hsplit.1
      have hh := hsplit.2
      rw [if_pos hf]
      have hm1 : (sweepSpan pl.indent (st.gd pl.lineNumber) rest st).mem j = true := by
        rw [sweepSpan_mem, hm, hh]
        rfl
      rw [include_gd_mem rest _ j hm1]
      rw [sweepSpan_gd_new _ _ _ _ _ hm, if_pos hh]
    · rw [if_neg hc]
      by_cases hf : (st.mem pl.lineNumber && pl.isTask) = true
      · rw [if_pos hf]
        have hh : sweepHit pl.indent j rest = false := by
          cases hx : sweepHit pl.indent j rest with
          | false => rfl
          | true => exact absurd (by rw [hf, hx]; rfl) hc
        have hm1 : (sweepSpan pl.indent (st.gd pl.lineNumber) rest st).mem j = false := by
          rw [sweepSpan_mem, hm, hh]
          rfl
        rw [ih _ j hNr hm1]
        have htaskmem : ∀ q ∈ rest, q.isTask = true →
            (sweepSpan pl.indent (st.gd pl.lineNumber) rest st).mem q.lineNumber =
              st.mem q.lineNumber := by
          intro q hq hqt
          rw [sweepSpan_mem, sweepHit_none]
          · simp
          · intro q2 hq2 he
            rw [List.inj_on_of_nodup_map hNr hq2 hq he]
            exact hqt
        rw [firstSweeper_congr rest _ st j htaskmem]
        cases hfs : firstSweeper st j rest with
        | none =>
          rw [sweepSpan_gd_new _ _ _ _ _ hm, hh]
          simp
        | some i =>
          obtain ⟨hmi, _⟩ := firstSweeper_some_facts rest st j i hfs
          exact sweepSpan_gd_mem _ _ _ _ _ hmi
      · rw [if_neg hf]
        exact ih st j hNr hm

theorem foldMark_mem (lines : List ParsedLine) (cutoff : ℤ) :
    ∀ (ts : List TaskTree) (st : ArchSt) (j : ℕ),
      (ts.foldl (fun st t =>
          markArchivableRecursive lines cutoff t st false default true) st).mem j =
        (ts.any (fun t => taskQualifiesB lines cutoff t.topIdx &&
          decide (j ∈ treeNodes t)) || st.mem j) := by
  intro ts
  induction ts with
  | nil =>
    intro st j
    simp
  | cons t ts ih =>
    intro st j
    rw [List.foldl_cons, List.any_cons]
    cases t with
    | node idx cs =>
      rw [markRec_root]
      rw [show (TaskTree.node idx cs).topIdx = idx from rfl]
      by_cases hq : taskQualifiesB lines cutoff idx = true
      · rw [if_pos hq, ih, addAll_mem, hq]
        rw [Bool.eq_iff_iff]
        simp only [Bool.or_eq_true, Bool.and_eq_true, decide_eq_true_eq,
          Bool.true_and]
        constructor
        · rintro (ha | (hj | hm))
          · exact Or.inl (Or.inr ha)
          · exact Or.inl (Or.inl hj)
          · exact Or.inr hm
        · rintro ((hj | ha) | hm)
          · exact Or.inr (Or.inl hj)
          · exact Or.inl ha
          · exact Or.inr (Or.inr hm)
      · rw [if_neg hq, ih]
        have hq2 : taskQualifiesB lines cutoff idx = false := by
          rw [← Bool.not_eq_true]
          exact hq
        rw [hq2, Bool.false_and, Bool.false_or]

theorem foldMark_gd_out (lines : List ParsedLine) (cutoff : ℤ) :
    ∀ (ts : List TaskTree) (st : ArchSt) (j : ℕ),
      (∀ t ∈ ts, j ∉ treeNodes t) →
      (ts.foldl (fun st t =>
          markArchivableRecursive lines cutoff t st false default true) st).gd j =
        st.gd j := by
  intro ts
  induction ts with
  | nil =>
    intro st j _
    rfl
  | cons t ts ih =>
    intro st j h
    rw [List.foldl_cons]
    cases t with
    | node idx cs =>
      rw [markRec_root]
      by_cases hq : taskQualifiesB lines cutoff idx = true
      · rw [if_pos hq]
        rw [ih _ j (fun t2 ht => h t2 (List.mem_cons_of_mem _ ht))]
        rw [addAll_gd, if_neg (h _ (List.mem_cons_self _ _))]
      · rw [if_neg hq]
        exact ih st j (fun t2 ht => h t2 (List.mem_cons_of_mem _ ht))

theorem foldMark_gd_in (lines : List ParsedLine) (cutoff : ℤ) :
    ∀ (ts : List TaskTree) (st : ArchSt) (j r : ℕ),
      (∀ t ∈ ts, j ∈ treeNodes t → t.topIdx = r) →
      (∃ t ∈ ts, j ∈ treeNodes t) →
      taskQualifiesB lines cutoff r = true →
      (ts.foldl (fun st t =>
          markArchivableRecursive lines cutoff t st false default true) st).gd j =
        rootDate lines r := by
  intro ts
  induction ts with
  | nil =>
    intro st j r _ hex _
    obtain ⟨t, ht, _⟩ := hex
    exact absurd ht (List.not_mem_nil t)
  | cons t ts ih =>
    intro st j r hall hex hq
    rw [List.foldl_cons]
    cases t with
    | node idx cs =>
      by_cases hjt : j ∈ treeNodes (TaskTree.node idx cs)
      · have hr : idx = r := hall _ (List.mem_cons_self _ _) hjt
        subst hr
        rw [markRec_root, if_pos hq]
        by_cases hrest : ∃ t2 ∈ ts, j ∈ treeNodes t2
        · exact ih _ j idx (fun t2 ht2 => hall t2 (List.mem_cons_of_mem _ ht2))
            hrest hq
        · push_neg at hrest
          rw [foldMark_gd_out lines cutoff ts _ j hrest]
          rw [addAll_gd, if_pos hjt]
      · have hrest : ∃ t2 ∈ ts, j ∈ treeNodes t2 := by
          obtain ⟨t2, ht2, hj2⟩ := hex
          rcases List.mem_cons.1 ht2 with rfl | ht3
          · exact absurd hj2 hjt
          · exact ⟨t2, ht3, hj2⟩
        rw [markRec_root]
        by_cases hq2 : taskQualifiesB lines cutoff idx = true
        · rw [if_pos hq2]
          exact ih _ j r (fun t2 ht2 => hall t2 (List.mem_cons_of_mem _ ht2))
            hrest hq
        · rw [if_neg hq2]
          exact ih st j r (fun t2 ht2 => hall t2 (List.mem_cons_of_mem _ ht2))
            hrest hq

/-! ### Positional characterization of the sweeps -/

theorem selfIndexed_getElem {L : List ParsedLine}
    (hL : ∀ q ∈ L.enum, q.2.lineNumber = q.1) (n : ℕ) (h : n < L.length) :
    (L[n]).lineNumber = n := by
  apply hL (n, L[n])
  have h2 : n < L.enum.length := by simpa [List.enum_length] using h
  have h3 : L.enum[n] = (n, L[n]) := List.getElem_enum L n h2
  rw [← h3]
  exact List.getElem_mem h2

theorem selfIndexed_map_ln {L : List ParsedLine}
    (hL : ∀ q ∈ L.enum, q.2.lineNumber = q.1) :
    L.map (fun pl => pl.lineNumber) = List.range L.length := by
  apply List.ext_getElem
  · simp
  · intro n h1 h2
    simp only [List.getElem_map, List.getElem_range]
    exact selfIndexed_getElem hL n (by simpa using h1)

theorem indB_getElem {L : List ParsedLine} {m : ℕ} (h : m < L.length) :
    indB L m = (L[m]).indent := by
  unfold indB lineAt
  rw [List.getD_eq_getElem L default h]

theorem taskB_getElem {L : List ParsedLine} {m : ℕ} (h : m < L.length) :
    taskB L m = (L[m]).isTask := by
  unfold taskB lineAt
  rw [List.getD_eq_getElem L default h]

theorem sweepHit_drop (L : List ParsedLine)
    (hL : ∀ q ∈ L.enum, q.2.lineNumber = q.1) (p j : ℕ) :
    ∀ (n m : ℕ), L.length ≤ m + n →
      (sweepHit p j (L.drop m) = true ↔
        (m ≤ j ∧ j < L.length ∧ taskB L j = false ∧
          ∀ k, k ≤ j → m ≤ k → p < indB L k)) := by
  intro n
  induction n with
  | zero =>
    intro m hmn
    rw [List.drop_eq_nil_of_le (by omega)]
    rw [show sweepHit p j [] = false from rfl]
    constructor
    · intro h
      exact absurd h (by simp)
    · rintro ⟨h1, h2, _, _⟩
      omega
  | succ n ih =>
    intro m hmn
    by_cases hm : m < L.length
    · rw [List.drop_eq_getElem_cons hm, sweepHit]
      have hmln : (L[m]).lineNumber = m := selfIndexed_getElem hL m hm
      have hindm : indB L m = (L[m]).indent := indB_getElem hm
      have htkm : taskB L m = (L[m]).isTask := taskB_getElem hm
      by_cases hind : (L[m]).indent ≤ p
      · rw [if_pos hind]
        constructor
        · intro h
          exact absurd h (by simp)
        · rintro ⟨h1, h2, h3, h4⟩
          have h5 := h4 m h1 (le_refl m)
          omega
      · rw [if_neg hind]
        rw [Bool.or_eq_true]
        constructor
        · rintro (hhead | htail)
          · simp only [Bool.and_eq_true, Bool.not_eq_true', beq_iff_eq] at hhead
            obtain ⟨htk, hlnj⟩ := hhead
            have hj : j = m := by omega
            subst hj
            refine ⟨le_refl _, hm, by rw [htkm]; exact htk, ?_⟩
            intro k hk1 hk2
            have hk : k = j := by omega
            subst hk
            omega
          · obtain ⟨h1, h2, h3, h4⟩ := (ih (m + 1) (by omega)).1 htail
            refine ⟨by omega, h2, h3, ?_⟩
            intro k hk1 hk2
            rcases Nat.eq_or_lt_of_le hk2 with rfl | hk3
            · omega
            · exact h4 k hk1 (by omega)
        · rintro ⟨h1, h2, h3, h4⟩
          by_cases hj : j = m
          · left
            subst hj
            simp only [Bool.and_eq_true, Bool.not_eq_true', beq_iff_eq]
            exact ⟨by rw [← htkm]; exact h3, by omega⟩
          · right
            refine (ih (m + 1) (by omega)).2 ⟨by omega, h2, h3, ?_⟩
            intro k hk1 hk2
            exact h4 k hk1 (by omega)
    · rw [List.drop_eq_nil_of_le (by omega)]
      rw [show sweepHit p j [] = false from rfl]
      constructor
      · intro h
        exact absurd h (by simp)
      · rintro ⟨h1, h2, _, _⟩
        omega

theorem outerHit_drop (L : List ParsedLine)
    (hL : ∀ q ∈ L.enum, q.2.lineNumber = q.1) (st : ArchSt) (j : ℕ) :
    ∀ (n m : ℕ), L.length ≤ m + n →
      (outerHit st j (L.drop m) = true ↔ ∃ i, m ≤ i ∧ sweepsB L st j i) := by
  intro n
  induction n with
  | zero =>
    intro m hmn
    rw [List.drop_eq_nil_of_le (by omega)]
    rw [show outerHit st j [] = false from rfl]
    constructor
    · intro h
      exact absurd h (by simp)
    · rintro ⟨i, hi, hlen, _⟩
      omega
  | succ n ih =>
    intro m hmn
    by_cases hm : m < L.length
    · rw [List.drop_eq_getElem_cons hm, outerHit]
      have hmln : (L[m]).lineNumber = m := selfIndexed_getElem hL m hm
      have hindm : indB L m = (L[m]).indent := indB_getElem hm
      have htkm : taskB L m = (L[m]).isTask := taskB_getElem hm
      rw [Bool.or_eq_true]
      constructor
      · rintro (hhead | htail)
        · simp only [Bool.and_eq_true] at hhead
          obtain ⟨⟨hmem, htk⟩, hhit⟩ := hhead
          obtain ⟨h1, h2, h3, h4⟩ :=
            (sweepHit_drop L hL (L[m]).indent j n (m + 1) (by omega)).1 hhit
          refine ⟨m, le_refl m, hm, by rw [hmln] at hmem; exact hmem,
            by rw [htkm]; exact htk, by omega, h2, h3, ?_⟩
          intro k hk1 hk2
          rw [hindm]
          exact h4 k hk1 (by omega)
        · obtain ⟨i, hi, hsw⟩ := ih (m + 1) (by omega) |>.1 htail
          exact ⟨i, by omega, hsw⟩
      · rintro ⟨i, hi, hlen, hmem, htk, hij, hjlen, hjtk, hspan⟩
        by_cases him : i = m
        · left
          subst him
          simp only [Bool.and_eq_true]
          refine ⟨⟨by rw [hmln]; exact hmem, by rw [← htkm]; exact htk⟩, ?_⟩
          refine (sweepHit_drop L hL (L[i]).indent j n (i + 1) (by omega)).2
            ⟨by omega, hjlen, hjtk, ?_⟩
          intro k hk1 hk2
          rw [← hindm]
          exact hspan k hk1 (by omega)
        · right
          exact (ih (m + 1) (by omega)).2
            ⟨i, by omega, hlen, hmem, htk, hij, hjlen, hjtk, hspan⟩
    · rw [List.drop_eq_nil_of_le (by omega)]
      rw [show outerHit st j [] = false from rfl]
      constructor
      · intro h
        exact absurd h (by simp)
      · rintro ⟨i, hi, hlen, _⟩
        omega

theorem firstSweeper_drop (L : List ParsedLine)
    (hL : ∀ q ∈ L.enum, q.2.lineNumber = q.1) (st : ArchSt) (j : ℕ) :
    ∀ (n m : ℕ), L.length ≤ m + n → ∀ i,
      (firstSweeper st j (L.drop m) = some i ↔
        (m ≤ i ∧ sweepsB L st j i ∧
          ∀ i2, m ≤ i2 → i2 < i → ¬ sweepsB L st j i2)) := by
  intro n
  induction n with
  | zero =>
    intro m hmn i
    rw [List.drop_eq_nil_of_le (by omega)]
    rw [show firstSweeper st j [] = none from rfl]
    constructor
    · intro h
      exact absurd h (by simp)
    · rintro ⟨hi, ⟨hlen, _⟩, _⟩
      omega
  | succ n ih =>
    intro m hmn i
    by_cases hm : m < L.length
    · rw [List.drop_eq_getElem_cons hm, firstSweeper]
      have hmln : (L[m]).lineNumber = m := selfIndexed_getElem hL m hm
      have hindm : indB L m = (L[m]).indent := indB_getElem hm
      have htkm : taskB L m = (L[m]).isTask := taskB_getElem hm
      have hcond : ((st.mem (L[m]).lineNumber && (L[m]).isTask &&
          sweepHit (L[m]).indent j (L.drop (m + 1))) = true) ↔
          sweepsB L st j m := by
        simp only [Bool.and_eq_true]
        constructor
        · rintro ⟨⟨hmem, htk⟩, hhit⟩
          obtain ⟨h1, h2, h3, h4⟩ :=
            (sweepHit_drop L hL (L[m]).indent j n (m + 1) (by omega)).1 hhit
          refine ⟨hm, by rw [hmln] at hmem; exact hmem, by rw [htkm]; exact htk,
            by omega, h2, h3, ?_⟩
          intro k hk1 hk2
          rw [hindm]
          exact h4 k hk1 (by omega)
        · rintro ⟨hlen, hmem, htk, hij, hjlen, hjtk, hspan⟩
          refine ⟨⟨by rw [hmln]; exact hmem, by rw [← htkm]; exact htk⟩, ?_⟩
          refine (sweepHit_drop L hL (L[m]).indent j n (m + 1) (by omega)).2
            ⟨by omega, hjlen, hjtk, ?_⟩
          intro k hk1 hk2
          rw [← hindm]
          exact hspan k hk1 (by omega)
      by_cases hc : (st.mem (L[m]).lineNumber && (L[m]).isTask &&
          sweepHit (L[m]).indent j (L.drop (m + 1))) = true
      · rw [if_pos hc, hmln]
        have hswm : sweepsB L st j m := hcond.1 hc
        constructor
        · intro h
          obtain rfl : m = i := Option.some.inj h
          exact ⟨le_refl m, hswm, fun i2 h1 h2 => absurd h2 (by omega)⟩
        · rintro ⟨hi, hsw, hmin⟩
          rcases Nat.eq_or_lt_of_le hi with rfl | hlt
          · rfl
          · exact absurd hswm (hmin m (le_refl m) hlt)
      · rw [if_neg hc]
        rw [ih (m + 1) (by omega) i]
        have hnm : ¬ sweepsB L st j m := fun hsw => hc (hcond.2 hsw)
        constructor
        · rintro ⟨hi, hsw, hmin⟩
          refine ⟨by omega, hsw, ?_⟩
          intro i2 h1 h2
          rcases Nat.eq_or_lt_of_le h1 with rfl | h3
          · exact hnm
          · exact hmin i2 (by omega) h2
        · rintro ⟨hi, hsw, hmin⟩
          have him : i ≠ m := by
            intro he
            rw [he] at hsw
            exact hnm hsw
          refine ⟨by omega, hsw, ?_⟩
          intro i2 h1 h2
          exact hmin i2 (by omega) h2
    · rw [List.drop_eq_nil_of_le (by omega)]
      rw [show firstSweeper st j [] = none from rfl]
      constructor
      · intro h
        exact absurd h (by simp)
      · rintro ⟨hi, ⟨hlen, _⟩, _⟩
        omega

/-! ### The populated archive maps, declaratively -/

theorem mem_forestNodes : ∀ (ts : List TaskTree) (j : ℕ),
    j ∈ forestNodes ts ↔ ∃ t ∈ ts, j ∈ treeNodes t := by
  intro ts
  induction ts with
  | nil =>
    intro j
    rw [show forestNodes [] = [] from rfl]
    simp
  | cons t ts ih =>
    intro j
    rw [show forestNodes (t :: ts) = treeNodes t ++ forestNodes ts from rfl]
    rw [List.mem_append]
    constructor
    · rintro (h | h)
      · exact ⟨t, List.mem_cons_self _ _, h⟩
      · obtain ⟨t2, h1, h2⟩ := (ih j).1 h
        exact ⟨t2, List.mem_cons_of_mem _ h1, h2⟩
    · rintro ⟨t2, h1, h2⟩
      rcases List.mem_cons.1 h1 with rfl | h3
      · exact Or.inl h2
      · exact Or.inr ((ih j).2 ⟨t2, h3, h2⟩)

theorem coverersOf_mem_iff {L : List ParsedLine} {cutoff : ℤ} {j i : ℕ} :
    i ∈ coverersOf L cutoff j ↔
      i < j ∧ coversB L i j = true ∧ specTaskArchivable L cutoff i = true := by
  unfold coverersOf
  rw [List.mem_filter, List.mem_range, Bool.and_eq_true]

theorem coverersOf_sorted (L : List ParsedLine) (cutoff : ℤ) (j : ℕ) :
    (coverersOf L cutoff j).Pairwise (· < ·) := by
  unfold coverersOf
  exact (List.pairwise_lt_range j).filter _

theorem headD_mem_of_ne_nil {l : List ℕ} (h : l ≠ []) : l.headD 0 ∈ l := by
  cases l with
  | nil => exact absurd rfl h
  | cons a t => exact List.mem_cons_self _ _

theorem sorted_headD_le {l : List ℕ} (hs : l.Pairwise (· < ·)) (x : ℕ)
    (hx : x ∈ l) : l.headD 0 ≤ x := by
  cases l with
  | nil => exact absurd hx (List.not_mem_nil x)
  | cons a t =>
    rcases List.mem_cons.1 hx with rfl | h2
    · exact le_refl x
    · exact le_of_lt (List.rel_of_pairwise_cons hs h2)

theorem filterMap_if {α β : Type} (p : α → Bool) (f : α → β) (l : List α) :
    l.filterMap (fun a => if p a = true then some (f a) else none) =
      (l.filter p).map f := by
  induction l with
  | nil => rfl
  | cons a l ih =>
    rw [List.filterMap_cons, List.filter_cons]
    by_cases h : p a = true
    · rw [if_pos h, if_pos h, ih, List.map_cons]
    · rw [if_neg h, if_neg h, ih]

theorem archiveMarks_mem (content : List Char) (delayDays now : ℤ) (j : ℕ) :
    (archiveMarks content delayDays now).mem j =
      specArchivable (ParseLines content) (now - delayDays * nsPerDay) j := by
  have hL : ∀ q ∈ (ParseLines content).enum, q.2.lineNumber = q.1 :=
    parseLines_lineNumber content
  have hNodup : ((ParseLines content).map (fun pl => pl.lineNumber)).Nodup := by
    rw [selfIndexed_map_ln hL]
    exact List.nodup_range _
  have htrees : BuildTaskTrees (ParseLines content) =
      spanForest (taskPairs (ParseLines content)) :=
    buildTaskTrees_eq_spanForest (ParseLines content) hL
  rw [show archiveMarks content delayDays now =
    includeNonTaskChildren (ParseLines content)
      ((BuildTaskTrees (ParseLines content)).foldl (fun st t =>
        markArchivableRecursive (ParseLines content)
          (now - delayDays * nsPerDay) t st false default true)
        ArchSt.empty) from rfl]
  have hst1mem : ∀ i,
      ((BuildTaskTrees (ParseLines content)).foldl (fun st t =>
        markArchivableRecursive (ParseLines content)
          (now - delayDays * nsPerDay) t st false default true)
        ArchSt.empty).mem i =
      specTaskArchivable (ParseLines content) (now - delayDays * nsPerDay) i := by
    intro i
    rw [htrees, foldMark_mem]
    rw [Bool.eq_iff_iff]
    simp only [Bool.or_eq_true, List.any_eq_true, Bool.and_eq_true,
      decide_eq_true_eq]
    constructor
    · rintro (⟨t, ht, hq, hmem⟩ | hemp)
      · have hroot := rootIdxOf_treeNodes (ParseLines content) t ht i hmem
        have hi : i ∈ forestNodes (spanForest (taskPairs (ParseLines content))) :=
          (mem_forestNodes _ i).2 ⟨t, ht, hmem⟩
        rw [forestNodes_spanForest] at hi
        obtain ⟨pr, hpr, hpr2⟩ := List.mem_map.1 hi
        have hm2 := taskPairs_mem.1 hpr
        unfold specTaskArchivable
        simp only [Bool.and_eq_true, decide_eq_true_eq]
        have htk : taskB (ParseLines content) i = true := by
          rw [← hpr2]
          exact hm2.1
        exact ⟨⟨taskB_lt htk, htk⟩, by rw [hroot]; exact hq⟩
      · exact absurd hemp (by simp [ArchSt.empty])
    · intro hsp
      left
      unfold specTaskArchivable at hsp
      simp only [Bool.and_eq_true, decide_eq_true_eq] at hsp
      obtain ⟨⟨hilen, htk⟩, hq⟩ := hsp
      have hi : i ∈ forestNodes (spanForest (taskPairs (ParseLines content))) := by
        rw [forestNodes_spanForest]
        exact List.mem_map.2 ⟨(i, indB (ParseLines content) i),
          taskPairs_mem.2 ⟨htk, rfl⟩, rfl⟩
      obtain ⟨t, ht, hmem⟩ := (mem_forestNodes _ i).1 hi
      have hroot := rootIdxOf_treeNodes (ParseLines content) t ht i hmem
      exact ⟨t, ht, by rw [← hroot]; exact hq, hmem⟩
  rw [include_mem (ParseLines content) _ j hNodup]
  unfold specArchivable
  by_cases htj : taskB (ParseLines content) j = true
  · rw [if_pos htj, hst1mem j]
    have hOH : outerHit ((BuildTaskTrees (ParseLines content)).foldl (fun st t =>
        markArchivableRecursive (ParseLines content)
          (now - delayDays * nsPerDay) t st false default true)
        ArchSt.empty) j (ParseLines content) = false := by
      cases hx : outerHit _ j (ParseLines content) with
      | false => rfl
      | true =>
        obtain ⟨i, _, hsw⟩ :=
          (outerHit_drop (ParseLines content) hL _ j
            (ParseLines content).length 0 (by omega)).1
            (by rw [List.drop_zero]; exact hx)
        obtain ⟨_, _, _, _, _, hjf, _⟩ := hsw
        rw [htj] at hjf
        exact Bool.noConfusion hjf
    rw [hOH, Bool.or_false]
  · have htj2 : taskB (ParseLines content) j = false := by
      rw [← Bool.not_eq_true]
      exact htj
    rw [if_neg htj]
    have hstj : ((BuildTaskTrees (ParseLines content)).foldl (fun st t =>
        markArchivableRecursive (ParseLines content)
          (now - delayDays * nsPerDay) t st false default true)
        ArchSt.empty).mem j = false := by
      rw [hst1mem j]
      unfold specTaskArchivable
      rw [htj2]
      simp
    rw [hstj, Bool.false_or]
    rw [Bool.eq_iff_iff]
    constructor
    · intro hx
      obtain ⟨i, _, hsw⟩ :=
        (outerHit_drop (ParseLines content) hL _ j
          (ParseLines content).length 0 (by omega)).1
          (by rw [List.drop_zero]; exact hx)
      obtain ⟨hilen, hmem, htki, hij, hjlen, hjtk, hspan⟩ := hsw
      have hcov : i ∈ coverersOf (ParseLines content) (now - delayDays * nsPerDay) j := by
        rw [coverersOf_mem_iff]
        refine ⟨hij, ?_, by rw [← hst1mem i]; exact hmem⟩
        unfold coversB
        simp only [Bool.and_eq_true, decide_eq_true_eq]
        exact ⟨⟨⟨hij, hjlen⟩, htki⟩, fun k hk1 hk2 => hspan k hk1 hk2⟩
      have hne : coverersOf (ParseLines content) (now - delayDays * nsPerDay) j ≠ [] := by
        intro he
        rw [he] at hcov
        exact absurd hcov (List.not_mem_nil i)
      cases hE : (coverersOf (ParseLines content) (now - delayDays * nsPerDay) j).isEmpty with
      | false => rfl
      | true => exact absurd (List.isEmpty_iff.1 hE) hne
    · intro hx
      have hne : coverersOf (ParseLines content) (now - delayDays * nsPerDay) j ≠ [] := by
        intro he
        rw [he] at hx
        exact absurd hx (by simp)
      have hcov := headD_mem_of_ne_nil hne
      rw [coverersOf_mem_iff] at hcov
      obtain ⟨hij, hcb, hsp⟩ := hcov
      unfold coversB at hcb
      simp only [Bool.and_eq_true, decide_eq_true_eq] at hcb
      obtain ⟨⟨⟨_, hjlen⟩, htki⟩, hspan⟩ := hcb
      refine (outerHit_drop (ParseLines content) hL _ j
        (ParseLines content).length 0 (by omega)).2
        ⟨(coverersOf (ParseLines content) (now - delayDays * nsPerDay) j).headD 0,
          Nat.zero_le _, taskB_lt htki, by rw [hst1mem]; exact hsp, htki, hij,
          hjlen, htj2, hspan⟩ |>.symm ▸ ?_
      rfl

theorem stage1_mem (content : List Char) (delayDays now : ℤ) (i : ℕ) :
    ((BuildTaskTrees (ParseLines content)).foldl (fun st t =>
      markArchivableRecursive (ParseLines content) (now - delayDays * nsPerDay)
        t st false default true) ArchSt.empty).mem i =
    specTaskArchivable (ParseLines content) (now - delayDays * nsPerDay) i := by
  have hL : ∀ q ∈ (ParseLines content).enum, q.2.lineNumber = q.1 :=
    parseLines_lineNumber content
  have htrees : BuildTaskTrees (ParseLines content) =
      spanForest (taskPairs (ParseLines content)) :=
    buildTaskTrees_eq_spanForest (ParseLines content) hL
  rw [htrees, foldMark_mem]
  rw [Bool.eq_iff_iff]
  simp only [Bool.or_eq_true, List.any_eq_true, Bool.and_eq_true,
    decide_eq_true_eq]
  constructor
  · rintro (⟨t, ht, hq, hmem⟩ | hemp)
    · have hroot := rootIdxOf_treeNodes (ParseLines content) t ht i hmem
      have hi : i ∈ forestNodes (spanForest (taskPairs (ParseLines content))) :=
        (mem_forestNodes _ i).2 ⟨t, ht, hmem⟩
      rw [forestNodes_spanForest] at hi
      obtain ⟨pr, hpr, hpr2⟩ := List.mem_map.1 hi
      have hm2 := taskPairs_mem.1 hpr
      unfold specTaskArchivable
      simp only [Bool.and_eq_true, decide_eq_true_eq]
      have htk : taskB (ParseLines content) i = true := by
        rw [← hpr2]
        exact hm2.1
      exact ⟨⟨taskB_lt htk, htk⟩, by rw [hroot]; exact hq⟩
    · exact absurd hemp (by simp [ArchSt.empty])
  · intro hsp
    left
    unfold specTaskArchivable at hsp
    simp only [Bool.and_eq_true, decide_eq_true_eq] at hsp
    obtain ⟨⟨hilen, htk⟩, hq⟩ := hsp
    have hi : i ∈ forestNodes (spanForest (taskPairs (ParseLines content))) := by
      rw [forestNodes_spanForest]
      exact List.mem_map.2 ⟨(i, indB (ParseLines content) i),
        taskPairs_mem.2 ⟨htk, rfl⟩, rfl⟩
    obtain ⟨t, ht, hmem⟩ := (mem_forestNodes _ i).1 hi
    have hroot := rootIdxOf_treeNodes (ParseLines content) t ht i hmem
    exact ⟨t, ht, by rw [← hroot]; exact hq, hmem⟩

theorem stage1_gd (content : List Char) (delayDays now : ℤ) (i : ℕ)
    (hsp : specTaskArchivable (ParseLines content)
      (now - delayDays * nsPerDay) i = true) :
    ((BuildTaskTrees (ParseLines content)).foldl (fun st t =>
      markArchivableRecursive (ParseLines content) (now - delayDays * nsPerDay)
        t st false default true) ArchSt.empty).gd i =
    rootDate (ParseLines content) (rootIdxOf (ParseLines content) i) := by
  have hL : ∀ q ∈ (ParseLines content).enum, q.2.lineNumber = q.1 :=
    parseLines_lineNumber content
  have htrees : BuildTaskTrees (ParseLines content) =
      spanForest (taskPairs (ParseLines content)) :=
    buildTaskTrees_eq_spanForest (ParseLines content) hL
  unfold specTaskArchivable at hsp
  simp only [Bool.and_eq_true, decide_eq_true_eq] at hsp
  obtain ⟨⟨hilen, htk⟩, hq⟩ := hsp
  apply foldMark_gd_in
  · intro t ht hmem
    rw [htrees] at ht
    exact (rootIdxOf_treeNodes (ParseLines content) t ht i hmem).symm
  · have hi : i ∈ forestNodes (spanForest (taskPairs (ParseLines content))) := by
      rw [forestNodes_spanForest]
      exact List.mem_map.2 ⟨(i, indB (ParseLines content) i),
        taskPairs_mem.2 ⟨htk, rfl⟩, rfl⟩
    obtain ⟨t, ht, hmem⟩ := (mem_forestNodes _ i).1 hi
    rw [htrees]
    exact ⟨t, ht, hmem⟩
  · exact hq

theorem archiveMarks_gd (content : List Char) (delayDays now : ℤ) (j : ℕ)
    (h : (archiveMarks content delayDays now).mem j = true) :
    (archiveMarks content delayDays now).gd j =
      rootDate (ParseLines content)
        (rootIdxOf (ParseLines content)
          (anchorIdx (ParseLines content) (now - delayDays * nsPerDay) j)) := by
  have hL : ∀ q ∈ (ParseLines content).enum, q.2.lineNumber = q.1 :=
    parseLines_lineNumber content
  have hNodup : ((ParseLines content).map (fun pl => pl.lineNumber)).Nodup := by
    rw [selfIndexed_map_ln hL]
    exact List.nodup_range _
  have hspec : specArchivable (ParseLines content)
      (now - delayDays * nsPerDay) j = true := by
    rw [← archiveMarks_mem]
    exact h
  rw [show archiveMarks content delayDays now =
    includeNonTaskChildren (ParseLines content)
      ((BuildTaskTrees (ParseLines content)).foldl (fun st t =>
        markArchivableRecursive (ParseLines content)
          (now - delayDays * nsPerDay) t st false default true)
        ArchSt.empty) from rfl]
  by_cases htj : taskB (ParseLines content) j = true
  · have hanch : anchorIdx (ParseLines content) (now - delayDays * nsPerDay) j = j := by
      unfold anchorIdx
      rw [if_pos htj]
    rw [hanch]
    have hsp : specTaskArchivable (ParseLines content)
        (now - delayDays * nsPerDay) j = true := by
      unfold specArchivable at hspec
      rw [if_pos htj] at hspec
      exact hspec
    have hm1 : ((BuildTaskTrees (ParseLines content)).foldl (fun st t =>
        markArchivableRecursive (ParseLines content)
          (now - delayDays * nsPerDay) t st false default true)
        ArchSt.empty).mem j = true := by
      rw [stage1_mem]
      exact hsp
    rw [include_gd_mem _ _ _ hm1]
    exact stage1_gd content delayDays now j hsp
  · have htj2 : taskB (ParseLines content) j = false := by
      rw [← Bool.not_eq_true]
      exact htj
    have hanch : anchorIdx (ParseLines content) (now - delayDays * nsPerDay) j =
        (coverersOf (ParseLines content) (now - delayDays * nsPerDay) j).headD 0 := by
      unfold anchorIdx
      rw [if_neg htj]
    have hm0 : ((BuildTaskTrees (ParseLines content)).foldl (fun st t =>
        markArchivableRecursive (ParseLines content)
          (now - delayDays * nsPerDay) t st false default true)
        ArchSt.empty).mem j = false := by
      rw [stage1_mem]
      unfold specTaskArchivable
      rw [htj2]
      simp
    have hne : coverersOf (ParseLines content) (now - delayDays * nsPerDay) j ≠ [] := by
      unfold specArchivable at hspec
      rw [if_neg htj] at hspec
      intro he
      rw [he] at hspec
      exact absurd hspec (by simp)
    have hbridge : ∀ i, sweepsB (ParseLines content)
        ((BuildTaskTrees (ParseLines content)).foldl (fun st t =>
          markArchivableRecursive (ParseLines content)
            (now - delayDays * nsPerDay) t st false default true)
          ArchSt.empty) j i ↔
        i ∈ coverersOf (ParseLines content) (now - delayDays * nsPerDay) j := by
      intro i
      rw [coverersOf_mem_iff]
      constructor
      · rintro ⟨hilen, hmem, htki, hij, hjlen, hjtk, hspan⟩
        refine ⟨hij, ?_, by rw [← stage1_mem content delayDays now i]; exact hmem⟩
        unfold coversB
        simp only [Bool.and_eq_true, decide_eq_true_eq]
        exact ⟨⟨⟨hij, hjlen⟩, htki⟩, hspan⟩
      · rintro ⟨hij, hcb, hsp2⟩
        unfold coversB at hcb
        simp only [Bool.and_eq_true, decide_eq_true_eq] at hcb
        obtain ⟨⟨⟨_, hjlen⟩, htki⟩, hspan⟩ := hcb
        exact ⟨taskB_lt htki, by rw [stage1_mem]; exact hsp2, htki, hij, hjlen,
          htj2, hspan⟩
    have hfs : firstSweeper ((BuildTaskTrees (ParseLines content)).foldl (fun st t =>
        markArchivableRecursive (ParseLines content)
          (now - delayDays * nsPerDay) t st false default true)
        ArchSt.empty) j (ParseLines content) =
        some ((coverersOf (ParseLines content)
          (now - delayDays * nsPerDay) j).headD 0) := by
      have h0 := (firstSweeper_drop (ParseLines content) hL _ j
        (ParseLines content).length 0 (by omega)
        ((coverersOf (ParseLines content) (now - delayDays * nsPerDay) j).headD 0)).2
        ⟨Nat.zero_le _, (hbridge _).2 (headD_mem_of_ne_nil hne), ?_⟩
      · rw [List.drop_zero] at h0
        exact h0
      · intro i2 _ hlt hsw
        have hmem2 := (hbridge i2).1 hsw
        have := sorted_headD_le (coverersOf_sorted (ParseLines content)
          (now - delayDays * nsPerDay) j) i2 hmem2
        omega
    rw [include_gd_new _ _ _ hNodup hm0, hfs]
    have hcov := headD_mem_of_ne_nil hne
    rw [coverersOf_mem_iff] at hcov
    rw [hanch]
    exact stage1_gd content delayDays now _ hcov.2.2

/-! ### The archival claims: gating, cutoff boundary, grouping -/

theorem todayOf_bounds (now : ℤ) :
    todayOf now * nsPerDay ≤ now ∧ now < (todayOf now + 1) * nsPerDay := by
  unfold todayOf nsPerDay
  have h1 : Int.fdiv now 86400000000000 = now / 86400000000000 :=
    Int.fdiv_eq_ediv now (by omega)
  rw [h1]
  have h2 := Int.ediv_add_emod now 86400000000000
  have h3 := Int.emod_nonneg now (show (86400000000000 : ℤ) ≠ 0 by omega)
  have h4 := Int.emod_lt_of_pos now (show (0 : ℤ) < 86400000000000 by omega)
  omega

/-- C1: Archive gating.  The populated archive map marks line `j` exactly
when `j` is declaratively archivable (a task whose owning forest root is
completed, tagged, and dated strictly before the cutoff, or a non-task line
covered by such a task), and `FilterArchivable` partitions the lines by that
predicate; no line is archivable on the strength of a non-root task tag
alone, since qualification always consults `rootIdxOf`. -/
theorem archive_gating (content : List Char) (delayDays now : ℤ) :
    (∀ j, (archiveMarks content delayDays now).mem j =
      specArchivable (ParseLines content) (now - delayDays * nsPerDay) j) ∧
    (FilterArchivable content delayDays now).1 =
      ((ParseLines content).filter (fun pl =>
        specArchivable (ParseLines content) (now - delayDays * nsPerDay)
          pl.lineNumber)).map (fun pl =>
        ⟨pl.content, (archiveMarks content delayDays now).gd pl.lineNumber⟩) ∧
    (FilterArchivable content delayDays now).2 =
      [nlChar].intercalate (((ParseLines content).filter (fun pl =>
        !(specArchivable (ParseLines content) (now - delayDays * nsPerDay)
          pl.lineNumber))).map (fun pl => pl.content)) := by
  refine ⟨fun j => archiveMarks_mem content delayDays now j, ?_, ?_⟩
  · rw [show (FilterArchivable content delayDays now).1 =
      (ParseLines content).filterMap (fun pl =>
        if (archiveMarks content delayDays now).mem pl.lineNumber = true
        then some (⟨pl.content,
          (archiveMarks content delayDays now).gd pl.lineNumber⟩ : ArchiveTask)
        else none) from rfl]
    rw [filterMap_if]
    congr 1
    apply List.filter_congr
    intro pl _
    exact archiveMarks_mem content delayDays now pl.lineNumber
  · rw [show (FilterArchivable content delayDays now).2 =
      [nlChar].intercalate (((ParseLines content).filter (fun pl =>
        !(archiveMarks content delayDays now).mem pl.lineNumber)).map
          (fun pl => pl.content)) from rfl]
    congr 2
    apply List.filter_congr
    intro pl _
    rw [archiveMarks_mem content delayDays now pl.lineNumber]

/-- C2 (amended): the qualification inequality `tagInstant < now − delayDays`
compares a midnight instant against a cutoff that keeps the time of day of
`now`.  A tag dated `today − delayDays − 1` or earlier always qualifies, but
a tag dated exactly `today − delayDays` qualifies whenever `now` is strictly
past midnight — not never, as the claim states. -/
theorem cutoff_boundary_amended (delayDays now : ℤ) (dt : DoneDate) :
    dt.instant < now - delayDays * nsPerDay ↔
      dt.serial + delayDays < todayOf now ∨
        (dt.serial + delayDays = todayOf now ∧ todayOf now * nsPerDay < now) := by
  have hb := todayOf_bounds now
  unfold DoneDate.instant at *
  unfold nsPerDay at *
  omega

/-- C2 counterexample: with `now` at noon of 2026-01-19 and `delayDays = 2`,
the root task tagged `@done(2026-01-17)` — exactly `today − delayDays` — IS
archived by `FilterArchivable`, contradicting the claimed strict-boundary
behaviour. -/
theorem cutoff_boundary_counterexample :
    ((FilterArchivable ("- [x] T @done(2026-01-17)".toList) 2
        (daysFromCivil 2026 1 19 * nsPerDay + 43200000000000)).1).length = 1 ∧
    todayOf (daysFromCivil 2026 1 19 * nsPerDay + 43200000000000) =
      daysFromCivil 2026 1 19 ∧
    (⟨2026, 1, 17⟩ : DoneDate).serial = daysFromCivil 2026 1 19 - 2 ∧
    ParseDoneDate (lineAt (ParseLines ("- [x] T @done(2026-01-17)".toList)) 0).content =
      some ⟨2026, 1, 17⟩ ∧
    (FilterArchivable ("- [x] T @done(2026-01-17)".toList) 2
        (daysFromCivil 2026 1 19 * nsPerDay + 43200000000000)).2 = [] := by
  refine ⟨?_, ?_, ?_, ?_, ?_⟩ <;> decide

/-- C5: Grouping invariant.  Every line of one built tree has the same
owning root (`rootIdxOf` is constant on `treeNodes`), and the group date the
archive map assigns to any marked line is the owning root own-tag date,
obtained through the anchor of the line — never a descendant tag date. -/
theorem grouping_invariant (content : List Char) (delayDays now : ℤ) :
    (∀ T ∈ BuildTaskTrees (ParseLines content), ∀ j ∈ treeNodes T,
      rootIdxOf (ParseLines content) j = T.topIdx) ∧
    ∀ j, (archiveMarks content delayDays now).mem j = true →
      (archiveMarks content delayDays now).gd j =
        rootDate (ParseLines content)
          (rootIdxOf (ParseLines content)
            (anchorIdx (ParseLines content) (now - delayDays * nsPerDay) j)) := by
  constructor
  · intro T hT j hj
    have htrees : BuildTaskTrees (ParseLines content) =
        spanForest (taskPairs (ParseLines content)) :=
      buildTaskTrees_eq_spanForest (ParseLines content)
        (parseLines_lineNumber content)
    rw [htrees] at hT
    exact rootIdxOf_treeNodes (ParseLines content) T hT j hj
  · exact fun j h => archiveMarks_gd content delayDays now j h

/-- C5 witness: in `"- [x] A @done(2020-01-01)"` followed by an indented
note, the swept note line (line 1) carries the root own-tag group date. -/
theorem grouping_invariant_witness :
    (archiveMarks ("- [x] A @done(2020-01-01)".toList ++ [nlChar] ++
      "  note".toList) 2
      (daysFromCivil 2026 1 19 * nsPerDay + 43200000000000)).mem 1 = true ∧
    (archiveMarks ("- [x] A @done(2020-01-01)".toList ++ [nlChar] ++
      "  note".toList) 2
      (daysFromCivil 2026 1 19 * nsPerDay + 43200000000000)).gd 1 =
      rootDate (ParseLines ("- [x] A @done(2020-01-01)".toList ++ [nlChar] ++
        "  note".toList))
        (rootIdxOf (ParseLines ("- [x] A @done(2020-01-01)".toList ++ [nlChar] ++
          "  note".toList))
          (anchorIdx (ParseLines ("- [x] A @done(2020-01-01)".toList ++ [nlChar] ++
            "  note".toList))
            (daysFromCivil 2026 1 19 * nsPerDay + 43200000000000 -
              2 * nsPerDay) 1)) :=
  ⟨by decide,
    (grouping_invariant ("- [x] A @done(2020-01-01)".toList ++ [nlChar] ++
      "  note".toList) 2
      (daysFromCivil 2026 1 19 * nsPerDay + 43200000000000)).2 1 (by decide)⟩

/-! ### The cascade: marking facts -/

mutual

theorem subtree_nodes_subset :
    ∀ (T : TaskTree), ∀ sub ∈ allSubtrees T, ∀ j ∈ treeNodes sub, j ∈ treeNodes T
  | .node idx cs => by
    intro sub hsub j hj
    rw [show allSubtrees (TaskTree.node idx cs) =
      TaskTree.node idx cs :: allSubtreesF cs from rfl] at hsub
    rcases List.mem_cons.1 hsub with rfl | hsub2
    · exact hj
    · rw [show treeNodes (TaskTree.node idx cs) = idx :: forestNodes cs from rfl]
      exact List.mem_cons_of_mem _ (subtreeF_nodes_subset cs sub hsub2 j hj)
termination_by structural T => T

theorem subtreeF_nodes_subset :
    ∀ (ts : List TaskTree), ∀ sub ∈ allSubtreesF ts, ∀ j ∈ treeNodes sub,
      j ∈ forestNodes ts
  | [] => by
    intro sub hsub
    rw [show allSubtreesF ([] : List TaskTree) = [] from rfl] at hsub
    exact absurd hsub (List.not_mem_nil sub)
  | t :: ts => by
    intro sub hsub j hj
    rw [show allSubtreesF (t :: ts) = allSubtrees t ++ allSubtreesF ts from rfl]
      at hsub
    rw [show forestNodes (t :: ts) = treeNodes t ++ forestNodes ts from rfl]
    rcases List.mem_append.1 hsub with h1 | h1
    · exact List.mem_append.2 (Or.inl (subtree_nodes_subset t sub h1 j hj))
    · exact List.mem_append.2 (Or.inr (subtreeF_nodes_subset ts sub h1 j hj))
termination_by structural ts => ts

end

theorem topIdx_mem_treeNodes (sub : TaskTree) : sub.topIdx ∈ treeNodes sub := by
  cases sub with
  | node idx cs =>
    rw [show treeNodes (TaskTree.node idx cs) = idx :: forestNodes cs from rfl]
    exact List.mem_cons_self _ _

theorem mem_allSubtreesF :
    ∀ (ts : List TaskTree) (T : TaskTree), T ∈ ts →
      ∀ sub ∈ allSubtrees T, sub ∈ allSubtreesF ts := by
  intro ts
  induction ts with
  | nil =>
    intro T hT
    exact absurd hT (List.not_mem_nil T)
  | cons t ts ih =>
    intro T hT sub hsub
    rw [show allSubtreesF (t :: ts) = allSubtrees t ++ allSubtreesF ts from rfl]
    rcases List.mem_cons.1 hT with rfl | h2
    · exact List.mem_append.2 (Or.inl hsub)
    · exact List.mem_append.2 (Or.inr (ih T h2 sub hsub))

mutual

theorem nested_subtrees :
    ∀ (T : TaskTree), (treeNodes T).Nodup →
      ∀ sub ∈ allSubtrees T, ∀ sub2 ∈ allSubtrees T,
        sub.topIdx ∈ treeNodes sub2 → ∀ j ∈ treeNodes sub, j ∈ treeNodes sub2
  | .node idx cs => by
    intro hN sub hsub sub2 hsub2 hhead j hj
    have hsubC : sub ∈ TaskTree.node idx cs :: allSubtreesF cs := hsub
    have hsub2C : sub2 ∈ TaskTree.node idx cs :: allSubtreesF cs := hsub2
    have hN2 : (idx :: forestNodes cs).Nodup := hN
    rcases List.mem_cons.1 hsub2C with rfl | h2
    · exact subtree_nodes_subset _ sub hsub j hj
    · rcases List.mem_cons.1 hsubC with rfl | h1
      · exfalso
        have hbad : idx ∈ forestNodes cs :=
          subtreeF_nodes_subset cs sub2 h2 _ hhead
        exact (List.nodup_cons.1 hN2).1 hbad
      · exact nestedF_subtrees cs (List.nodup_cons.1 hN2).2 sub h1 sub2 h2 hhead j hj
termination_by structural T => T

theorem nestedF_subtrees :
    ∀ (ts : List TaskTree), (forestNodes ts).Nodup →
      ∀ sub ∈ allSubtreesF ts, ∀ sub2 ∈ allSubtreesF ts,
        sub.topIdx ∈ treeNodes sub2 → ∀ j ∈ treeNodes sub, j ∈ treeNodes sub2
  | [] => by
    intro _ sub hsub
    rw [show allSubtreesF ([] : List TaskTree) = [] from rfl] at hsub
    exact absurd hsub (List.not_mem_nil sub)
  | t :: ts => by
    intro hN sub hsub sub2 hsub2 hhead j hj
    rw [show allSubtreesF (t :: ts) = allSubtrees t ++ allSubtreesF ts from rfl]
      at hsub hsub2
    have hN2 : (treeNodes t ++ forestNodes ts).Nodup := hN
    have hdisj := List.disjoint_of_nodup_append hN2
    rcases List.mem_append.1 hsub with h1 | h1 <;>
      rcases List.mem_append.1 hsub2 with h2 | h2
    · exact nested_subtrees t (List.nodup_append.1 hN2).1 sub h1 sub2 h2 hhead j hj
    · exfalso
      have ha : sub.topIdx ∈ treeNodes t :=
        subtree_nodes_subset t sub h1 _ (topIdx_mem_treeNodes sub)
      have hb : sub.topIdx ∈ forestNodes ts :=
        subtreeF_nodes_subset ts sub2 h2 _ hhead
      exact hdisj ha hb
    · exfalso
      have ha : sub.topIdx ∈ forestNodes ts :=
        subtreeF_nodes_subset ts sub h1 _ (topIdx_mem_treeNodes sub)
      have hb : sub.topIdx ∈ treeNodes t :=
        subtree_nodes_subset t sub2 h2 _ hhead
      exact hdisj hb ha
    · exact nestedF_subtrees ts (List.nodup_append.1 hN2).2.1 sub h1 sub2 h2 hhead j hj
termination_by structural ts => ts

end

theorem lineAt_set (st : List ParsedLine) (i : ℕ) (a : ParsedLine) (j : ℕ) :
    lineAt (st.set i a) j = if j = i ∧ i < st.length then a else lineAt st j := by
  by_cases h : j = i ∧ i < st.length
  · obtain ⟨rfl, h2⟩ := h
    rw [if_pos ⟨rfl, h2⟩]
    unfold lineAt
    rw [List.getD_eq_getElem _ _ (by rw [List.length_set]; exact h2)]
    exact List.getElem_set_self _
  · rw [if_neg h]
    by_cases hj : j = i
    · subst hj
      have hlen : st.length ≤ j := by
        by_contra hc
        push_neg at hc
        exact h ⟨rfl, hc⟩
      rw [List.set_eq_of_length_le hlen]
    · unfold lineAt
      rw [List.getD_eq_getElem?_getD, List.getD_eq_getElem?_getD,
        List.getElem?_set_ne (fun he => hj he.symm)]

theorem markLine_facts (today : List Char) (st : List ParsedLine) (idx : ℕ) :
    (markLineCompleted today st idx).1.length = st.length ∧
    (∀ j, (lineAt st j).isCompleted = true →
      (lineAt (markLineCompleted today st idx).1 j).isCompleted = true) ∧
    (idx < st.length →
      (lineAt (markLineCompleted today st idx).1 idx).isCompleted = true) ∧
    (∀ j, (lineAt (markLineCompleted today st idx).1 j).isCompleted = true →
      (lineAt st j).isCompleted = true ∨ j = idx) := by
  simp only [markLineCompleted]
  by_cases hc : (!(lineAt st idx).isCompleted) = true
  · rw [if_pos hc]
    refine ⟨List.length_set _ _ _, ?_, ?_, ?_⟩
    · intro j hj
      rw [lineAt_set]
      by_cases h2 : j = idx ∧ idx < st.length
      · rw [if_pos h2]
      · rw [if_neg h2]
        exact hj
    · intro hlen
      rw [lineAt_set, if_pos ⟨rfl, hlen⟩]
    · intro j hj
      rw [lineAt_set] at hj
      by_cases h2 : j = idx ∧ idx < st.length
      · exact Or.inr h2.1
      · rw [if_neg h2] at hj
        exact Or.inl hj
  · rw [if_neg hc]
    refine ⟨rfl, fun j hj => hj, ?_, fun j hj => Or.inl hj⟩
    intro _
    cases hx : (lineAt st idx).isCompleted with
    | true => rfl
    | false =>
      rw [hx] at hc
      exact absurd rfl hc

mutual

theorem markTree_facts (today : List Char) :
    ∀ (T : TaskTree) (st : List ParsedLine),
      (markTreeCompleted today T st).1.length = st.length ∧
      (∀ j, (lineAt st j).isCompleted = true →
        (lineAt (markTreeCompleted today T st).1 j).isCompleted = true) ∧
      (∀ j ∈ treeNodes T, j < st.length →
        (lineAt (markTreeCompleted today T st).1 j).isCompleted = true) ∧
      (∀ j, (lineAt (markTreeCompleted today T st).1 j).isCompleted = true →
        (lineAt st j).isCompleted = true ∨ j ∈ treeNodes T)
  | .node idx cs, st => by
    obtain ⟨hl1, hm1, hk1, hu1⟩ := markLine_facts today st idx
    obtain ⟨hl2, hm2, hk2, hu2⟩ :=
      markList_facts today cs (markLineCompleted today st idx).1
    refine ⟨by rw [show (markTreeCompleted today (TaskTree.node idx cs) st).1 =
        (markListCompleted today cs (markLineCompleted today st idx).1).1
        from rfl, hl2, hl1], ?_, ?_, ?_⟩
    · intro j hj
      exact hm2 j (hm1 j hj)
    · intro j hj hlen
      rw [show treeNodes (TaskTree.node idx cs) = idx :: forestNodes cs
        from rfl] at hj
      rcases List.mem_cons.1 hj with rfl | hj2
      · exact hm2 j (hk1 hlen)
      · exact hk2 j hj2 (by rw [hl1]; exact hlen)
    · intro j hj
      rcases hu2 j hj with hj2 | hj2
      · rcases hu1 j hj2 with h3 | rfl
        · exact Or.inl h3
        · refine Or.inr ?_
          rw [show treeNodes (TaskTree.node j cs) = j :: forestNodes cs from rfl]
          exact List.mem_cons_self _ _
      · refine Or.inr ?_
        rw [show treeNodes (TaskTree.node idx cs) = idx :: forestNodes cs from rfl]
        exact List.mem_cons_of_mem _ hj2
termination_by structural T st => T

theorem markList_facts (today : List Char) :
    ∀ (ts : List TaskTree) (st : List ParsedLine),
      (markListCompleted today ts st).1.length = st.length ∧
      (∀ j, (lineAt st j).isCompleted = true →
        (lineAt (markListCompleted today ts st).1 j).isCompleted = true) ∧
      (∀ j ∈ forestNodes ts, j < st.length →
        (lineAt (markListCompleted today ts st).1 j).isCompleted = true) ∧
      (∀ j, (lineAt (markListCompleted today ts st).1 j).isCompleted = true →
        (lineAt st j).isCompleted = true ∨ j ∈ forestNodes ts)
  | [], st => by
    refine ⟨rfl, fun j hj => hj, ?_, fun j hj => Or.inl hj⟩
    intro j hj
    rw [show forestNodes ([] : List TaskTree) = [] from rfl] at hj
    exact absurd hj (List.not_mem_nil j)
  | t :: ts, st => by
    obtain ⟨hl1, hm1, hk1, hu1⟩ := markTree_facts today t st
    obtain ⟨hl2, hm2, hk2, hu2⟩ :=
      markList_facts today ts (markTreeCompleted today t st).1
    refine ⟨by rw [show (markListCompleted today (t :: ts) st).1 =
        (markListCompleted today ts (markTreeCompleted today t st).1).1
        from rfl, hl2, hl1], ?_, ?_, ?_⟩
    · intro j hj
      exact hm2 j (hm1 j hj)
    · intro j hj hlen
      rw [show forestNodes (t :: ts) = treeNodes t ++ forestNodes ts from rfl] at hj
      rcases List.mem_append.1 hj with hj2 | hj2
      · exact hm2 j (hk1 j hj2 hlen)
      · exact hk2 j hj2 (by rw [hl1]; exact hlen)
    · intro j hj
      rw [show forestNodes (t :: ts) = treeNodes t ++ forestNodes ts from rfl]
      rcases hu2 j hj with hj2 | hj2
      · rcases hu1 j hj2 with h3 | h3
        · exact Or.inl h3
        · exact Or.inr (List.mem_append.2 (Or.inl h3))
      · exact Or.inr (List.mem_append.2 (Or.inr hj2))
termination_by structural ts st => ts

end

theorem cascadeRec_fst (today : List Char) (idx : ℕ) (cs : List TaskTree)
    (st : List ParsedLine) :
    (cascadeRec today (TaskTree.node idx cs) st).1 =
      (cascadeList today cs
        (if (lineAt st idx).isCompleted = true
         then (markListCompleted today cs st).1 else st)).1 := by
  simp only [cascadeRec]
  by_cases hc : (lineAt st idx).isCompleted = true
  · rw [if_pos hc, if_pos hc]
  · rw [if_neg hc, if_neg hc]

mutual

theorem cascadeRec_facts (today : List Char) :
    ∀ (T : TaskTree) (st : List ParsedLine), (treeNodes T).Nodup →
      (cascadeRec today T st).1.length = st.length ∧
      (∀ j, (lineAt st j).isCompleted = true →
        (lineAt (cascadeRec today T st).1 j).isCompleted = true) ∧
      (∀ sub ∈ allSubtrees T, (lineAt st sub.topIdx).isCompleted = true →
        ∀ j ∈ treeNodes sub, j < st.length →
          (lineAt (cascadeRec today T st).1 j).isCompleted = true) ∧
      (∀ j, (lineAt (cascadeRec today T st).1 j).isCompleted = true →
        (lineAt st j).isCompleted = true ∨
          ∃ sub ∈ allSubtrees T, (lineAt st sub.topIdx).isCompleted = true ∧
            j ∈ treeNodes sub)
  | .node idx cs, st => by
    intro hN
    have hN2 : (idx :: forestNodes cs).Nodup := hN
    rw [cascadeRec_fst]
    by_cases hc : (lineAt st idx).isCompleted = true
    · rw [if_pos hc]
      obtain ⟨hl1, hm1, hk1, hu1⟩ := markList_facts today cs st
      obtain ⟨hl2, hm2, hk2, hu2⟩ :=
        cascadeList_facts today cs (markListCompleted today cs st).1
          (List.nodup_cons.1 hN2).2
      refine ⟨by rw [hl2, hl1], fun j hj => hm2 j (hm1 j hj), ?_, ?_⟩
      · intro sub hsub _ j hj hlen
        have hsubC : sub ∈ TaskTree.node idx cs :: allSubtreesF cs := hsub
        rcases List.mem_cons.1 hsubC with rfl | h1
        · have hjC : j ∈ idx :: forestNodes cs := hj
          rcases List.mem_cons.1 hjC with rfl | hj2
          · exact hm2 j (hm1 j hc)
          · exact hm2 j (hk1 j hj2 hlen)
        · have hsj : j ∈ forestNodes cs := subtreeF_nodes_subset cs sub h1 j hj
          exact hm2 j (hk1 j hsj hlen)
      · intro j hj
        rcases hu2 j hj with hj2 | ⟨sub, hsub, hhead, hjn⟩
        · rcases hu1 j hj2 with h3 | h3
          · exact Or.inl h3
          · refine Or.inr ⟨TaskTree.node idx cs, List.mem_cons_self _ _, hc, ?_⟩
            have : j ∈ idx :: forestNodes cs := List.mem_cons_of_mem _ h3
            exact this
        · rcases hu1 sub.topIdx hhead with h3 | h3
          · exact Or.inr ⟨sub, List.mem_cons_of_mem _ hsub, h3, hjn⟩
          · refine Or.inr ⟨TaskTree.node idx cs, List.mem_cons_self _ _, hc, ?_⟩
            have hsj : j ∈ forestNodes cs := subtreeF_nodes_subset cs sub hsub j hjn
            have : j ∈ idx :: forestNodes cs := List.mem_cons_of_mem _ hsj
            exact this
    · rw [if_neg hc]
      obtain ⟨hl2, hm2, hk2, hu2⟩ :=
        cascadeList_facts today cs st (List.nodup_cons.1 hN2).2
      refine ⟨hl2, hm2, ?_, ?_⟩
      · intro sub hsub hhead j hj hlen
        have hsubC : sub ∈ TaskTree.node idx cs :: allSubtreesF cs := hsub
        rcases List.mem_cons.1 hsubC with rfl | h1
        · exact absurd hhead hc
        · exact hk2 sub h1 hhead j hj hlen
      · intro j hj
        rcases hu2 j hj with hj2 | ⟨sub, hsub, hhead, hjn⟩
        · exact Or.inl hj2
        · exact Or.inr ⟨sub, List.mem_cons_of_mem _ hsub, hhead, hjn⟩
termination_by structural T st => T

theorem cascadeList_facts (today : List Char) :
    ∀ (ts : List TaskTree) (st : List ParsedLine), (forestNodes ts).Nodup →
      (cascadeList today ts st).1.length = st.length ∧
      (∀ j, (lineAt st j).isCompleted = true →
        (lineAt (cascadeList today ts st).1 j).isCompleted = true) ∧
      (∀ sub ∈ allSubtreesF ts, (lineAt st sub.topIdx).isCompleted = true →
        ∀ j ∈ treeNodes sub, j < st.length →
          (lineAt (cascadeList today ts st).1 j).isCompleted = true) ∧
      (∀ j, (lineAt (cascadeList today ts st).1 j).isCompleted = true →
        (lineAt st j).isCompleted = true ∨
          ∃ sub ∈ allSubtreesF ts, (lineAt st sub.topIdx).isCompleted = true ∧
            j ∈ treeNodes sub)
  | [], st => by
    intro _
    refine ⟨rfl, fun j hj => hj, ?_, fun j hj => Or.inl hj⟩
    intro sub hsub
    have hsubC : sub ∈ ([] : List TaskTree) := hsub
    exact absurd hsubC (List.not_mem_nil sub)
  | t :: ts, st => by
    intro hN
    have hN2 : (treeNodes t ++ forestNodes ts).Nodup := hN
    have hdisj := List.disjoint_of_nodup_append hN2
    obtain ⟨hl1, hm1, hk1, hu1⟩ :=
      cascadeRec_facts today t st (List.nodup_append.1 hN2).1
    obtain ⟨hl2, hm2, hk2, hu2⟩ :=
      cascadeList_facts today ts (cascadeRec today t st).1
        (List.nodup_append.1 hN2).2.1
    have hfst : (cascadeList today (t :: ts) st).1 =
        (cascadeList today ts (cascadeRec today t st).1).1 := rfl
    rw [hfst]
    refine ⟨by rw [hl2, hl1], fun j hj => hm2 j (hm1 j hj), ?_, ?_⟩
    · intro sub hsub hhead j hj hlen
      have hsubC : sub ∈ allSubtrees t ++ allSubtreesF ts := hsub
      rcases List.mem_append.1 hsubC with h1 | h1
      · exact hm2 j (hk1 sub h1 hhead j hj hlen)
      · exact hk2 sub h1 (hm1 _ hhead) j hj (by rw [hl1]; exact hlen)
    · intro j hj
      rcases hu2 j hj with hj2 | ⟨sub, hsub, hhead, hjn⟩
      · rcases hu1 j hj2 with h3 | ⟨sub, hsub, hhead, hjn⟩
        · exact Or.inl h3
        · refine Or.inr ⟨sub, ?_, hhead, hjn⟩
          have : sub ∈ allSubtrees t ++ allSubtreesF ts :=
            List.mem_append.2 (Or.inl hsub)
          exact this
      · rcases hu1 sub.topIdx hhead with h3 | ⟨sub2, hsub2, hhead2, hjn2⟩
        · refine Or.inr ⟨sub, ?_, h3, hjn⟩
          have : sub ∈ allSubtrees t ++ allSubtreesF ts :=
            List.mem_append.2 (Or.inr hsub)
          exact this
        · exfalso
          have ha : sub.topIdx ∈ treeNodes t :=
            subtree_nodes_subset t sub2 hsub2 _ hjn2
          have hb : sub.topIdx ∈ forestNodes ts :=
            subtreeF_nodes_subset ts sub hsub _ (topIdx_mem_treeNodes sub)
          exact hdisj ha hb
termination_by structural ts st => ts

end

theorem cascadeFold_facts (today : List Char) :
    ∀ (ts : List TaskTree) (st : List ParsedLine) (n : ℕ),
      (forestNodes ts).Nodup →
      ((ts.foldl (fun (acc : List ParsedLine × ℕ) t =>
          ((cascadeRec today t acc.1).1, acc.2 + (cascadeRec today t acc.1).2))
          (st, n)).1.length = st.length) ∧
      (∀ j, (lineAt st j).isCompleted = true →
        (lineAt (ts.foldl (fun (acc : List ParsedLine × ℕ) t =>
          ((cascadeRec today t acc.1).1, acc.2 + (cascadeRec today t acc.1).2))
          (st, n)).1 j).isCompleted = true) ∧
      (∀ sub ∈ allSubtreesF ts, (lineAt st sub.topIdx).isCompleted = true →
        ∀ j ∈ treeNodes sub, j < st.length →
          (lineAt (ts.foldl (fun (acc : List ParsedLine × ℕ) t =>
            ((cascadeRec today t acc.1).1, acc.2 + (cascadeRec today t acc.1).2))
            (st, n)).1 j).isCompleted = true) ∧
      (∀ j, (lineAt (ts.foldl (fun (acc : List ParsedLine × ℕ) t =>
          ((cascadeRec today t acc.1).1, acc.2 + (cascadeRec today t acc.1).2))
          (st, n)).1 j).isCompleted = true →
        (lineAt st j).isCompleted = true ∨
          ∃ sub ∈ allSubtreesF ts, (lineAt st sub.topIdx).isCompleted = true ∧
            j ∈ treeNodes sub) := by
  intro ts
  induction ts with
  | nil =>
    intro st n _
    refine ⟨rfl, fun j hj => hj, ?_, fun j hj => Or.inl hj⟩
    intro sub hsub
    have hsubC : sub ∈ ([] : List TaskTree) := hsub
    exact absurd hsubC (List.not_mem_nil sub)
  | cons t ts ih =>
    intro st n hN
    have hN2 : (treeNodes t ++ forestNodes ts).Nodup := hN
    have hdisj := List.disjoint_of_nodup_append hN2
    obtain ⟨hl1, hm1, hk1, hu1⟩ :=
      cascadeRec_facts today t st (List.nodup_append.1 hN2).1
    obtain ⟨hl2, hm2, hk2, hu2⟩ := ih (cascadeRec today t st).1
      (n + (cascadeRec today t st).2) (List.nodup_append.1 hN2).2.1
    rw [List.foldl_cons]
    refine ⟨by rw [hl2, hl1], fun j hj => hm2 j (hm1 j hj), ?_, ?_⟩
    · intro sub hsub hhead j hj hlen
      have hsubC : sub ∈ allSubtrees t ++ allSubtreesF ts := hsub
      rcases List.mem_append.1 hsubC with h1 | h1
      · exact hm2 j (hk1 sub h1 hhead j hj hlen)
      · exact hk2 sub h1 (hm1 _ hhead) j hj (by rw [hl1]; exact hlen)
    · intro j hj
      rcases hu2 j hj with hj2 | ⟨sub, hsub, hhead, hjn⟩
      · rcases hu1 j hj2 with h3 | ⟨sub, hsub, hhead, hjn⟩
        · exact Or.inl h3
        · refine Or.inr ⟨sub, ?_, hhead, hjn⟩
          have : sub ∈ allSubtrees t ++ allSubtreesF ts :=
            List.mem_append.2 (Or.inl hsub)
          exact this
      · rcases hu1 sub.topIdx hhead with h3 | ⟨sub2, hsub2, hhead2, hjn2⟩
        · refine Or.inr ⟨sub, ?_, h3, hjn⟩
          have : sub ∈ allSubtrees t ++ allSubtreesF ts :=
            List.mem_append.2 (Or.inr hsub)
          exact this
        · exfalso
          have ha : sub.topIdx ∈ treeNodes t :=
            subtree_nodes_subset t sub2 hsub2 _ hjn2
          have hb : sub.topIdx ∈ forestNodes ts :=
            subtreeF_nodes_subset ts sub hsub _ (topIdx_mem_treeNodes sub)
          exact hdisj ha hb

theorem sweepLines_isCompleted (today : List Char) :
    ∀ (ls : List ParsedLine) (j : ℕ),
      (lineAt (sweepLines today ls).1 j).isCompleted = (lineAt ls j).isCompleted := by
  intro ls
  induction ls with
  | nil =>
    intro j
    rfl
  | cons pl rest ih =>
    intro j
    rw [show (sweepLines today (pl :: rest)).1 =
      (sweepLine today pl).1 :: (sweepLines today rest).1 from rfl]
    cases j with
    | zero =>
      show ((sweepLine today pl).1).isCompleted = pl.isCompleted
      unfold sweepLine
      by_cases hc : (pl.isCompleted && !pl.hasDoneTag) = true
      · rw [if_pos hc]
      · rw [if_neg hc]
    | succ m =>
      show (lineAt (sweepLines today rest).1 m).isCompleted =
        (lineAt rest m).isCompleted
      exact ih m

theorem forestNodes_buildTaskTrees (content : List Char) :
    forestNodes (BuildTaskTrees (ParseLines content)) =
      taskIdxs (ParseLines content) := by
  rw [buildTaskTrees_eq_spanForest (ParseLines content)
    (parseLines_lineNumber content)]
  rw [forestNodes_spanForest]
  unfold taskPairs
  rw [List.map_map]
  exact List.map_id _

/-- C4: Cascade invariant.  After the cascade-and-sweep pipeline of
`ProcessContent`, if the head line of any subtree of the built forest is
completed — in the processed output or already in the input — then every
task line of that subtree (all nesting depths) is completed in the output;
in particular every independently completed node, root or not, cascades to
all of its own descendants. -/
theorem cascade_invariant (content today : List Char) :
    ∀ T ∈ BuildTaskTrees (ParseLines content), ∀ sub ∈ allSubtrees T,
      ((lineAt (sweepLines today
          (CascadeCompletion (ParseLines content) today).1).1
          sub.topIdx).isCompleted = true ∨
        (lineAt (ParseLines content) sub.topIdx).isCompleted = true) →
      ∀ j ∈ treeNodes sub,
        (lineAt (sweepLines today
          (CascadeCompletion (ParseLines content) today).1).1 j).isCompleted =
          true := by
  intro T hT sub hsub htrig j hj
  have hNodup : (forestNodes (BuildTaskTrees (ParseLines content))).Nodup := by
    rw [forestNodes_buildTaskTrees]
    unfold taskIdxs
    exact (List.nodup_range _).filter _
  have hfold := cascadeFold_facts today (BuildTaskTrees (ParseLines content))
    (ParseLines content) 0 hNodup
  obtain ⟨hl, hm, hk, hu⟩ := hfold
  have hcc : (CascadeCompletion (ParseLines content) today).1 =
      ((BuildTaskTrees (ParseLines content)).foldl
        (fun (acc : List ParsedLine × ℕ) t =>
          ((cascadeRec today t acc.1).1, acc.2 + (cascadeRec today t acc.1).2))
        (ParseLines content, 0)).1 := rfl
  have hsubF : sub ∈ allSubtreesF (BuildTaskTrees (ParseLines content)) :=
    mem_allSubtreesF _ T hT sub hsub
  have hbound : ∀ k ∈ treeNodes sub, k < (ParseLines content).length := by
    intro k hk2
    have h1 : k ∈ forestNodes (BuildTaskTrees (ParseLines content)) :=
      subtreeF_nodes_subset _ sub hsubF k hk2
    rw [forestNodes_buildTaskTrees] at h1
    unfold taskIdxs at h1
    exact List.mem_range.1 (List.mem_of_mem_filter h1)
  rw [sweepLines_isCompleted, hcc]
  rcases htrig with hout | hin
  · rw [sweepLines_isCompleted, hcc] at hout
    rcases hu sub.topIdx hout with hin2 | ⟨sub2, hsub2, hhead2, hmem2⟩
    · exact hk sub hsubF hin2 j hj (hbound j hj)
    · have hnest : ∀ x ∈ treeNodes sub, x ∈ treeNodes sub2 :=
        nestedF_subtrees _ hNodup sub hsubF sub2 hsub2 hmem2
      have hbound2 : ∀ k ∈ treeNodes sub2, k < (ParseLines content).length := by
        intro k hk2
        have h1 : k ∈ forestNodes (BuildTaskTrees (ParseLines content)) :=
          subtreeF_nodes_subset _ sub2 hsub2 k hk2
        rw [forestNodes_buildTaskTrees] at h1
        unfold taskIdxs at h1
        exact List.mem_range.1 (List.mem_of_mem_filter h1)
      exact hk sub2 hsub2 hhead2 j (hnest j hj) (hbound2 j (hnest j hj))
  · exact hk sub hsubF hin j hj (hbound j hj)

/-- C4 witness: in `"- [x] P"` over `"  - [ ] C"`, the child line 1 is
completed after processing, triggered by the input-completed root. -/
theorem cascade_invariant_witness :
    (lineAt (sweepLines ("2026-01-19".toList)
      (CascadeCompletion (ParseLines ("- [x] P".toList ++ [nlChar] ++
        "  - [ ] C".toList)) ("2026-01-19".toList)).1).1 1).isCompleted = true :=
  cascade_invariant ("- [x] P".toList ++ [nlChar] ++ "  - [ ] C".toList)
    ("2026-01-19".toList)
    (TaskTree.node 0 [TaskTree.node 1 []])
    (by rw [show BuildTaskTrees (ParseLines ("- [x] P".toList ++ [nlChar] ++
        "  - [ ] C".toList)) = [TaskTree.node 0 [TaskTree.node 1 []]] from rfl]
        exact List.mem_cons_self _ _)
    (TaskTree.node 0 [TaskTree.node 1 []])
    (by rw [show allSubtrees (TaskTree.node 0 [TaskTree.node 1 []]) =
        TaskTree.node 0 [TaskTree.node 1 []] ::
          allSubtreesF [TaskTree.node 1 []] from rfl]
        exact List.mem_cons_self _ _)
    (Or.inr (by decide))
    1 (by decide)

/-! ### Idempotence groundwork: split pieces, line shapes, content surgery -/

theorem splitOn_sep_not_mem {α : Type} [DecidableEq α] (x : α) :
    ∀ (xs : List α), ∀ s ∈ xs.splitOn x, x ∉ s := by
  intro xs
  induction xs with
  | nil =>
    intro s hs
    rw [show ([] : List α).splitOn x = [[]] from rfl] at hs
    rcases List.mem_cons.1 hs with rfl | h
    · exact List.not_mem_nil x
    · exact absurd h (List.not_mem_nil s)
  | cons a xs ih =>
    intro s hs
    have hs2 : s ∈ (a :: xs).splitOnP (· == x) := hs
    rw [List.splitOnP_cons] at hs2
    by_cases h : a = x
    · rw [if_pos (by simp [h])] at hs2
      rcases List.mem_cons.1 hs2 with rfl | h2
      · exact List.not_mem_nil x
      · exact ih s h2
    · rw [if_neg (by simp [h])] at hs2
      cases hx : xs.splitOnP (· == x) with
      | nil => exact absurd hx (List.splitOnP_ne_nil _ xs)
      | cons hd tl =>
        rw [hx] at hs2
        rw [show (hd :: tl).modifyHead (List.cons a) = (a :: hd) :: tl from rfl]
          at hs2
        have hsplitOn : xs.splitOn x = hd :: tl := hx
        rcases List.mem_cons.1 hs2 with rfl | h2
        · intro hm
          rcases List.mem_cons.1 hm with rfl | h3
          · exact h rfl
          · exact ih hd (by rw [hsplitOn]; exact List.mem_cons_self _ _) h3
        · exact ih s (by rw [hsplitOn]; exact List.mem_cons_of_mem _ h2)

theorem splitLines_ne_nil (c : List Char) : splitLines c ≠ [] :=
  List.splitOnP_ne_nil _ c

theorem dropWhile_all_append (p : Char → Bool) :
    ∀ (l1 l2 : List Char), (∀ a ∈ l1, p a = true) →
      (l1 ++ l2).dropWhile p = l2.dropWhile p := by
  intro l1
  induction l1 with
  | nil =>
    intro l2 _
    rfl
  | cons a l1 ih =>
    intro l2 h
    rw [List.cons_append, List.dropWhile_cons,
      if_pos (h a (List.mem_cons_self _ _)), ih l2
      (fun y hy => h y (List.mem_cons_of_mem _ hy))]

theorem isTask_iff (s : List Char) :
    IsTask s = true ↔ ∃ rest c tail,
      s.dropWhile isSpaceGo = '-' :: rest ∧
      rest.dropWhile isSpaceGo = '[' :: c :: ']' :: tail ∧
      (c = 'x' ∨ c = 'X' ∨ c = ' ') := by
  constructor
  · intro h
    unfold IsTask at h
    split at h
    · rename_i rest h1
      split at h
      · rename_i c tail h2
        refine ⟨rest, c, tail, h1, h2, ?_⟩
        simp only [Bool.or_eq_true, decide_eq_true_eq] at h
        tauto
      · exact absurd h (by simp)
    · exact absurd h (by simp)
  · rintro ⟨rest, c, tail, h1, h2, hc⟩
    unfold IsTask
    rw [h1]
    show (match rest.dropWhile isSpaceGo with
      | '[' :: c2 :: ']' :: _ => c2 = 'x' || c2 = 'X' || c2 = ' '
      | _ => false) = true
    rw [h2]
    show (decide (c = 'x') || decide (c = 'X') || decide (c = ' ')) = true
    rcases hc with rfl | rfl | rfl <;> rfl

theorem isCompleted_iff (s : List Char) :
    IsCompleted s = true ↔ ∃ rest c tail,
      s.dropWhile isSpaceGo = '-' :: rest ∧
      rest.dropWhile isSpaceGo = '[' :: c :: ']' :: tail ∧
      (c = 'x' ∨ c = 'X') := by
  constructor
  · intro h
    unfold IsCompleted at h
    split at h
    · rename_i rest h1
      split at h
      · rename_i c tail h2
        refine ⟨rest, c, tail, h1, h2, ?_⟩
        simpa using h
      · exact absurd h (by simp)
    · exact absurd h (by simp)
  · rintro ⟨rest, c, tail, h1, h2, hc⟩
    unfold IsCompleted
    rw [h1]
    show (match rest.dropWhile isSpaceGo with
      | '[' :: c2 :: ']' :: _ => c2 = 'x' || c2 = 'X'
      | _ => false) = true
    rw [h2]
    show (decide (c = 'x') || decide (c = 'X')) = true
    rcases hc with rfl | rfl <;> rfl

theorem isCompleted_isTask {s : List Char} (h : IsCompleted s = true) :
    IsTask s = true := by
  obtain ⟨rest, c, tail, h1, h2, hc⟩ := (isCompleted_iff s).1 h
  exact (isTask_iff s).2 ⟨rest, c, tail, h1, h2, by tauto⟩

theorem task_not_completed_space {s : List Char} (ht : IsTask s = true)
    (hnc : IsCompleted s = false) :
    ∃ rest tail, s.dropWhile isSpaceGo = '-' :: rest ∧
      rest.dropWhile isSpaceGo = '[' :: ' ' :: ']' :: tail := by
  obtain ⟨rest, c, tail, h1, h2, hc⟩ := (isTask_iff s).1 ht
  rcases hc with rfl | rfl | rfl
  · rw [(isCompleted_iff s).2 ⟨rest, _, tail, h1, h2, Or.inl rfl⟩] at hnc
    exact Bool.noConfusion hnc
  · rw [(isCompleted_iff s).2 ⟨rest, _, tail, h1, h2, Or.inr rfl⟩] at hnc
    exact Bool.noConfusion hnc
  · exact ⟨rest, tail, h1, h2⟩

theorem getIndent_append_dash (ws : List Char) (A B : List Char) :
    GetIndentLevel (ws ++ '-' :: A) = GetIndentLevel (ws ++ '-' :: B) := by
  induction ws with
  | nil => rfl
  | cons c ws ih =>
    rw [List.cons_append, List.cons_append, GetIndentLevel, GetIndentLevel]
    by_cases h1 : c = ' '
    · rw [if_pos h1, if_pos h1, ih]
    · by_cases h2 : c = '\t'
      · rw [if_neg h1, if_neg h1, if_pos h2, if_pos h2, ih]
      · rw [if_neg h1, if_neg h1, if_neg h2, if_neg h2]

theorem replaceFirst_skip :
    ∀ (pre t : List Char), (∀ ch ∈ pre, ch ≠ '[') →
      replaceFirst (pre ++ t) ("[ ]".toList) ("[x]".toList) =
        pre ++ replaceFirst t ("[ ]".toList) ("[x]".toList) := by
  intro pre
  induction pre with
  | nil =>
    intro t _
    rfl
  | cons a pre ih =>
    intro t h
    rw [List.cons_append, replaceFirst]
    have hst : strStarts ((a :: (pre ++ t))) ("[ ]".toList) = false := by
      show (decide (a = '[') && strStarts (pre ++ t) (" ]".toList)) = false
      rw [decide_eq_false (h a (List.mem_cons_self _ _))]
      rfl
    rw [hst]
    show a :: replaceFirst (pre ++ t) ("[ ]".toList) ("[x]".toList) = _
    rw [ih t (fun y hy => h y (List.mem_cons_of_mem _ hy)), List.cons_append]

theorem strStarts_nil_pat (t : List Char) : strStarts t [] = true := by
  cases t <;> rfl

theorem replaceFirst_checkbox_hit (tail : List Char) :
    replaceFirst ('[' :: ' ' :: ']' :: tail) ("[ ]".toList) ("[x]".toList) =
      '[' :: 'x' :: ']' :: tail := by
  rw [replaceFirst]
  have hst : strStarts ('[' :: ' ' :: ']' :: tail) ("[ ]".toList) = true := by
    show (decide ('[' = '[') &&
      (decide (' ' = ' ') && (decide (']' = ']') && strStarts tail []))) = true
    rw [strStarts_nil_pat]
    rfl
  rw [hst]
  rw [if_pos rfl]
  rfl

theorem hspace_ne_bracket : ∀ a : Char, isSpaceGo a = true → a ≠ '[' := by
  intro a ha
  unfold isSpaceGo at ha
  simp only [Bool.or_eq_true, decide_eq_true_eq] at ha
  rcases ha with ((((h | h) | h) | h) | h) <;> subst h <;> decide

theorem isSpaceGo_dash : isSpaceGo '-' = false := by decide

theorem isSpaceGo_bracket : isSpaceGo '[' = false := by decide

theorem doneTagText_no_nl {today : List Char} (hv : ValidTodayStr today) :
    nlChar ∉ doneTagText today := by
  unfold doneTagText
  intro hm
  rcases List.mem_append.1 hm with h1 | h1
  · rcases List.mem_append.1 h1 with h2 | h2
    · exact absurd h2 (by decide)
    · exact validTodayStr_no_newline hv h2
  · exact absurd h1 (by decide)

theorem replaceFirst_no_nl :
    ∀ (s : List Char), nlChar ∉ s →
      nlChar ∉ replaceFirst s ("[ ]".toList) ("[x]".toList) := by
  intro s
  induction s with
  | nil =>
    intro h
    exact h
  | cons a rest ih =>
    intro h
    rw [replaceFirst]
    by_cases hs : strStarts (a :: rest) ("[ ]".toList) = true
    · rw [if_pos hs]
      intro hm
      rcases List.mem_append.1 hm with h1 | h1
      · exact absurd h1 (by decide)
      · exact h (List.mem_of_mem_drop h1)
    · rw [if_neg hs]
      intro hm
      rcases List.mem_cons.1 hm with rfl | h1
      · exact h (List.mem_cons_self _ _)
      · exact ih (fun hx => h (List.mem_cons_of_mem _ hx)) h1

theorem markContent_facts {s today : List Char} (ht : IsTask s = true)
    (hnc : IsCompleted s = false) (hv : ValidTodayStr today) :
    IsTask (replaceFirst s ("[ ]".toList) ("[x]".toList) ++
      doneTagText today) = true ∧
    IsCompleted (replaceFirst s ("[ ]".toList) ("[x]".toList) ++
      doneTagText today) = true ∧
    HasDoneTag (replaceFirst s ("[ ]".toList) ("[x]".toList) ++
      doneTagText today) = true ∧
    GetIndentLevel (replaceFirst s ("[ ]".toList) ("[x]".toList) ++
      doneTagText today) = GetIndentLevel s := by
  obtain ⟨rest, tail, h1, h2⟩ := task_not_completed_space ht hnc
  have hs : s = s.takeWhile isSpaceGo ++ ('-' :: rest) := by
    conv_lhs => rw [← List.takeWhile_append_dropWhile isSpaceGo s]
    rw [h1]
  have hrest : rest = rest.takeWhile isSpaceGo ++ ('[' :: ' ' :: ']' :: tail) := by
    conv_lhs => rw [← List.takeWhile_append_dropWhile isSpaceGo rest]
    rw [h2]
  have hws1 : ∀ a ∈ s.takeWhile isSpaceGo, isSpaceGo a = true :=
    fun a ha => List.mem_takeWhile_imp ha
  have hws2 : ∀ a ∈ rest.takeWhile isSpaceGo, isSpaceGo a = true :=
    fun a ha => List.mem_takeWhile_imp ha
  have hrepl : replaceFirst s ("[ ]".toList) ("[x]".toList) =
      s.takeWhile isSpaceGo ++ '-' :: (rest.takeWhile isSpaceGo ++
        '[' :: 'x' :: ']' :: tail) := by
    conv_lhs => rw [hs, hrest]
    rw [replaceFirst_skip (s.takeWhile isSpaceGo) _
      (fun a ha => hspace_ne_bracket a (hws1 a ha))]
    congr 1
    rw [replaceFirst]
    have hstd : strStarts ('-' :: (rest.takeWhile isSpaceGo ++
        '[' :: ' ' :: ']' :: tail)) ("[ ]".toList) = false := by
      show (decide ('-' = '[') && strStarts (rest.takeWhile isSpaceGo ++
        '[' :: ' ' :: ']' :: tail) (" ]".toList)) = false
      rfl
    rw [hstd]
    rw [if_neg (by decide)]
    rw [replaceFirst_skip (rest.takeWhile isSpaceGo) _
      (fun a ha => hspace_ne_bracket a (hws2 a ha))]
    rw [replaceFirst_checkbox_hit]
  have hfinal : replaceFirst s ("[ ]".toList) ("[x]".toList) ++
      doneTagText today =
      s.takeWhile isSpaceGo ++ '-' :: (rest.takeWhile isSpaceGo ++
        '[' :: 'x' :: ']' :: (tail ++ doneTagText today)) := by
    rw [hrepl]
    simp [List.append_assoc]
  have hdrop1 : (s.takeWhile isSpaceGo ++ '-' :: (rest.takeWhile isSpaceGo ++
      '[' :: 'x' :: ']' :: (tail ++ doneTagText today))).dropWhile isSpaceGo =
      '-' :: (rest.takeWhile isSpaceGo ++
        '[' :: 'x' :: ']' :: (tail ++ doneTagText today)) := by
    rw [dropWhile_all_append _ _ _ hws1, List.dropWhile_cons,
      if_neg (by rw [isSpaceGo_dash]; simp)]
  have hdrop2 : (rest.takeWhile isSpaceGo ++
      '[' :: 'x' :: ']' :: (tail ++ doneTagText today)).dropWhile isSpaceGo =
      '[' :: 'x' :: ']' :: (tail ++ doneTagText today) := by
    rw [dropWhile_all_append _ _ _ hws2, List.dropWhile_cons,
      if_neg (by rw [isSpaceGo_bracket]; simp)]
  refine ⟨?_, ?_, ?_, ?_⟩
  · rw [hfinal]
    exact (isTask_iff _).2 ⟨_, 'x', _, hdrop1, hdrop2, Or.inl rfl⟩
  · rw [hfinal]
    exact (isCompleted_iff _).2 ⟨_, 'x', _, hdrop1, hdrop2, Or.inl rfl⟩
  · exact hasDoneTag_doneTagText hv
  · rw [hfinal]
    conv_rhs => rw [hs]
    exact getIndent_append_dash _ _ _

theorem appendTag_facts {s today : List Char} (hc : IsCompleted s = true)
    (hv : ValidTodayStr today) :
    IsTask (s ++ doneTagText today) = true ∧
    IsCompleted (s ++ doneTagText today) = true ∧
    HasDoneTag (s ++ doneTagText today) = true ∧
    GetIndentLevel (s ++ doneTagText today) = GetIndentLevel s := by
  obtain ⟨rest, c, tail, h1, h2, hcx⟩ := (isCompleted_iff s).1 hc
  have hs : s = s.takeWhile isSpaceGo ++ ('-' :: rest) := by
    conv_lhs => rw [← List.takeWhile_append_dropWhile isSpaceGo s]
    rw [h1]
  have hrest : rest = rest.takeWhile isSpaceGo ++ ('[' :: c :: ']' :: tail) := by
    conv_lhs => rw [← List.takeWhile_append_dropWhile isSpaceGo rest]
    rw [h2]
  have hws1 : ∀ a ∈ s.takeWhile isSpaceGo, isSpaceGo a = true :=
    fun a ha => List.mem_takeWhile_imp ha
  have hws2 : ∀ a ∈ rest.takeWhile isSpaceGo, isSpaceGo a = true :=
    fun a ha => List.mem_takeWhile_imp ha
  have hfinal : s ++ doneTagText today =
      s.takeWhile isSpaceGo ++ '-' :: (rest.takeWhile isSpaceGo ++
        '[' :: c :: ']' :: (tail ++ doneTagText today)) := by
    conv_lhs => rw [hs, hrest]
    simp [List.append_assoc]
  have hdrop1 : (s.takeWhile isSpaceGo ++ '-' :: (rest.takeWhile isSpaceGo ++
      '[' :: c :: ']' :: (tail ++ doneTagText today))).dropWhile isSpaceGo =
      '-' :: (rest.takeWhile isSpaceGo ++
        '[' :: c :: ']' :: (tail ++ doneTagText today)) := by
    rw [dropWhile_all_append _ _ _ hws1, List.dropWhile_cons,
      if_neg (by rw [isSpaceGo_dash]; simp)]
  have hdrop2 : (rest.takeWhile isSpaceGo ++
      '[' :: c :: ']' :: (tail ++ doneTagText today)).dropWhile isSpaceGo =
      '[' :: c :: ']' :: (tail ++ doneTagText today) := by
    rw [dropWhile_all_append _ _ _ hws2, List.dropWhile_cons,
      if_neg (by rw [isSpaceGo_bracket]; simp)]
  refine ⟨?_, ?_, ?_, ?_⟩
  · rw [hfinal]
    exact (isTask_iff _).2 ⟨_, c, _, hdrop1, hdrop2, by tauto⟩
  · rw [hfinal]
    exact (isCompleted_iff _).2 ⟨_, c, _, hdrop1, hdrop2, hcx⟩
  · exact hasDoneTag_doneTagText hv
  · rw [hfinal]
    conv_rhs => rw [hs]
    exact getIndent_append_dash _ _ _

/-! ### Consistency of flags through the pipeline -/

theorem lineAt_mem {st : List ParsedLine} {j : ℕ} (h : j < st.length) :
    lineAt st j ∈ st := by
  unfold lineAt
  rw [List.getD_eq_getElem st default h]
  exact List.getElem_mem h

theorem parseLines_LineOK (c : List Char) : ∀ pl ∈ ParseLines c, LineOK pl := by
  intro pl hpl
  obtain ⟨q, hq, rfl⟩ := List.mem_map.1 hpl
  have hs := mem_enum_spec _ q hq
  have hmem : q.2 ∈ splitLines c := by
    rw [hs.2, List.getD_eq_getElem _ default hs.1]
    exact List.getElem_mem hs.1
  refine ⟨rfl, rfl, rfl, rfl, ?_⟩
  exact splitOn_sep_not_mem nlChar c q.2 hmem

theorem markLine_inv (today : List Char) (hv : ValidTodayStr today)
    (st : List ParsedLine) (idx : ℕ)
    (hall : ∀ pl ∈ st, LineOK pl)
    (htask : (lineAt st idx).isTask = true) :
    (∀ pl ∈ (markLineCompleted today st idx).1, LineOK pl) ∧
    (∀ j, lineSig (lineAt (markLineCompleted today st idx).1 j) =
      lineSig (lineAt st j)) := by
  have hlen : idx < st.length := by
    by_contra hge
    push_neg at hge
    unfold lineAt at htask
    rw [List.getD_eq_default _ _ hge] at htask
    exact Bool.noConfusion htask
  have hmem : lineAt st idx ∈ st := lineAt_mem hlen
  have hOK := hall _ hmem
  simp only [markLineCompleted]
  by_cases hc : (!(lineAt st idx).isCompleted) = true
  · rw [if_pos hc]
    have hnc : IsCompleted (lineAt st idx).content = false := by
      rw [← hOK.2.1]
      cases hx : (lineAt st idx).isCompleted with
      | false => rfl
      | true =>
        rw [hx] at hc
        exact Bool.noConfusion hc
    have htc : IsTask (lineAt st idx).content = true := by
      rw [← hOK.1]
      exact htask
    obtain ⟨hf1, hf2, hf3, hf4⟩ := markContent_facts htc hnc hv
    have hOKnew : LineOK { lineAt st idx with
        content := replaceFirst (lineAt st idx).content
          ("[ ]".toList) ("[x]".toList) ++ doneTagText today,
        isCompleted := true, hasDoneTag := true } := by
      refine ⟨?_, ?_, ?_, ?_, ?_⟩
      · show (lineAt st idx).isTask = _
        rw [htask, hf1]
      · show true = _
        rw [hf2]
      · show true = _
        rw [hf3]
      · show (lineAt st idx).indent = _
        rw [hf4, ← hOK.2.2.2.1]
      · show nlChar ∉ _
        intro hm
        rcases List.mem_append.1 hm with h1 | h1
        · exact replaceFirst_no_nl _ hOK.2.2.2.2 h1
        · exact doneTagText_no_nl hv h1
    constructor
    · intro pl hpl
      rcases List.mem_or_eq_of_mem_set hpl with h1 | rfl
      · exact hall pl h1
      · exact hOKnew
    · intro j
      rw [lineAt_set]
      by_cases h2 : j = idx ∧ idx < st.length
      · rw [if_pos h2]
        obtain ⟨rfl, _⟩ := h2
        rfl
      · rw [if_neg h2]
  · rw [if_neg hc]
    exact ⟨hall, fun j => rfl⟩

theorem sig_isTask {x y : ParsedLine} (h : lineSig x = lineSig y) :
    x.isTask = y.isTask :=
  congrArg (fun t : ℕ × ℕ × Bool => t.2.2) h

mutual

theorem markTree_inv (today : List Char) (hv : ValidTodayStr today) :
    ∀ (T : TaskTree) (st : List ParsedLine),
      (∀ pl ∈ st, LineOK pl) →
      (∀ j ∈ treeNodes T, (lineAt st j).isTask = true) →
      (∀ pl ∈ (markTreeCompleted today T st).1, LineOK pl) ∧
      (∀ j, lineSig (lineAt (markTreeCompleted today T st).1 j) =
        lineSig (lineAt st j))
  | .node idx cs, st => by
    intro hall htask
    have hidx : idx ∈ treeNodes (TaskTree.node idx cs) := topIdx_mem_treeNodes _
    obtain ⟨hi1, hi2⟩ := markLine_inv today hv st idx hall (htask idx hidx)
    obtain ⟨hj1, hj2⟩ := markList_inv today hv cs (markLineCompleted today st idx).1
      hi1 (fun j hj => by
        rw [sig_isTask (hi2 j)]
        exact htask j (by
          rw [show treeNodes (TaskTree.node idx cs) = idx :: forestNodes cs
            from rfl]
          exact List.mem_cons_of_mem _ hj))
    exact ⟨hj1, fun j => (hj2 j).trans (hi2 j)⟩
termination_by structural T st => T

theorem markList_inv (today : List Char) (hv : ValidTodayStr today) :
    ∀ (ts : List TaskTree) (st : List ParsedLine),
      (∀ pl ∈ st, LineOK pl) →
      (∀ j ∈ forestNodes ts, (lineAt st j).isTask = true) →
      (∀ pl ∈ (markListCompleted today ts st).1, LineOK pl) ∧
      (∀ j, lineSig (lineAt (markListCompleted today ts st).1 j) =
        lineSig (lineAt st j))
  | [], st => by
    intro hall _
    exact ⟨hall, fun j => rfl⟩
  | t :: ts, st => by
    intro hall htask
    have hforest : forestNodes (t :: ts) = treeNodes t ++ forestNodes ts := rfl
    obtain ⟨hi1, hi2⟩ := markTree_inv today hv t st hall
      (fun j hj => htask j (by rw [hforest]; exact List.mem_append.2 (Or.inl hj)))
    obtain ⟨hj1, hj2⟩ := markList_inv today hv ts (markTreeCompleted today t st).1
      hi1 (fun j hj => by
        rw [sig_isTask (hi2 j)]
        exact htask j (by rw [hforest]; exact List.mem_append.2 (Or.inr hj)))
    exact ⟨hj1, fun j => (hj2 j).trans (hi2 j)⟩
termination_by structural ts st => ts

end

mutual

theorem cascadeRec_inv (today : List Char) (hv : ValidTodayStr today) :
    ∀ (T : TaskTree) (st : List ParsedLine),
      (∀ pl ∈ st, LineOK pl) →
      (∀ j ∈ treeNodes T, (lineAt st j).isTask = true) →
      (∀ pl ∈ (cascadeRec today T st).1, LineOK pl) ∧
      (∀ j, lineSig (lineAt (cascadeRec today T st).1 j) =
        lineSig (lineAt st j))
  | .node idx cs, st => by
    intro hall htask
    have hforest : treeNodes (TaskTree.node idx cs) = idx :: forestNodes cs := rfl
    rw [cascadeRec_fst]
    by_cases hc : (lineAt st idx).isCompleted = true
    · rw [if_pos hc]
      obtain ⟨hi1, hi2⟩ := markList_inv today hv cs st hall
        (fun j hj => htask j (by rw [hforest]; exact List.mem_cons_of_mem _ hj))
      obtain ⟨hj1, hj2⟩ := cascadeList_inv today hv cs
        (markListCompleted today cs st).1 hi1
        (fun j hj => by
          rw [sig_isTask (hi2 j)]
          exact htask j (by rw [hforest]; exact List.mem_cons_of_mem _ hj))
      exact ⟨hj1, fun j => (hj2 j).trans (hi2 j)⟩
    · rw [if_neg hc]
      exact cascadeList_inv today hv cs st hall
        (fun j hj => htask j (by rw [hforest]; exact List.mem_cons_of_mem _ hj))
termination_by structural T st => T

theorem cascadeList_inv (today : List Char) (hv : ValidTodayStr today) :
    ∀ (ts : List TaskTree) (st : List ParsedLine),
      (∀ pl ∈ st, LineOK pl) →
      (∀ j ∈ forestNodes ts, (lineAt st j).isTask = true) →
      (∀ pl ∈ (cascadeList today ts st).1, LineOK pl) ∧
      (∀ j, lineSig (lineAt (cascadeList today ts st).1 j) =
        lineSig (lineAt st j))
  | [], st => by
    intro hall _
    exact ⟨hall, fun j => rfl⟩
  | t :: ts, st => by
    intro hall htask
    have hforest : forestNodes (t :: ts) = treeNodes t ++ forestNodes ts := rfl
    have hfst : (cascadeList today (t :: ts) st).1 =
        (cascadeList today ts (cascadeRec today t st).1).1 := rfl
    rw [hfst]
    obtain ⟨hi1, hi2⟩ := cascadeRec_inv today hv t st hall
      (fun j hj => htask j (by rw [hforest]; exact List.mem_append.2 (Or.inl hj)))
    obtain ⟨hj1, hj2⟩ := cascadeList_inv today hv ts (cascadeRec today t st).1
      hi1 (fun j hj => by
        rw [sig_isTask (hi2 j)]
        exact htask j (by rw [hforest]; exact List.mem_append.2 (Or.inr hj)))
    exact ⟨hj1, fun j => (hj2 j).trans (hi2 j)⟩
termination_by structural ts st => ts

end

theorem cascadeFold_inv (today : List Char) (hv : ValidTodayStr today) :
    ∀ (ts : List TaskTree) (st : List ParsedLine) (n : ℕ),
      (∀ pl ∈ st, LineOK pl) →
      (∀ j ∈ forestNodes ts, (lineAt st j).isTask = true) →
      (∀ pl ∈ (ts.foldl (fun (acc : List ParsedLine × ℕ) t =>
        ((cascadeRec today t acc.1).1, acc.2 + (cascadeRec today t acc.1).2))
        (st, n)).1, LineOK pl) ∧
      (∀ j, lineSig (lineAt (ts.foldl (fun (acc : List ParsedLine × ℕ) t =>
        ((cascadeRec today t acc.1).1, acc.2 + (cascadeRec today t acc.1).2))
        (st, n)).1 j) = lineSig (lineAt st j)) := by
  intro ts
  induction ts with
  | nil =>
    intro st n hall _
    exact ⟨hall, fun j => rfl⟩
  | cons t ts ih =>
    intro st n hall htask
    have hforest : forestNodes (t :: ts) = treeNodes t ++ forestNodes ts := rfl
    rw [List.foldl_cons]
    obtain ⟨hi1, hi2⟩ := cascadeRec_inv today hv t st hall
      (fun j hj => htask j (by rw [hforest]; exact List.mem_append.2 (Or.inl hj)))
    obtain ⟨hj1, hj2⟩ := ih (cascadeRec today t st).1
      (n + (cascadeRec today t st).2) hi1
      (fun j hj => by
        rw [sig_isTask (hi2 j)]
        exact htask j (by rw [hforest]; exact List.mem_append.2 (Or.inr hj)))
    exact ⟨hj1, fun j => (hj2 j).trans (hi2 j)⟩

theorem sweepLines_inv (today : List Char) (hv : ValidTodayStr today) :
    ∀ (ls : List ParsedLine),
      (∀ pl ∈ ls, LineOK pl) →
      (∀ pl ∈ (sweepLines today ls).1, LineOK pl) ∧
      (∀ j, lineSig (lineAt (sweepLines today ls).1 j) = lineSig (lineAt ls j)) ∧
      (∀ pl ∈ (sweepLines today ls).1, pl.isCompleted = true →
        pl.hasDoneTag = true) ∧
      (sweepLines today ls).1.length = ls.length := by
  intro ls
  induction ls with
  | nil =>
    intro _
    exact ⟨fun pl hpl => absurd hpl (List.not_mem_nil pl), fun j => rfl,
      fun pl hpl => absurd hpl (List.not_mem_nil pl), rfl⟩
  | cons pl rest ih =>
    intro hall
    obtain ⟨ih1, ih2, ih3, ih4⟩ := ih (fun q hq => hall q (List.mem_cons_of_mem _ hq))
    have hOK := hall pl (List.mem_cons_self _ _)
    have hcons : (sweepLines today (pl :: rest)).1 =
        (sweepLine today pl).1 :: (sweepLines today rest).1 := rfl
    rw [hcons]
    have hline : LineOK (sweepLine today pl).1 ∧
        lineSig (sweepLine today pl).1 = lineSig pl ∧
        ((sweepLine today pl).1.isCompleted = true →
          (sweepLine today pl).1.hasDoneTag = true) := by
      unfold sweepLine
      by_cases hc : (pl.isCompleted && !pl.hasDoneTag) = true
      · rw [if_pos hc]
        simp only [Bool.and_eq_true, Bool.not_eq_true'] at hc
        have hcc : IsCompleted pl.content = true := by
          rw [← hOK.2.1]
          exact hc.1
        obtain ⟨hf1, hf2, hf3, hf4⟩ := appendTag_facts hcc hv
        refine ⟨⟨?_, ?_, ?_, ?_, ?_⟩, rfl, fun _ => rfl⟩
        · show pl.isTask = _
          rw [hf1, hOK.1]
          exact isCompleted_isTask hcc
        · show pl.isCompleted = _
          rw [hf2, hc.1]
        · show true = _
          rw [hf3]
        · show pl.indent = _
          rw [hf4, ← hOK.2.2.2.1]
        · show nlChar ∉ _
          intro hm
          rcases List.mem_append.1 hm with h1 | h1
          · exact hOK.2.2.2.2 h1
          · exact doneTagText_no_nl hv h1
      · rw [if_neg hc]
        refine ⟨hOK, rfl, ?_⟩
        intro hcp
        cases ht : pl.hasDoneTag with
        | true => rfl
        | false =>
          exfalso
          apply hc
          rw [hcp, ht]
          rfl
    refine ⟨?_, ?_, ?_, ?_⟩
    · intro q hq
      rcases List.mem_cons.1 hq with rfl | h1
      · exact hline.1
      · exact ih1 q h1
    · intro j
      cases j with
      | zero => exact hline.2.1
      | succ m => exact ih2 m
    · intro q hq
      rcases List.mem_cons.1 hq with rfl | h1
      · exact hline.2.2
      · exact ih3 q h1
    · show (sweepLines today rest).1.length + 1 = rest.length + 1
      rw [ih4]

/-! ### Second-pass no-ops -/

theorem markLine_noop (today : List Char) (st : List ParsedLine) (idx : ℕ)
    (h : (lineAt st idx).isCompleted = true) :
    markLineCompleted today st idx = (st, 0) := by
  simp only [markLineCompleted, h, Bool.not_true]
  rfl

mutual

theorem markTree_noop (today : List Char) :
    ∀ (T : TaskTree) (st : List ParsedLine),
      (∀ j ∈ treeNodes T, (lineAt st j).isCompleted = true) →
      markTreeCompleted today T st = (st, 0)
  | .node idx cs, st => by
    intro h
    have h1 : markLineCompleted today st idx = (st, 0) :=
      markLine_noop today st idx (h idx (topIdx_mem_treeNodes (.node idx cs)))
    show ((markListCompleted today cs (markLineCompleted today st idx).1).1,
      (markLineCompleted today st idx).2 +
        (markListCompleted today cs (markLineCompleted today st idx).1).2) =
      (st, 0)
    rw [h1]
    have h2 : markListCompleted today cs st = (st, 0) :=
      markList_noop today cs st (fun j hj => h j (by
        rw [show treeNodes (TaskTree.node idx cs) = idx :: forestNodes cs from rfl]
        exact List.mem_cons_of_mem _ hj))
    show ((markListCompleted today cs st).1, 0 + (markListCompleted today cs st).2) =
      (st, 0)
    rw [h2]
    rfl
termination_by structural T st => T

theorem markList_noop (today : List Char) :
    ∀ (ts : List TaskTree) (st : List ParsedLine),
      (∀ j ∈ forestNodes ts, (lineAt st j).isCompleted = true) →
      markListCompleted today ts st = (st, 0)
  | [], st => by
    intro _
    rfl
  | t :: ts, st => by
    intro h
    have h1 : markTreeCompleted today t st = (st, 0) :=
      markTree_noop today t st (fun j hj => h j (by
        rw [show forestNodes (t :: ts) = treeNodes t ++ forestNodes ts from rfl]
        exact List.mem_append.2 (Or.inl hj)))
    show ((markListCompleted today ts (markTreeCompleted today t st).1).1,
      (markTreeCompleted today t st).2 +
        (markListCompleted today ts (markTreeCompleted today t st).1).2) =
      (st, 0)
    rw [h1]
    have h2 : markListCompleted today ts st = (st, 0) :=
      markList_noop today ts st (fun j hj => h j (by
        rw [show forestNodes (t :: ts) = treeNodes t ++ forestNodes ts from rfl]
        exact List.mem_append.2 (Or.inr hj)))
    show ((markListCompleted today ts st).1, 0 + (markListCompleted today ts st).2) =
      (st, 0)
    rw [h2]
    rfl
termination_by structural ts st => ts

end

mutual

theorem cascadeRec_noop (today : List Char) :
    ∀ (T : TaskTree) (st : List ParsedLine),
      (∀ sub ∈ allSubtrees T, (lineAt st sub.topIdx).isCompleted = true →
        ∀ j ∈ treeNodes sub, (lineAt st j).isCompleted = true) →
      cascadeRec today T st = (st, 0)
  | .node idx cs, st => by
    intro h
    have hsubs : ∀ sub ∈ allSubtreesF cs,
        (lineAt st sub.topIdx).isCompleted = true →
        ∀ j ∈ treeNodes sub, (lineAt st j).isCompleted = true :=
      fun sub hsub => h sub (by
        rw [show allSubtrees (TaskTree.node idx cs) =
          TaskTree.node idx cs :: allSubtreesF cs from rfl]
        exact List.mem_cons_of_mem _ hsub)
    have h2 : cascadeList today cs st = (st, 0) :=
      cascadeList_noop today cs st hsubs
    by_cases hc : (lineAt st idx).isCompleted = true
    · have h1 : markListCompleted today cs st = (st, 0) :=
        markList_noop today cs st (fun j hj =>
          h (TaskTree.node idx cs) (List.mem_cons_self _ _) hc j (by
            rw [show treeNodes (TaskTree.node idx cs) = idx :: forestNodes cs
              from rfl]
            exact List.mem_cons_of_mem _ hj))
      show ((cascadeList today cs (if (lineAt st idx).isCompleted = true
          then markListCompleted today cs st else (st, 0)).1).1,
        (if (lineAt st idx).isCompleted = true
          then markListCompleted today cs st else (st, 0)).2 +
        (cascadeList today cs (if (lineAt st idx).isCompleted = true
          then markListCompleted today cs st else (st, 0)).1).2) = (st, 0)
      rw [if_pos hc, h1]
      show ((cascadeList today cs st).1, 0 + (cascadeList today cs st).2) = (st, 0)
      rw [h2]
      rfl
    · show ((cascadeList today cs (if (lineAt st idx).isCompleted = true
          then markListCompleted today cs st else (st, 0)).1).1,
        (if (lineAt st idx).isCompleted = true
          then markListCompleted today cs st else (st, 0)).2 +
        (cascadeList today cs (if (lineAt st idx).isCompleted = true
          then markListCompleted today cs st else (st, 0)).1).2) = (st, 0)
      rw [if_neg hc]
      show ((cascadeList today cs st).1, 0 + (cascadeList today cs st).2) = (st, 0)
      rw [h2]
      rfl
termination_by structural T st => T

theorem cascadeList_noop (today : List Char) :
    ∀ (ts : List TaskTree) (st : List ParsedLine),
      (∀ sub ∈ allSubtreesF ts, (lineAt st sub.topIdx).isCompleted = true →
        ∀ j ∈ treeNodes sub, (lineAt st j).isCompleted = true) →
      cascadeList today ts st = (st, 0)
  | [], st => by
    intro _
    rfl
  | t :: ts, st => by
    intro h
    have h1 : cascadeRec today t st = (st, 0) :=
      cascadeRec_noop today t st (fun sub hsub => h sub (by
        rw [show allSubtreesF (t :: ts) = allSubtrees t ++ allSubtreesF ts from rfl]
        exact List.mem_append.2 (Or.inl hsub)))
    show ((cascadeList today ts (cascadeRec today t st).1).1,
      (cascadeRec today t st).2 +
        (cascadeList today ts (cascadeRec today t st).1).2) = (st, 0)
    rw [h1]
    have h2 : cascadeList today ts st = (st, 0) :=
      cascadeList_noop today ts st (fun sub hsub => h sub (by
        rw [show allSubtreesF (t :: ts) = allSubtrees t ++ allSubtreesF ts from rfl]
        exact List.mem_append.2 (Or.inr hsub)))
    show ((cascadeList today ts st).1, 0 + (cascadeList today ts st).2) = (st, 0)
    rw [h2]
    rfl
termination_by structural ts st => ts

end

theorem cascadeFold_noop (today : List Char) :
    ∀ (ts : List TaskTree) (st : List ParsedLine) (n : ℕ),
      (∀ sub ∈ allSubtreesF ts, (lineAt st sub.topIdx).isCompleted = true →
        ∀ j ∈ treeNodes sub, (lineAt st j).isCompleted = true) →
      ts.foldl (fun (acc : List ParsedLine × ℕ) t =>
        ((cascadeRec today t acc.1).1, acc.2 + (cascadeRec today t acc.1).2))
        (st, n) = (st, n) := by
  intro ts
  induction ts with
  | nil =>
    intro st n _
    rfl
  | cons t ts ih =>
    intro st n h
    rw [List.foldl_cons]
    have h1 : cascadeRec today t st = (st, 0) :=
      cascadeRec_noop today t st (fun sub hsub => h sub (by
        rw [show allSubtreesF (t :: ts) = allSubtrees t ++ allSubtreesF ts from rfl]
        exact List.mem_append.2 (Or.inl hsub)))
    rw [show ((cascadeRec today t (st, n).1).1,
      (st, n).2 + (cascadeRec today t (st, n).1).2) =
      ((cascadeRec today t st).1, n + (cascadeRec today t st).2) from rfl]
    rw [h1]
    exact ih st n (fun sub hsub => h sub (by
      rw [show allSubtreesF (t :: ts) = allSubtrees t ++ allSubtreesF ts from rfl]
      exact List.mem_append.2 (Or.inr hsub)))

theorem sweepLine_noop (today : List Char) (pl : ParsedLine)
    (h : pl.isCompleted = true → pl.hasDoneTag = true) :
    sweepLine today pl = (pl, 0) := by
  unfold sweepLine
  cases hx : pl.isCompleted with
  | false =>
    rfl
  | true =>
    rw [h hx]
    rfl

theorem sweepLines_noop (today : List Char) :
    ∀ (ls : List ParsedLine),
      (∀ pl ∈ ls, pl.isCompleted = true → pl.hasDoneTag = true) →
      sweepLines today ls = (ls, 0) := by
  intro ls
  induction ls with
  | nil =>
    intro _
    rfl
  | cons pl rest ih =>
    intro h
    show ((sweepLine today pl).1 :: (sweepLines today rest).1,
      (sweepLine today pl).2 + (sweepLines today rest).2) = (pl :: rest, 0)
    rw [sweepLine_noop today pl (h pl (List.mem_cons_self _ _))]
    rw [ih (fun q hq => h q (List.mem_cons_of_mem _ hq))]
    rfl

theorem buildTaskTrees_congr (L L2 : List ParsedLine)
    (h : L.map lineSig = L2.map lineSig) :
    BuildTaskTrees L = BuildTaskTrees L2 := by
  unfold BuildTaskTrees
  rw [foldl_buildStep_eq, foldl_buildStep_eq]
  have h1 := congrArg (fun l : List (ℕ × ℕ × Bool) =>
    (l.filter (fun t => t.2.2)).map (fun t => (t.1, t.2.1))) h
  simp only at h1
  rw [filter_map_comm, filter_map_comm, List.map_map, List.map_map] at h1
  have h2 : (L.filter (fun pl => pl.isTask)).map
      (fun pl => (pl.lineNumber, pl.indent)) =
      (L2.filter (fun pl => pl.isTask)).map
        (fun pl => (pl.lineNumber, pl.indent)) := h1
  rw [h2]

theorem cascade_closed (content today : List Char) :
    ∀ sub ∈ allSubtreesF (BuildTaskTrees (ParseLines content)),
      (lineAt (CascadeCompletion (ParseLines content) today).1
        sub.topIdx).isCompleted = true →
      ∀ j ∈ treeNodes sub,
        (lineAt (CascadeCompletion (ParseLines content) today).1 j).isCompleted =
          true := by
  intro sub hsubF hhead j hj
  have hNodup : (forestNodes (BuildTaskTrees (ParseLines content))).Nodup := by
    rw [forestNodes_buildTaskTrees]
    unfold taskIdxs
    exact (List.nodup_range _).filter _
  obtain ⟨hl, hm, hk, hu⟩ := cascadeFold_facts today
    (BuildTaskTrees (ParseLines content)) (ParseLines content) 0 hNodup
  have hcc : (CascadeCompletion (ParseLines content) today).1 =
      ((BuildTaskTrees (ParseLines content)).foldl
        (fun (acc : List ParsedLine × ℕ) t =>
          ((cascadeRec today t acc.1).1, acc.2 + (cascadeRec today t acc.1).2))
        (ParseLines content, 0)).1 := rfl
  have hbound : ∀ s2 ∈ allSubtreesF (BuildTaskTrees (ParseLines content)),
      ∀ k ∈ treeNodes s2, k < (ParseLines content).length := by
    intro s2 hs2 k hk2
    have h1 : k ∈ forestNodes (BuildTaskTrees (ParseLines content)) :=
      subtreeF_nodes_subset _ s2 hs2 k hk2
    rw [forestNodes_buildTaskTrees] at h1
    unfold taskIdxs at h1
    exact List.mem_range.1 (List.mem_of_mem_filter h1)
  rw [hcc]
  rw [hcc] at hhead
  rcases hu sub.topIdx hhead with hin2 | ⟨sub2, hsub2, hhead2, hmem2⟩
  · exact hk sub hsubF hin2 j hj (hbound sub hsubF j hj)
  · have hnest : ∀ x ∈ treeNodes sub, x ∈ treeNodes sub2 :=
      nestedF_subtrees _ hNodup sub hsubF sub2 hsub2 hmem2
    exact hk sub2 hsub2 hhead2 j (hnest j hj) (hbound sub2 hsub2 j (hnest j hj))

/-! ### Reparsing the processed output -/

theorem parseLines_length (c : List Char) :
    (ParseLines c).length = (splitLines c).length := by
  unfold ParseLines
  rw [List.length_map, List.enum_length]

theorem parseLines_pos (c : List Char) : 0 < (ParseLines c).length := by
  rw [parseLines_length]
  exact List.length_pos.2 (splitLines_ne_nil c)

theorem lineAt_lineNumber (c : List Char) (j : ℕ)
    (h : j < (ParseLines c).length) :
    (lineAt (ParseLines c) j).lineNumber = j := by
  unfold lineAt
  rw [List.getD_eq_getElem _ default h]
  have he : j < (ParseLines c).enum.length := by
    rw [List.enum_length]
    exact h
  have hq : (j, (ParseLines c)[j]) ∈ (ParseLines c).enum := by
    rw [← List.getElem_enum (ParseLines c) j he]
    exact List.getElem_mem he
  exact parseLines_lineNumber c _ hq

theorem parseLines_reconstruct (ls : List ParsedLine) (hne : ls ≠ [])
    (hOK : ∀ pl ∈ ls, LineOK pl)
    (hln : ∀ j, (h : j < ls.length) → ls[j].lineNumber = j) :
    ParseLines (ReconstructContent ls) = ls := by
  have hsplit : splitLines (ReconstructContent ls) =
      ls.map (fun pl => pl.content) := by
    unfold splitLines ReconstructContent
    exact List.splitOn_intercalate _ nlChar
      (fun l hl => by
        obtain ⟨pl, hpl, rfl⟩ := List.mem_map.1 hl
        exact (hOK pl hpl).2.2.2.2)
      (fun h0 => hne (List.map_eq_nil_iff.1 h0))
  unfold ParseLines
  rw [hsplit]
  apply List.ext_getElem
  · rw [List.length_map, List.enum_length, List.length_map]
  · intro i h1 h2
    simp only [List.getElem_map, List.getElem_enum]
    have hOK_i := hOK ls[i] (List.getElem_mem h2)
    have h1n := hln i h2
    unfold mkParsedLine
    have hr : ls[i] = ParsedLine.mk ls[i].lineNumber ls[i].content ls[i].indent
        ls[i].isTask ls[i].isCompleted ls[i].hasDoneTag := rfl
    conv_rhs => rw [hr]
    rw [ParsedLine.mk.injEq]
    exact ⟨h1n.symm, rfl, hOK_i.2.2.2.1.symm, hOK_i.1.symm, hOK_i.2.1.symm,
      hOK_i.2.2.1.symm⟩

theorem processed_lines_facts (content today : List Char)
    (hv : ValidTodayStr today) :
    (∀ pl ∈ (sweepLines today (CascadeCompletion (ParseLines content) today).1).1,
      LineOK pl) ∧
    (∀ j, lineSig (lineAt (sweepLines today
        (CascadeCompletion (ParseLines content) today).1).1 j) =
      lineSig (lineAt (ParseLines content) j)) ∧
    (∀ pl ∈ (sweepLines today (CascadeCompletion (ParseLines content) today).1).1,
      pl.isCompleted = true → pl.hasDoneTag = true) ∧
    (sweepLines today (CascadeCompletion (ParseLines content) today).1).1.length =
      (ParseLines content).length := by
  have htask : ∀ j ∈ forestNodes (BuildTaskTrees (ParseLines content)),
      (lineAt (ParseLines content) j).isTask = true := by
    intro j hj
    rw [forestNodes_buildTaskTrees] at hj
    have hb : taskB (ParseLines content) j = true := List.of_mem_filter hj
    exact hb
  have hX := cascadeFold_inv today hv (BuildTaskTrees (ParseLines content))
    (ParseLines content) 0 (parseLines_LineOK content) htask
  have hXfold : (CascadeCompletion (ParseLines content) today).1 =
      ((BuildTaskTrees (ParseLines content)).foldl
        (fun (acc : List ParsedLine × ℕ) t =>
          ((cascadeRec today t acc.1).1, acc.2 + (cascadeRec today t acc.1).2))
        (ParseLines content, 0)).1 := rfl
  have hNodup : (forestNodes (BuildTaskTrees (ParseLines content))).Nodup := by
    rw [forestNodes_buildTaskTrees]
    unfold taskIdxs
    exact (List.nodup_range _).filter _
  have hXlen := (cascadeFold_facts today (BuildTaskTrees (ParseLines content))
    (ParseLines content) 0 hNodup).1
  have hS := sweepLines_inv today hv
    (CascadeCompletion (ParseLines content) today).1
    (by rw [hXfold]; exact hX.1)
  refine ⟨hS.1, ?_, hS.2.2.1, ?_⟩
  · intro j
    refine (hS.2.1 j).trans ?_
    rw [hXfold]
    exact hX.2 j
  · rw [hS.2.2.2, hXfold]
    exact hXlen

theorem reparse_processed (content today : List Char) (hv : ValidTodayStr today) :
    ParseLines (ProcessContent content today).1 =
      (sweepLines today (CascadeCompletion (ParseLines content) today).1).1 := by
  obtain ⟨hOK, hsig, hclean, hlen⟩ := processed_lines_facts content today hv
  have hPC : (ProcessContent content today).1 =
      ReconstructContent (sweepLines today
        (CascadeCompletion (ParseLines content) today).1).1 := rfl
  rw [hPC]
  apply parseLines_reconstruct
  · intro h0
    have hz : (ParseLines content).length = 0 := by
      rw [← hlen, h0]
      rfl
    have hp := parseLines_pos content
    omega
  · exact hOK
  · intro j h
    have hj2 : j < (ParseLines content).length := by
      rw [← hlen]
      exact h
    calc ((sweepLines today
          (CascadeCompletion (ParseLines content) today).1).1)[j].lineNumber =
        (lineAt (sweepLines today
          (CascadeCompletion (ParseLines content) today).1).1 j).lineNumber := by
          unfold lineAt
          rw [List.getD_eq_getElem _ default h]
      _ = (lineAt (ParseLines content) j).lineNumber :=
        congrArg (fun t : ℕ × ℕ × Bool => t.1) (hsig j)
      _ = j := lineAt_lineNumber content j hj2

theorem processed_buildTrees_eq (content today : List Char)
    (hv : ValidTodayStr today) :
    BuildTaskTrees (sweepLines today
      (CascadeCompletion (ParseLines content) today).1).1 =
      BuildTaskTrees (ParseLines content) := by
  obtain ⟨hOK, hsig, hclean, hlen⟩ := processed_lines_facts content today hv
  apply buildTaskTrees_congr
  apply List.ext_getElem
  · rw [List.length_map, List.length_map, hlen]
  · intro i h1 h2
    rw [List.getElem_map, List.getElem_map]
    have hi1 : i < (sweepLines today
        (CascadeCompletion (ParseLines content) today).1).1.length := by
      rw [List.length_map] at h1
      exact h1
    have hi2 : i < (ParseLines content).length := by
      rw [List.length_map] at h2
      exact h2
    have hs := hsig i
    unfold lineAt at hs
    rw [List.getD_eq_getElem _ default hi1,
      List.getD_eq_getElem _ default hi2] at hs
    exact hs

theorem processed_cascade_noop (content today : List Char)
    (hv : ValidTodayStr today) :
    CascadeCompletion (sweepLines today
      (CascadeCompletion (ParseLines content) today).1).1 today =
      ((sweepLines today (CascadeCompletion (ParseLines content) today).1).1, 0) := by
  have hTT := processed_buildTrees_eq content today hv
  have hfold : CascadeCompletion (sweepLines today
      (CascadeCompletion (ParseLines content) today).1).1 today =
      (BuildTaskTrees (sweepLines today
        (CascadeCompletion (ParseLines content) today).1).1).foldl
        (fun (acc : List ParsedLine × ℕ) t =>
          ((cascadeRec today t acc.1).1, acc.2 + (cascadeRec today t acc.1).2))
        ((sweepLines today (CascadeCompletion (ParseLines content) today).1).1, 0) :=
    rfl
  rw [hfold, hTT]
  apply cascadeFold_noop
  intro sub hsub hhead j hj
  rw [sweepLines_isCompleted today
    (CascadeCompletion (ParseLines content) today).1 sub.topIdx] at hhead
  rw [sweepLines_isCompleted today
    (CascadeCompletion (ParseLines content) today).1 j]
  exact cascade_closed content today sub hsub hhead j hj

/-- C6: Idempotence.  For every content string and every today string of the
date shape the Go formatter always produces, running `ProcessContent` on its
own output returns that output unchanged with a changed count of 0: once a
completed task carries a tag, neither the cascade pass nor the tagger sweep
changes it or counts it again. -/
theorem process_idempotent (content today : List Char) (hv : ValidTodayStr today) :
    ProcessContent (ProcessContent content today).1 today =
      ((ProcessContent content today).1, 0) := by
  obtain ⟨hOK, hsig, hclean, hlen⟩ := processed_lines_facts content today hv
  have h1 : ProcessContent (ProcessContent content today).1 today =
      (ReconstructContent (sweepLines today (CascadeCompletion
          (ParseLines (ProcessContent content today).1) today).1).1,
        (CascadeCompletion (ParseLines (ProcessContent content today).1) today).2 +
          (sweepLines today (CascadeCompletion
            (ParseLines (ProcessContent content today).1) today).1).2) := rfl
  rw [h1, reparse_processed content today hv]
  have hcn := processed_cascade_noop content today hv
  have hsn := sweepLines_noop today
    (sweepLines today (CascadeCompletion (ParseLines content) today).1).1 hclean
  simp only [hcn, hsn, Nat.add_zero, Nat.zero_add]
  rfl

/-- Witness for the idempotence theorem at a concrete input: the today
string 2026-01-19 is date-shaped, and processing the processed form of a
parent task with an unchecked child returns it unchanged with count 0. -/
theorem process_idempotent_witness :
    ValidTodayStr ("2026-01-19".toList) ∧
    ProcessContent (ProcessContent ("- [x] Parent\n  - [ ] Child".toList)
        ("2026-01-19".toList)).1 ("2026-01-19".toList) =
      ((ProcessContent ("- [x] Parent\n  - [ ] Child".toList)
        ("2026-01-19".toList)).1, 0) :=
  ⟨by unfold ValidTodayStr; decide,
    process_idempotent _ _ (by unfold ValidTodayStr; decide)⟩

end TaskSpec
